import Mathlib

/-!
Graph ADT (adjacency list / matrix) and Dijkstra shortest paths

Shallow embedding of `src/main.cpp`.

Modelling conventions
* `weight_type` is a template parameter of the source; it is embedded as an
  arbitrary linearly ordered commutative ring `W` (`ℤ`, `ℚ`, ...), i.e. exact
  arithmetic.  `std::numeric_limits<double>::infinity()` in `min_distance` is
  `none : Option W`.
* The source instantiates `weight_type` with `double`, whose `+` rounds and
  overflows to infinity.  Where that decides a property of `path`, the sum
  `dist + weight` of the relax loop is taken by a parameter `add` (the
  definitions ending in `Fl`): `add a b` is the result of `a + b` in
  `weight_type` for finite `a`, `b`, and `none` when that result is infinity.
* Vertex indices (`int`) are natural numbers; every `assert(x >= 0 || ...)` of
  the graph classes therefore holds and is not repeated in the members.  The
  asserted conditions themselves, over `int` arguments, are `addEdge_assert`,
  `set_edge_value_assert`, and `addEdge_checked` / `set_edge_value_checked`
  are the calls guarded by them.
  An index outside the container is undefined behaviour in the source; the
  embedding reads a default there and writes nothing (`get_node_value`
  returns `none` for such a read).
* `previous` holds `int` with the sentinel `-1`; it is `List (Option Nat)` with
  `none` for `-1`.
* `std::vector` is `List`; `numEdge` (`int`) is `Int`.
* Loops that the source does not bound (`while (!vertex_queue.empty())`, the
  backward walk over `previous`) take a fuel argument and return `none` when it
  runs out.
-/

/-- Store the end of the edge and weight of the edge. -/
structure Neighbor (weight_type : Type) where
  vertex : Nat
  weight : weight_type
deriving DecidableEq

section GraphClasses

variable {vertex_type W : Type} [LinearOrderedCommRing W]

/-! ## AdjListGraph -/

/-- Adjacency list-based implementation of graph ADT (data members). -/
structure AdjListGraph (vertex_type W : Type) where
  numVertex : Nat
  numEdge : Int
  AdjacencyList : List (List (Neighbor W))
  vertices : List vertex_type

/-- Constructor `AdjListGraph(int numVert)`: `numVert` empty rows, no edge;
`vertices` is only reserved, so it stays empty. -/
def AdjListGraph.create (vertex_type W : Type) (numVert : Nat) : AdjListGraph vertex_type W :=
  { numVertex := numVert, numEdge := 0,
    AdjacencyList := List.replicate numVert [], vertices := [] }

def AdjListGraph.V (g : AdjListGraph vertex_type W) : Nat := g.numVertex

def AdjListGraph.E (g : AdjListGraph vertex_type W) : Int := g.numEdge

/-- The row `AdjacencyList[x]`. -/
def AdjListGraph.row (g : AdjListGraph vertex_type W) (x : Nat) : List (Neighbor W) :=
  g.AdjacencyList.getD x []

/-- The search `std::find_if(row.begin(), row.end(), elem.vertex == y)`: the first
entry of the row whose vertex is `y`, if any. -/
def findNeighbor (y : Nat) : List (Neighbor W) → Option (Neighbor W)
  | [] => none
  | elem :: rest => if elem.vertex = y then some elem else findNeighbor y rest

/-- Member `adjacent`: `find_if(...) != end()`. -/
def AdjListGraph.adjacent (g : AdjListGraph vertex_type W) (x y : Nat) : Bool :=
  (findNeighbor y (g.row x)).isSome

/-- Member `neighbors`: a copy of the row. -/
def AdjListGraph.neighbors (g : AdjListGraph vertex_type W) (x : Nat) : List (Neighbor W) :=
  g.row x

/-- The scan of `addEdge` / the assignment through `nit` in `set_edge_value`:
the first entry with vertex `y` gets weight `w`; `none` when there is none. -/
def overwriteNeighbor (y : Nat) (w : W) : List (Neighbor W) → Option (List (Neighbor W))
  | [] => none
  | it :: rest =>
    if it.vertex = y then some ({ it with weight := w } :: rest)
    else (overwriteNeighbor y w rest).map (fun r => it :: r)

/-- The `erase(nit)` of `deleteEdge`: drops the first entry with vertex `y`;
`none` when there is none. -/
def eraseNeighbor (y : Nat) : List (Neighbor W) → Option (List (Neighbor W))
  | [] => none
  | elem :: rest =>
    if elem.vertex = y then some rest
    else (eraseNeighbor y rest).map (fun r => elem :: r)

/-- Member `addEdge(int x, int y, weight_type w)`. -/
def AdjListGraph.addEdge (g : AdjListGraph vertex_type W) (x y : Nat) (w : W) :
    AdjListGraph vertex_type W :=
  match overwriteNeighbor y w (g.row x) with
  | some r => { g with AdjacencyList := g.AdjacencyList.set x r }
  | none =>
    { g with numEdge := g.numEdge + 1,
             AdjacencyList := g.AdjacencyList.set x (g.row x ++ [⟨y, w⟩]) }

/-- Member `addEdge(int x, int y)`: the weight is `weight_type()`, zero. -/
def AdjListGraph.addEdge2 (g : AdjListGraph vertex_type W) (x y : Nat) :
    AdjListGraph vertex_type W :=
  g.addEdge x y 0

/-- Member `deleteEdge`. -/
def AdjListGraph.deleteEdge (g : AdjListGraph vertex_type W) (x y : Nat) :
    AdjListGraph vertex_type W :=
  match eraseNeighbor y (g.row x) with
  | some r => { g with numEdge := g.numEdge - 1, AdjacencyList := g.AdjacencyList.set x r }
  | none => g

/-- Member `get_edge_value`: the weight of the found entry, `weight_type()`
(zero) if there's no edge. -/
def AdjListGraph.get_edge_value (g : AdjListGraph vertex_type W) (x y : Nat) : W :=
  match findNeighbor y (g.row x) with
  | some nit => nit.weight
  | none => 0

/-- Member `set_edge_value`. -/
def AdjListGraph.set_edge_value (g : AdjListGraph vertex_type W) (x y : Nat) (w : W) :
    AdjListGraph vertex_type W :=
  match overwriteNeighbor y w (g.row x) with
  | some r => { g with AdjacencyList := g.AdjacencyList.set x r }
  | none => g

/-! ## MatrixGraph -/

/-- Matrix based graph class (data members). -/
structure MatrixGraph (vertex_type W : Type) where
  numVertex : Nat
  numEdge : Int
  matrix : List (List W)
  vertices : List vertex_type

/-- Constructor `MatrixGraph(int numVert)`: a `numVert × numVert` matrix of zeros. -/
def MatrixGraph.create (vertex_type W : Type) [LinearOrderedCommRing W] (numVert : Nat) :
    MatrixGraph vertex_type W :=
  { numVertex := numVert, numEdge := 0,
    matrix := List.replicate numVert (List.replicate numVert 0), vertices := [] }

def MatrixGraph.V (g : MatrixGraph vertex_type W) : Nat := g.numVertex

def MatrixGraph.E (g : MatrixGraph vertex_type W) : Int := g.numEdge

/-- The cell `matrix[x][y]`. -/
def MatrixGraph.cell (g : MatrixGraph vertex_type W) (x y : Nat) : W :=
  (g.matrix.getD x []).getD y 0

/-- The assignment `matrix[x][y] = w`. -/
def MatrixGraph.setCell (m : List (List W)) (x y : Nat) (w : W) : List (List W) :=
  m.set x ((m.getD x []).set y w)

/-- Member `adjacent`: `matrix[x][y] != 0.0`. -/
def MatrixGraph.adjacent (g : MatrixGraph vertex_type W) (x y : Nat) : Bool :=
  decide (g.cell x y ≠ 0)

/-- Member `neighbors`: scans `i = 0 .. numVertex - 1` and reports the non-zero
cells of row `x`. -/
def MatrixGraph.neighbors (g : MatrixGraph vertex_type W) (x : Nat) : List (Neighbor W) :=
  (List.range g.numVertex).filterMap
    (fun i => if g.cell x i ≠ 0 then some ⟨i, g.cell x i⟩ else none)

/-- Member `addEdge(int x, int y, weight_type w)`. -/
def MatrixGraph.addEdge (g : MatrixGraph vertex_type W) (x y : Nat) (w : W) :
    MatrixGraph vertex_type W :=
  { g with numEdge := if g.cell x y = 0 then g.numEdge + 1 else g.numEdge,
           matrix := MatrixGraph.setCell g.matrix x y w }

/-- Member `addEdge(int x, int y)`: the weight is `weight_type()`, zero. -/
def MatrixGraph.addEdge2 (g : MatrixGraph vertex_type W) (x y : Nat) :
    MatrixGraph vertex_type W :=
  g.addEdge x y 0

/-- Member `deleteEdge`. -/
def MatrixGraph.deleteEdge (g : MatrixGraph vertex_type W) (x y : Nat) :
    MatrixGraph vertex_type W :=
  { g with numEdge := if g.cell x y ≠ 0 then g.numEdge - 1 else g.numEdge,
           matrix := MatrixGraph.setCell g.matrix x y 0 }

/-- Member `get_edge_value`. -/
def MatrixGraph.get_edge_value (g : MatrixGraph vertex_type W) (x y : Nat) : W :=
  g.cell x y

/-- Member `set_edge_value`. -/
def MatrixGraph.set_edge_value (g : MatrixGraph vertex_type W) (x y : Nat) (w : W) :
    MatrixGraph vertex_type W :=
  { g with matrix := MatrixGraph.setCell g.matrix x y w }

/-! ## AbstractGraph: the interface with its two implementations -/

/-- An object behind an `AbstractGraph*`: one of the two derived classes.  The
functions below are the virtual calls. -/
inductive AbstractGraph (vertex_type W : Type) where
  | adjList (g : AdjListGraph vertex_type W)
  | matrix (g : MatrixGraph vertex_type W)

/-- The dynamic type of the object is `AdjListGraph`. -/
def AbstractGraph.isAdjList : AbstractGraph vertex_type W → Bool
  | .adjList _ => true
  | .matrix _ => false

def AbstractGraph.V : AbstractGraph vertex_type W → Nat
  | .adjList g => g.V
  | .matrix g => g.V

def AbstractGraph.E : AbstractGraph vertex_type W → Int
  | .adjList g => g.E
  | .matrix g => g.E

def AbstractGraph.adjacent : AbstractGraph vertex_type W → Nat → Nat → Bool
  | .adjList g => g.adjacent
  | .matrix g => g.adjacent

def AbstractGraph.neighbors : AbstractGraph vertex_type W → Nat → List (Neighbor W)
  | .adjList g => g.neighbors
  | .matrix g => g.neighbors

def AbstractGraph.get_edge_value : AbstractGraph vertex_type W → Nat → Nat → W
  | .adjList g => g.get_edge_value
  | .matrix g => g.get_edge_value

def AbstractGraph.addEdge : AbstractGraph vertex_type W → Nat → Nat → W →
    AbstractGraph vertex_type W
  | .adjList g, x, y, w => .adjList (g.addEdge x y w)
  | .matrix g, x, y, w => .matrix (g.addEdge x y w)

def AbstractGraph.addEdge2 : AbstractGraph vertex_type W → Nat → Nat →
    AbstractGraph vertex_type W
  | .adjList g, x, y => .adjList (g.addEdge2 x y)
  | .matrix g, x, y => .matrix (g.addEdge2 x y)

def AbstractGraph.deleteEdge : AbstractGraph vertex_type W → Nat → Nat →
    AbstractGraph vertex_type W
  | .adjList g, x, y => .adjList (g.deleteEdge x y)
  | .matrix g, x, y => .matrix (g.deleteEdge x y)

def AbstractGraph.set_edge_value : AbstractGraph vertex_type W → Nat → Nat → W →
    AbstractGraph vertex_type W
  | .adjList g, x, y, w => .adjList (g.set_edge_value x y w)
  | .matrix g, x, y, w => .matrix (g.set_edge_value x y w)

/-! ## ShortestPath -/

/-- The comparison `a < b` of a finite distance with an entry of `min_distance`
(`none` is infinity). -/
def ltDist (a : W) : Option W → Bool
  | none => true
  | some b => decide (a < b)

/-- The order of `std::pair<weight_type, int>`: lexicographic `operator<`. -/
def pairLt (a b : W × Nat) : Bool :=
  decide (a.1 < b.1) || (decide (a.1 = b.1) && decide (a.2 < b.2))

/-- The element `vertex_queue.top()` of the min-heap
(`std::greater<std::pair<weight_type, int>>`): the least pair. -/
def queueTop : List (W × Nat) → Option (W × Nat)
  | [] => none
  | a :: rest =>
    match queueTop rest with
    | none => some a
    | some b => if pairLt b a then some b else some a

/-- The local state of the relax loop of `path`. -/
structure RelaxState (W : Type) where
  min_distance : List (Option W)
  previous : List (Option Nat)
  vertex_queue : List (W × Nat)

/-- The loop `for (auto &neighbor : neighbors)` of `path`. -/
def relaxNeighbors (dist : W) (u : Nat) : List (Neighbor W) → RelaxState W → RelaxState W
  | [], st => st
  | neighbor :: rest, st =>
    let v := neighbor.vertex
    let weight := neighbor.weight
    let distance_through_u := dist + weight
    if ltDist distance_through_u (st.min_distance.getD v none) then
      relaxNeighbors dist u rest
        { min_distance := st.min_distance.set v (some distance_through_u),
          previous := st.previous.set v (some u),
          vertex_queue := (distance_through_u, v) :: st.vertex_queue }
    else relaxNeighbors dist u rest st

/-- One pass through the body of `while (!vertex_queue.empty())`; `none` when
the queue is empty (the loop is left). -/
def relaxStep (g : AbstractGraph vertex_type W) (st : RelaxState W) : Option (RelaxState W) :=
  match queueTop st.vertex_queue with
  | none => none
  | some (dist, u) =>
    let st1 : RelaxState W := { st with vertex_queue := st.vertex_queue.erase (dist, u) }
    if ltDist dist (st.min_distance.getD u none) then some st1
    else some (relaxNeighbors dist u (g.neighbors u) st1)

/-- The loop `while (!vertex_queue.empty())`, at most `fuel` passes. -/
def relaxLoop (g : AbstractGraph vertex_type W) : Nat → RelaxState W → Option (RelaxState W)
  | 0, st => if st.vertex_queue = [] then some st else none
  | fuel + 1, st =>
    match relaxStep g st with
    | none => some st
    | some st1 => relaxLoop g fuel st1

/-- The loop `for (; target != -1; target = previous[target]) _path.push_back(target)`,
at most `fuel` passes. -/
def walkBack (previous : List (Option Nat)) : Nat → Option Nat → List Nat → Option (List Nat)
  | _, none, _path => some _path
  | 0, some _, _ => none
  | fuel + 1, some target, _path =>
    walkBack previous fuel (previous.getD target none) (_path ++ [target])

/-- Class containing implementation of Dijkstra algorithm (data members). -/
structure ShortestPath (vertex_type W : Type) where
  g : AbstractGraph vertex_type W
  min_distance : List (Option W)
  previous : List (Option Nat)
  _path : List Nat

/-- Constructor `ShortestPath(AbstractGraph*)`: the vectors start empty. -/
def ShortestPath.create (g : AbstractGraph vertex_type W) : ShortestPath vertex_type W :=
  { g := g, min_distance := [], previous := [], _path := [] }

/-- The initialisation of `path`: `min_distance` is infinity everywhere but
zero at the source, `previous` is `-1` everywhere, the queue holds the source. -/
def ShortestPath.initState (n source : Nat) : RelaxState W :=
  { min_distance := (List.replicate n none).set source (some 0),
    previous := List.replicate n none,
    vertex_queue := [(0, source)] }

/-- Member `path(source, target)`: the engine after the call and the returned
vector; `none` when a loop needs more than `fuel` passes.  The message printed
for a path of fewer than two vertices is not part of the result. -/
def ShortestPath.path (fuel : Nat) (sp : ShortestPath vertex_type W) (source target : Nat) :
    Option (ShortestPath vertex_type W × List Nat) :=
  match relaxLoop sp.g fuel (ShortestPath.initState sp.g.V source) with
  | none => none
  | some st =>
    match walkBack st.previous fuel (some target) [] with
    | none => none
    | some p =>
      let _path := p.reverse
      some ({ sp with min_distance := st.min_distance, previous := st.previous, _path := _path },
            _path)

/-- The sum of `get_edge_value(p[i], p[i+1])` over `i = 0 .. p.size() - 2`,
nested from the right; `sumEdges` below is the loop as the source runs it. -/
def pathCost (g : AbstractGraph vertex_type W) : List Nat → W
  | a :: b :: rest => g.get_edge_value a b + pathCost g (b :: rest)
  | _ => 0

/-- The loop of `path_size`, `sum += get_edge_value(_path[i], _path[i+1])` from
the left, starting at `sum`. -/
def sumEdges (g : AbstractGraph vertex_type W) : W → List Nat → W
  | sum, a :: b :: rest => sumEdges g (sum + g.get_edge_value a b) (b :: rest)
  | sum, _ => sum

/-- Member `path_size(source, target)`: the engine after the call and the
returned cost (`-1` when the sum is zero).  `_path` is never empty after
`path`, so `_path.size() - 1` does not wrap. -/
def ShortestPath.path_size (fuel : Nat) (sp : ShortestPath vertex_type W) (source target : Nat) :
    Option (ShortestPath vertex_type W × W) :=
  match sp.path fuel source target with
  | none => none
  | some (sp1, _) =>
    let sum := sumEdges sp1.g 0 sp1._path
    if sum = 0 then some (sp1, -1) else some (sp1, sum)

end GraphClasses

section Predicates

variable {vertex_type W : Type} [LinearOrderedCommRing W]

/-- Class invariant of `AdjListGraph`: one row per vertex, every stored end
vertex is a vertex of the graph, and no row holds two entries for one vertex. -/
def AdjListGraph.WellFormed (g : AdjListGraph vertex_type W) : Prop :=
  g.AdjacencyList.length = g.numVertex ∧
  ∀ r ∈ g.AdjacencyList, (r.map Neighbor.vertex).Nodup ∧ ∀ e ∈ r, e.vertex < g.numVertex

/-- Class invariant of `MatrixGraph`: the matrix is `numVertex × numVertex`. -/
def MatrixGraph.WellFormed (g : MatrixGraph vertex_type W) : Prop :=
  g.matrix.length = g.numVertex ∧ ∀ r ∈ g.matrix, r.length = g.numVertex

def AbstractGraph.WellFormed : AbstractGraph vertex_type W → Prop
  | .adjList g => g.WellFormed
  | .matrix g => g.WellFormed

instance AdjListGraph.decidableWellFormed (g : AdjListGraph vertex_type W) :
    Decidable g.WellFormed := by
  unfold AdjListGraph.WellFormed; infer_instance

instance MatrixGraph.decidableWellFormed (g : MatrixGraph vertex_type W) :
    Decidable g.WellFormed := by
  unfold MatrixGraph.WellFormed; infer_instance

instance AbstractGraph.decidableWellFormed (g : AbstractGraph vertex_type W) :
    Decidable g.WellFormed :=
  match g with
  | .adjList a => AdjListGraph.decidableWellFormed a
  | .matrix m => MatrixGraph.decidableWellFormed m

/-- All edge weights reported by `neighbors` are non-negative. -/
def AbstractGraph.NonNegWeights (g : AbstractGraph vertex_type W) : Prop :=
  ∀ x < g.V, ∀ e ∈ g.neighbors x, 0 ≤ e.weight

instance AbstractGraph.decidableNonNegWeights (g : AbstractGraph vertex_type W) :
    Decidable g.NonNegWeights := by
  unfold AbstractGraph.NonNegWeights; infer_instance

/-- There are directed edges leading from `s` to `t` (`adjacent` at every hop). -/
def AbstractGraph.Reaches (g : AbstractGraph vertex_type W) (s t : Nat) : Prop :=
  Relation.ReflTransGen (fun a b => g.adjacent a b = true) s t

/-- A directed walk: consecutive vertices are joined by an edge. -/
def AbstractGraph.IsWalk (g : AbstractGraph vertex_type W) (p : List Nat) : Prop :=
  List.Chain' (fun a b => g.adjacent a b = true) p

/-- What Dijkstra needs of a graph through the interface: edges join vertices
of the graph, `get_edge_value` and `adjacent` agreeing with
`neighbors`. -/
structure AbstractGraph.Good (g : AbstractGraph vertex_type W) : Prop where
  range : ∀ u, ∀ e ∈ g.neighbors u, e.vertex < g.V
  src_range : ∀ u, ∀ e ∈ g.neighbors u, u < g.V
  value : ∀ u, ∀ e ∈ g.neighbors u, g.get_edge_value u e.vertex = e.weight
  adj : ∀ u v, g.adjacent u v = true ↔ ∃ e ∈ g.neighbors u, e.vertex = v

/-- Invariant of the relax loop while the neighbours `rem` of vertex `u` are
still to be examined (`rem = []` between two passes of the outer loop).
`done` is the set of vertices popped so far, `dep` a height that decreases
along `previous`. -/
structure RelaxInv (g : AbstractGraph vertex_type W) (s : Nat) (done : Finset Nat)
    (dep : Nat → Nat) (u : Nat) (rem : List (Neighbor W)) (st : RelaxState W) : Prop where
  len_md : st.min_distance.length = g.V
  len_prev : st.previous.length = g.V
  src_md : st.min_distance.getD s none = some 0
  src_prev : st.previous.getD s none = none
  src_done : s ∈ done ∨ (done = ∅ ∧ st.vertex_queue = [(0, s)])
  queue : ∀ d v, (d, v) ∈ st.vertex_queue →
    v < g.V ∧ ∃ m, st.min_distance.getD v none = some m ∧ m ≤ d
  pending : ∀ v m, st.min_distance.getD v none = some m →
    v ∈ done ∨ (m, v) ∈ st.vertex_queue
  done_lt : ∀ x ∈ done, x < g.V
  settled : ∀ x ∈ done, ∃ mx, st.min_distance.getD x none = some mx ∧
    (∀ d y, (d, y) ∈ st.vertex_queue → mx ≤ d) ∧
    ∀ e ∈ g.neighbors x, (x = u ∧ e ∈ rem) ∨
      ∃ mv, st.min_distance.getD e.vertex none = some mv ∧ mv ≤ mx + e.weight
  tree : ∀ v p, st.previous.getD v none = some p →
    p ∈ done ∧ v ≠ s ∧ dep p < dep v ∧
    ∃ e ∈ g.neighbors p, e.vertex = v ∧ ∃ mp, st.min_distance.getD p none = some mp ∧
      st.min_distance.getD v none = some (mp + e.weight)
  has_prev : ∀ v m, st.min_distance.getD v none = some m → v ≠ s →
    ∃ p, st.previous.getD v none = some p
  reach : ∀ v m, st.min_distance.getD v none = some m → g.Reaches s v

/-- The graph states reachable from a constructor by `addEdge` (either
overload), `deleteEdge` and `set_edge_value` calls with in-range indices. -/
inductive AbstractGraph.Reachable : AbstractGraph vertex_type W → Prop where
  | createList (n : Nat) : Reachable (.adjList (AdjListGraph.create vertex_type W n))
  | createMatrix (n : Nat) : Reachable (.matrix (MatrixGraph.create vertex_type W n))
  | addEdge (g : AbstractGraph vertex_type W) (x y : Nat) (w : W) :
      Reachable g → x < g.V → y < g.V → Reachable (g.addEdge x y w)
  | addEdge2 (g : AbstractGraph vertex_type W) (x y : Nat) :
      Reachable g → x < g.V → y < g.V → Reachable (g.addEdge2 x y)
  | deleteEdge (g : AbstractGraph vertex_type W) (x y : Nat) :
      Reachable g → x < g.V → y < g.V → Reachable (g.deleteEdge x y)
  | set_edge_value (g : AbstractGraph vertex_type W) (x y : Nat) (w : W) :
      Reachable g → x < g.V → y < g.V → Reachable (g.set_edge_value x y w)

/-- A sequence of `addEdge(x, y, w)` calls, in order. -/
def AbstractGraph.addEdges (g : AbstractGraph vertex_type W) (calls : List (Nat × Nat × W)) :
    AbstractGraph vertex_type W :=
  calls.foldl (fun g c => g.addEdge c.1 c.2.1 c.2.2) g

/-- Two graph objects that present the same positively weighted edges through
the interface. -/
structure SameEdges (g1 g2 : AbstractGraph vertex_type W) (n : Nat) : Prop where
  wf1 : g1.WellFormed
  wf2 : g2.WellFormed
  v1 : g1.V = n
  v2 : g2.V = n
  value : ∀ x y, g1.get_edge_value x y = g2.get_edge_value x y
  adj : ∀ x y, g1.adjacent x y = g2.adjacent x y
  pos : ∀ x y, g1.adjacent x y = true → 0 < g1.get_edge_value x y

/-- Termination measure of the relax loop. -/
def relaxMeasure (g : AbstractGraph vertex_type W) (done : Finset Nat) (st : RelaxState W) : Nat :=
  st.vertex_queue.length + ∑ x in Finset.range g.V \ done, ((g.neighbors x).length + 1)

end Predicates

/-! ## The test graph of `test1` / `test2` -/

/-- The 18 `addEdge` calls shared by `test1` and `test2`. -/
def testEdges : List (Nat × Nat × ℤ) :=
  [(0, 1, 7), (0, 2, 9), (0, 5, 14),
   (1, 0, 7), (1, 2, 10), (1, 3, 15),
   (2, 0, 9), (2, 1, 10), (2, 3, 11), (2, 5, 2),
   (3, 1, 15), (3, 2, 11), (3, 4, 6),
   (4, 3, 6), (4, 5, 9),
   (5, 0, 14), (5, 2, 2), (5, 4, 9)]

/-- The graph of `test1`: `AdjListGraph<int,double> g(6)` after the calls. -/
def test1Graph : AbstractGraph ℤ ℤ :=
  (AbstractGraph.adjList (AdjListGraph.create ℤ ℤ 6)).addEdges testEdges

/-- The graph of `test2`: `MatrixGraph<int,double> g(6)` after the calls. -/
def test2Graph : AbstractGraph ℤ ℤ :=
  (AbstractGraph.matrix (MatrixGraph.create ℤ ℤ 6)).addEdges testEdges

/-- The engine of `test1`: `ShortestPath<int, double> sp(&g)`. -/
def test1Engine : ShortestPath ℤ ℤ := ShortestPath.create test1Graph

/-- A three-vertex adjacency-list graph with the single edge `0 -> 1` of
weight 5; vertex 2 is isolated. -/
def isolatedGraph : AbstractGraph ℤ ℤ :=
  (AbstractGraph.adjList (AdjListGraph.create ℤ ℤ 3)).addEdge 0 1 5

/-- The queries of `test1` / `test2` on a graph `g`: `sp.path(0, 4)` (printed
after "Path: ") and then, on the same engine, `sp.path_size(0, 4)` (printed
after "Path cost: "). -/
def runTest (fuel : Nat) (g : AbstractGraph ℤ ℤ) : Option (List Nat × ℤ) :=
  match (ShortestPath.create g).path fuel 0 4 with
  | none => none
  | some (sp, path) =>
    match sp.path_size fuel 0 4 with
    | none => none
    | some (_, cost) => some (path, cost)

/-! ## Further members and harness of the source -/

section MoreDefinitions

variable {vertex_type W : Type} [LinearOrderedCommRing W]

/-- Member `AdjListGraph::get_node_value`: `vertices[x]`; `none` stands for a
read outside the vector. -/
def AdjListGraph.get_node_value (g : AdjListGraph vertex_type W) (x : Nat) : Option vertex_type :=
  g.vertices.get? x

/-- Member `AdjListGraph::set_node_value`: `if (x >= 0) return; vertices[x] = value;`. -/
def AdjListGraph.set_node_value (g : AdjListGraph vertex_type W) (x : Nat) (value : vertex_type) :
    AdjListGraph vertex_type W :=
  if (0 : Int) ≤ (x : Int) then g else { g with vertices := g.vertices.set x value }

/-- Member `MatrixGraph::get_node_value`: `vertices[x]`; `none` stands for a
read outside the vector. -/
def MatrixGraph.get_node_value (g : MatrixGraph vertex_type W) (x : Nat) : Option vertex_type :=
  g.vertices.get? x

/-- Member `MatrixGraph::set_node_value`: `vertices[x] = value`. -/
def MatrixGraph.set_node_value (g : MatrixGraph vertex_type W) (x : Nat) (value : vertex_type) :
    MatrixGraph vertex_type W :=
  { g with vertices := g.vertices.set x value }

def AbstractGraph.get_node_value : AbstractGraph vertex_type W → Nat → Option vertex_type
  | .adjList g => g.get_node_value
  | .matrix g => g.get_node_value

def AbstractGraph.set_node_value : AbstractGraph vertex_type W → Nat → vertex_type →
    AbstractGraph vertex_type W
  | .adjList g, x, value => .adjList (g.set_node_value x value)
  | .matrix g, x, value => .matrix (g.set_node_value x value)

/-- The condition of the `assert` in `AdjListGraph::addEdge(int, int, weight_type)`:
`x >= 0 || y >= 0 || w >= 0`. -/
def AdjListGraph.addEdge_assert (x y : Int) (w : W) : Bool :=
  decide (0 ≤ x) || decide (0 ≤ y) || decide (0 ≤ w)

/-- The condition of the `assert` in `AdjListGraph::set_edge_value`: `x >= 0 || y >= 0`. -/
def AdjListGraph.set_edge_value_assert (x y : Int) : Bool :=
  decide (0 ≤ x) || decide (0 ≤ y)

/-- The condition of the `assert` in `MatrixGraph::addEdge(int, int, weight_type)`:
`x >= 0 || y >= 0`. -/
def MatrixGraph.addEdge_assert (x y : Int) : Bool :=
  decide (0 ≤ x) || decide (0 ≤ y)

/-- The condition of the `assert` in `MatrixGraph::set_edge_value`:
`x >= 0 || y >= 0 || w >= 0`. -/
def MatrixGraph.set_edge_value_assert (x y : Int) (w : W) : Bool :=
  decide (0 ≤ x) || decide (0 ≤ y) || decide (0 ≤ w)

/-- The call `addEdge(x, y, w)` with its assertion: `none` when the assertion
fails (the program aborts). -/
def AbstractGraph.addEdge_checked (g : AbstractGraph vertex_type W) (x y : Int) (w : W) :
    Option (AbstractGraph vertex_type W) :=
  match g with
  | .adjList a =>
    if AdjListGraph.addEdge_assert x y w then some (.adjList (a.addEdge x.toNat y.toNat w))
    else none
  | .matrix m =>
    if MatrixGraph.addEdge_assert x y then some (.matrix (m.addEdge x.toNat y.toNat w))
    else none

/-- The call `set_edge_value(x, y, w)` with its assertion: `none` when the
assertion fails (the program aborts). -/
def AbstractGraph.set_edge_value_checked (g : AbstractGraph vertex_type W) (x y : Int) (w : W) :
    Option (AbstractGraph vertex_type W) :=
  match g with
  | .adjList a =>
    if AdjListGraph.set_edge_value_assert x y then
      some (.adjList (a.set_edge_value x.toNat y.toNat w))
    else none
  | .matrix m =>
    if MatrixGraph.set_edge_value_assert x y w then
      some (.matrix (m.set_edge_value x.toNat y.toNat w))
    else none

/-- The total number of `Neighbor` entries over all rows. -/
def AdjListGraph.entryCount (g : AdjListGraph vertex_type W) : Nat :=
  (g.AdjacencyList.map List.length).sum

/-- The number of pairs `(x, y)` of vertices with `adjacent(x, y)`. -/
def AbstractGraph.adjacentPairs (g : AbstractGraph vertex_type W) : Nat :=
  ((List.range g.V).map (fun x => (List.range g.V).countP (fun y => g.adjacent x y))).sum

/-- A call of `addEdge(x, y, w)` or `deleteEdge(x, y)`. -/
inductive EdgeCall (W : Type) where
  | add (x y : Nat) (w : W)
  | delete (x y : Nat)

/-- The call has in-range indices for `n` vertices and, for `addEdge`, a
strictly positive weight. -/
def EdgeCall.Valid (n : Nat) : EdgeCall W → Prop
  | .add x y w => x < n ∧ y < n ∧ 0 < w
  | .delete x y => x < n ∧ y < n

instance EdgeCall.decidableValid (n : Nat) (c : EdgeCall W) : Decidable (c.Valid n) :=
  match c with
  | .add x y w => inferInstanceAs (Decidable (x < n ∧ y < n ∧ 0 < w))
  | .delete x y => inferInstanceAs (Decidable (x < n ∧ y < n))

def AbstractGraph.applyCall (g : AbstractGraph vertex_type W) : EdgeCall W →
    AbstractGraph vertex_type W
  | .add x y w => g.addEdge x y w
  | .delete x y => g.deleteEdge x y

/-- A sequence of `addEdge` / `deleteEdge` calls, in order. -/
def AbstractGraph.applyCalls (g : AbstractGraph vertex_type W) (calls : List (EdgeCall W)) :
    AbstractGraph vertex_type W :=
  calls.foldl (fun g c => g.applyCall c) g

/-- One pass through the body of `for (auto &neighbor : neighbors)`. -/
def relaxOne (dist : W) (u : Nat) (neighbor : Neighbor W) (st : RelaxState W) : RelaxState W :=
  if ltDist (dist + neighbor.weight) (st.min_distance.getD neighbor.vertex none) then
    { min_distance := st.min_distance.set neighbor.vertex (some (dist + neighbor.weight)),
      previous := st.previous.set neighbor.vertex (some u),
      vertex_queue := (dist + neighbor.weight, neighbor.vertex) :: st.vertex_queue }
  else st

/-- Exactly `k` passes through the body of `while (!vertex_queue.empty())`;
`none` when the queue runs empty before. -/
def relaxPasses (g : AbstractGraph vertex_type W) : Nat → RelaxState W → Option (RelaxState W)
  | 0, st => some st
  | k + 1, st =>
    match relaxStep g st with
    | none => none
    | some st1 => relaxPasses g k st1

/-- Two loop states with the same vectors and the same queue content (the heap
layout aside). -/
structure StateEquiv (a b : RelaxState W) : Prop where
  md : a.min_distance = b.min_distance
  prev : a.previous = b.previous
  queue : a.vertex_queue.Perm b.vertex_queue

/-- Invariant of the relax loop for arbitrary weights: every queue entry is at
least the recorded distance of its vertex. -/
structure QueueInv (g : AbstractGraph vertex_type W) (st : RelaxState W) : Prop where
  len_md : st.min_distance.length = g.V
  entries : ∀ d v, (d, v) ∈ st.vertex_queue →
    v < g.V ∧ ∃ m, st.min_distance.getD v none = some m ∧ m ≤ d

/-- One pass of the inner loop of `MonteCarloSimulation::random_graph` at
`(i, j)`.  `edgeDraw i j` is the outcome of `edge_distribution(gen) <= edge_dens`
there and `distDraw i j` the value of `distance_distribution(gen)`.  The second
component counts how often the pair `addEdge(i, j, dist); addEdge(j, i, dist)`
was executed. -/
def MonteCarloSimulation.edgeStep (edgeDraw : Nat → Nat → Bool) (distDraw : Nat → Nat → W)
    (i j : Nat) (st : AdjListGraph vertex_type W × Nat) : AdjListGraph vertex_type W × Nat :=
  if edgeDraw i j then
    if !(st.1.adjacent i j && st.1.adjacent j i) then
      ((st.1.addEdge i j (distDraw i j)).addEdge j i (distDraw i j), st.2 + 1)
    else st
  else st

/-- The edge-generation loops of `MonteCarloSimulation::random_graph`: the graph
`g` after them and the number of executed `addEdge` pairs. -/
def MonteCarloSimulation.generateEdges (vertex_type : Type) (graph_size : Nat)
    (edgeDraw : Nat → Nat → Bool) (distDraw : Nat → Nat → W) :
    AdjListGraph vertex_type W × Nat :=
  (List.range graph_size).foldl
    (fun st i => (List.range graph_size).foldl
      (fun st j => MonteCarloSimulation.edgeStep edgeDraw distDraw i j st) st)
    (AdjListGraph.create vertex_type W graph_size, 0)

/-- The value printed after "Number of edges: ": `g.E()/2` (`int` division). -/
def MonteCarloSimulation.printedEdges (g : AdjListGraph vertex_type W) : Int :=
  Int.tdiv g.E 2

end MoreDefinitions

/-- A four-vertex adjacency-list graph on which `path(0, 3)` pops a stale
queue entry: `0 -> 1` (10), `0 -> 2` (1), `2 -> 1` (1), `1 -> 3` (1). -/
def staleGraph : AbstractGraph ℤ ℤ :=
  (AbstractGraph.adjList (AdjListGraph.create ℤ ℤ 4)).addEdges
    [(0, 1, 10), (0, 2, 1), (2, 1, 1), (1, 3, 1)]

/-! ## The relax loop over the arithmetic of `weight_type`

`test1`, `test2` and `MonteCarloSimulation` instantiate `weight_type` with
`double`, whose `+` rounds and overflows to infinity.  The definitions below
repeat the relax loop of `path` with the sum `dist + weight` taken by a
parameter `add` instead of the exact `+` of `W`: `add a b` is the result of
`a + b` in `weight_type` on finite operands, `none` when that result is
infinity.  With `exactAdd` they are the definitions above. -/

section RoundedArithmetic

variable {vertex_type W : Type} [LinearOrderedCommRing W]

/-- Addition without rounding and without overflow. -/
def exactAdd (a b : W) : Option W := some (a + b)

/-- The overflow of `double` addition on integer values: a sum of `2 ^ 1024` or
more is infinity (the largest finite `double` is below `2 ^ 1024`).  Rounding
of sums below that bound is not modelled; the definition is used on operands
whose sum is a power of two or overflows. -/
def doubleAdd (a b : ℤ) : Option ℤ :=
  if a + b < Int.ofNat (2 ^ 1024) then some (a + b) else none

/-- The weight `2 ^ 1023`, a finite `double`. -/
def hugeWeight : ℤ := Int.ofNat (2 ^ 1023)

/-- What the relax loop needs of the addition of `weight_type`, with `Rep` the
values that `weight_type` represents: sums are representable, adding a
non-negative weight to a representable distance does not decrease it, and
addition is monotone in the distance.  Rounding to nearest (and every directed
rounding) has these properties. -/
structure RoundedAdd (add : W → W → Option W) (Rep : W → Prop) : Prop where
  rep_zero : Rep 0
  rep_add : ∀ a b c, add a b = some c → Rep c
  ge_left : ∀ d w c, Rep d → 0 ≤ w → add d w = some c → d ≤ c
  mono : ∀ a b w ca cb, a ≤ b → add a w = some ca → add b w = some cb → ca ≤ cb

/-- One pass through the body of `for (auto &neighbor : neighbors)`:
`distance_through_u = dist + weight` is taken by `add`; an infinite
`distance_through_u` is below no entry of `min_distance`, so nothing is
stored. -/
def relaxOneFl (add : W → W → Option W) (dist : W) (u : Nat) (neighbor : Neighbor W)
    (st : RelaxState W) : RelaxState W :=
  let v := neighbor.vertex
  let weight := neighbor.weight
  match add dist weight with
  | none => st
  | some distance_through_u =>
    if ltDist distance_through_u (st.min_distance.getD v none) then
      { min_distance := st.min_distance.set v (some distance_through_u),
        previous := st.previous.set v (some u),
        vertex_queue := (distance_through_u, v) :: st.vertex_queue }
    else st

/-- The loop `for (auto &neighbor : neighbors)` of `path`. -/
def relaxNeighborsFl (add : W → W → Option W) (dist : W) (u : Nat) :
    List (Neighbor W) → RelaxState W → RelaxState W
  | [], st => st
  | neighbor :: rest, st => relaxNeighborsFl add dist u rest (relaxOneFl add dist u neighbor st)

/-- One pass through the body of `while (!vertex_queue.empty())`; `none` when
the queue is empty (the loop is left). -/
def relaxStepFl (g : AbstractGraph vertex_type W) (add : W → W → Option W)
    (st : RelaxState W) : Option (RelaxState W) :=
  match queueTop st.vertex_queue with
  | none => none
  | some (dist, u) =>
    let st1 : RelaxState W := { st with vertex_queue := st.vertex_queue.erase (dist, u) }
    if ltDist dist (st.min_distance.getD u none) then some st1
    else some (relaxNeighborsFl add dist u (g.neighbors u) st1)

/-- The loop `while (!vertex_queue.empty())`, at most `fuel` passes. -/
def relaxLoopFl (g : AbstractGraph vertex_type W) (add : W → W → Option W) :
    Nat → RelaxState W → Option (RelaxState W)
  | 0, st => if st.vertex_queue = [] then some st else none
  | fuel + 1, st =>
    match relaxStepFl g add st with
    | none => some st
    | some st1 => relaxLoopFl g add fuel st1

/-- Exactly `k` passes through the body of `while (!vertex_queue.empty())`;
`none` when the queue runs empty before. -/
def relaxPassesFl (g : AbstractGraph vertex_type W) (add : W → W → Option W) :
    Nat → RelaxState W → Option (RelaxState W)
  | 0, st => some st
  | k + 1, st =>
    match relaxStepFl g add st with
    | none => none
    | some st1 => relaxPassesFl g add k st1

/-- Member `path(source, target)` with the sums of the relax loop taken by
`add`: the engine after the call and the returned vector; `none` when a loop
needs more than `fuel` passes. -/
def ShortestPath.pathFl (add : W → W → Option W) (fuel : Nat) (sp : ShortestPath vertex_type W)
    (source target : Nat) : Option (ShortestPath vertex_type W × List Nat) :=
  match relaxLoopFl sp.g add fuel (ShortestPath.initState sp.g.V source) with
  | none => none
  | some st =>
    match walkBack st.previous fuel (some target) [] with
    | none => none
    | some p =>
      let _path := p.reverse
      some ({ sp with min_distance := st.min_distance, previous := st.previous, _path := _path },
            _path)

/-- No sum `dist + weight` that the relax loop of `path(source, ...)` forms is
infinite: in every state the loop reaches, the entry on top of the queue gives
a finite sum with the weight of every neighbour. -/
def NoOverflow (g : AbstractGraph vertex_type W) (add : W → W → Option W) (source : Nat) : Prop :=
  ∀ (k : Nat) (st : RelaxState W),
    relaxPassesFl g add k (ShortestPath.initState g.V source) = some st →
    ∀ dist u, queueTop st.vertex_queue = some (dist, u) →
      ∀ e ∈ g.neighbors u, add dist e.weight ≠ none

/-- The weight of a vertex sequence in `weight_type`: `get_edge_value` of the
consecutive pairs, added from the left by `add` onto `sum`; `none` is an
infinite sum. -/
def walkWeight (g : AbstractGraph vertex_type W) (add : W → W → Option W) :
    Option W → List Nat → Option W
  | sum, a :: b :: rest =>
    walkWeight g add (sum.bind (fun x => add x (g.get_edge_value a b))) (b :: rest)
  | sum, _ => sum

/-- The order `a ≤ b` of two weights of which either may be infinite (`none`). -/
def leInf : Option W → Option W → Prop
  | _, none => True
  | none, some _ => False
  | some a, some b => a ≤ b

/-- Invariant of the relax loop over `add`, while the neighbours `rem` of
vertex `u` are still to be examined (`rem = []` between two passes of the outer
loop).  `done` is the set of vertices popped so far, `dep` a height that
decreases along `previous`. -/
structure RelaxInvFl (g : AbstractGraph vertex_type W) (add : W → W → Option W)
    (Rep : W → Prop) (s : Nat) (done : Finset Nat)
    (dep : Nat → Nat) (u : Nat) (rem : List (Neighbor W)) (st : RelaxState W) : Prop where
  len_md : st.min_distance.length = g.V
  len_prev : st.previous.length = g.V
  src_md : st.min_distance.getD s none = some 0
  src_prev : st.previous.getD s none = none
  src_done : s ∈ done ∨ (done = ∅ ∧ st.vertex_queue = [(0, s)])
  rep : ∀ v m, st.min_distance.getD v none = some m → Rep m
  queue : ∀ d v, (d, v) ∈ st.vertex_queue →
    v < g.V ∧ ∃ m, st.min_distance.getD v none = some m ∧ m ≤ d
  pending : ∀ v m, st.min_distance.getD v none = some m →
    v ∈ done ∨ (m, v) ∈ st.vertex_queue
  done_lt : ∀ x ∈ done, x < g.V
  settled : ∀ x ∈ done, ∃ mx, st.min_distance.getD x none = some mx ∧
    (∀ d y, (d, y) ∈ st.vertex_queue → mx ≤ d) ∧
    ∀ e ∈ g.neighbors x, (x = u ∧ e ∈ rem) ∨
      ∃ mv c, st.min_distance.getD e.vertex none = some mv ∧
        add mx e.weight = some c ∧ mv ≤ c
  tree : ∀ v p, st.previous.getD v none = some p →
    p ∈ done ∧ v ≠ s ∧ dep p < dep v ∧
    ∃ e ∈ g.neighbors p, e.vertex = v ∧ ∃ mp c, st.min_distance.getD p none = some mp ∧
      add mp e.weight = some c ∧ st.min_distance.getD v none = some c
  has_prev : ∀ v m, st.min_distance.getD v none = some m → v ≠ s →
    ∃ p, st.previous.getD v none = some p
  reach : ∀ v m, st.min_distance.getD v none = some m → g.Reaches s v

/-- The sums `dist + weight` of one pass of the relax loop from state `st` are
all finite. -/
def passSumsFinite (g : AbstractGraph vertex_type W) (add : W → W → Option W)
    (st : RelaxState W) : Bool :=
  match queueTop st.vertex_queue with
  | none => true
  | some (dist, u) => (g.neighbors u).all (fun e => (add dist e.weight).isSome)

/-- The relax loop from state `st` ends within `fuel` passes and all sums
`dist + weight` that it forms are finite. -/
def sumsFinite (g : AbstractGraph vertex_type W) (add : W → W → Option W) :
    Nat → RelaxState W → Bool
  | 0, st => decide (st.vertex_queue = [])
  | fuel + 1, st =>
    passSumsFinite g add st &&
      (match relaxStepFl g add st with
       | none => true
       | some st1 => sumsFinite g add fuel st1)

/-- The values `get_edge_value(p[i], p[i+1])` over the consecutive vertices of
`p`, in the words of the specification of `path_size`; the loop of the source
is `sumEdges`. -/
def edgeValues (g : AbstractGraph vertex_type W) (p : List Nat) : List W :=
  (p.zip p.tail).map (fun ab => g.get_edge_value ab.1 ab.2)

/-- The graph of the overflow example: `AdjListGraph<int, double> g(3)` after
`addEdge(0, 1, w)` and `addEdge(1, 2, w)` with `w = 2 ^ 1023`. -/
def overflowListGraph : AbstractGraph ℤ ℤ :=
  (AbstractGraph.adjList (AdjListGraph.create ℤ ℤ 3)).addEdges
    [(0, 1, hugeWeight), (1, 2, hugeWeight)]

/-- The same two calls on `MatrixGraph<int, double> g(3)`. -/
def overflowMatrixGraph : AbstractGraph ℤ ℤ :=
  (AbstractGraph.matrix (MatrixGraph.create ℤ ℤ 3)).addEdges
    [(0, 1, hugeWeight), (1, 2, hugeWeight)]

end RoundedArithmetic

/-! ## Lemmas -/

set_option linter.unusedSectionVars false

section GraphLemmas


variable {vertex_type W : Type} [LinearOrderedCommRing W]

theorem getD_set_self {α : Type} (l : List α) (i : Nat) (a d : α) (h : i < l.length) :
    (l.set i a).getD i d = a := by
  simp [List.getD_eq_getElem?_getD, List.getElem?_set, h]

theorem getD_set_of_ne {α : Type} (l : List α) (i j : Nat) (a d : α) (h : i ≠ j) :
    (l.set i a).getD j d = l.getD j d := by
  simp [List.getD_eq_getElem?_getD, List.getElem?_set, h]

theorem findNeighbor_some {y : Nat} {l : List (Neighbor W)} {e : Neighbor W}
    (h : findNeighbor y l = some e) : e ∈ l ∧ e.vertex = y := by
  induction l with
  | nil => simp [findNeighbor] at h
  | cons a rest ih =>
    simp only [findNeighbor] at h
    by_cases ha : a.vertex = y
    · rw [if_pos ha] at h
      cases h
      exact ⟨List.mem_cons_self _ _, ha⟩
    · rw [if_neg ha] at h
      exact ⟨List.mem_cons_of_mem _ (ih h).1, (ih h).2⟩

theorem findNeighbor_isSome_iff (y : Nat) (l : List (Neighbor W)) :
    (findNeighbor y l).isSome = true ↔ ∃ e ∈ l, e.vertex = y := by
  induction l with
  | nil => simp [findNeighbor]
  | cons a rest ih =>
    simp only [findNeighbor]
    by_cases ha : a.vertex = y
    · rw [if_pos ha]
      simp only [Option.isSome_some, true_iff]
      exact ⟨a, List.mem_cons_self _ _, ha⟩
    · rw [if_neg ha, ih]
      constructor
      · rintro ⟨e, he, hev⟩
        exact ⟨e, List.mem_cons_of_mem _ he, hev⟩
      · rintro ⟨e, he, hev⟩
        rcases List.mem_cons.1 he with h1 | h1
        · subst h1; exact absurd hev ha
        · exact ⟨e, h1, hev⟩

theorem findNeighbor_eq_none_iff (y : Nat) (l : List (Neighbor W)) :
    findNeighbor y l = none ↔ ∀ e ∈ l, e.vertex ≠ y := by
  rw [← Option.not_isSome_iff_eq_none, findNeighbor_isSome_iff]
  push_neg
  rfl

theorem findNeighbor_of_nodup {l : List (Neighbor W)} (hnd : (l.map Neighbor.vertex).Nodup)
    {e : Neighbor W} (he : e ∈ l) : findNeighbor e.vertex l = some e := by
  induction l with
  | nil => simp at he
  | cons a rest ih =>
    simp only [List.map_cons, List.nodup_cons] at hnd
    simp only [findNeighbor]
    rcases List.mem_cons.1 he with h1 | h1
    · subst h1; simp
    · have hne : a.vertex ≠ e.vertex := by
        intro hc
        apply hnd.1
        rw [hc]
        exact List.mem_map_of_mem _ h1
      rw [if_neg hne]
      exact ih hnd.2 h1

theorem AdjListGraph.row_mem (g : AdjListGraph vertex_type W) (x : Nat)
    (hx : x < g.AdjacencyList.length) : g.row x ∈ g.AdjacencyList := by
  unfold AdjListGraph.row
  rw [List.getD_eq_getElem _ _ hx]
  exact List.getElem_mem _

theorem AdjListGraph.row_nil (g : AdjListGraph vertex_type W) (x : Nat)
    (hx : g.AdjacencyList.length ≤ x) : g.row x = [] := by
  unfold AdjListGraph.row
  simp [List.getD_eq_getElem?_getD, List.getElem?_eq_none hx]

theorem AdjListGraph.lt_of_mem_row (g : AdjListGraph vertex_type W) (x : Nat)
    (e : Neighbor W) (he : e ∈ g.row x) : x < g.AdjacencyList.length := by
  by_contra hc
  rw [g.row_nil x (not_lt.1 hc)] at he
  simp at he

theorem AdjListGraph.list_good (g : AdjListGraph vertex_type W) (hwf : g.WellFormed) :
    (AbstractGraph.adjList g).Good := by
  obtain ⟨hlen, hrows⟩ := hwf
  constructor
  · intro u e he
    have hu := g.lt_of_mem_row u e he
    exact (hrows _ (g.row_mem u hu)).2 e he
  · intro u e he
    have hu := g.lt_of_mem_row u e he
    show u < g.numVertex
    rw [← hlen]; exact hu
  · intro u e he
    have hu := g.lt_of_mem_row u e he
    show g.get_edge_value u e.vertex = e.weight
    unfold AdjListGraph.get_edge_value
    have hfind : findNeighbor e.vertex (g.row u) = some e :=
      findNeighbor_of_nodup (hrows _ (g.row_mem u hu)).1 he
    rw [hfind]
  · intro u v
    show (findNeighbor v (g.row u)).isSome = true ↔ ∃ e ∈ g.row u, e.vertex = v
    exact findNeighbor_isSome_iff v (g.row u)

theorem MatrixGraph.mem_neighbors (g : MatrixGraph vertex_type W) (x : Nat) (e : Neighbor W) :
    e ∈ g.neighbors x ↔ e.vertex < g.numVertex ∧ g.cell x e.vertex ≠ 0 ∧
      e.weight = g.cell x e.vertex := by
  unfold MatrixGraph.neighbors
  rw [List.mem_filterMap]
  constructor
  · rintro ⟨i, hi, hf⟩
    by_cases hc : g.cell x i ≠ 0
    · rw [if_pos hc] at hf
      cases hf
      exact ⟨List.mem_range.1 hi, hc, rfl⟩
    · rw [if_neg hc] at hf; cases hf
  · rintro ⟨h1, h2, h3⟩
    refine ⟨e.vertex, List.mem_range.2 h1, ?_⟩
    rw [if_pos h2]
    cases e
    simp only at h3
    simp [h3]

theorem MatrixGraph.cell_ne_zero_lt (g : MatrixGraph vertex_type W) (hwf : g.WellFormed)
    (x y : Nat) (h : g.cell x y ≠ 0) : x < g.numVertex ∧ y < g.numVertex := by
  obtain ⟨hlen, hrows⟩ := hwf
  unfold MatrixGraph.cell at h
  have hx : x < g.matrix.length := by
    by_contra hc
    apply h
    simp [List.getD_eq_getElem?_getD, List.getElem?_eq_none (not_lt.1 hc)]
  have hrow : (g.matrix.getD x []).length = g.numVertex := by
    rw [List.getD_eq_getElem _ _ hx]
    exact hrows _ (List.getElem_mem _)
  refine ⟨hlen ▸ hx, ?_⟩
  by_contra hc
  apply h
  rw [← hrow] at hc
  rw [List.getD_eq_getElem?_getD (g.matrix.getD x []), List.getElem?_eq_none (not_lt.1 hc)]
  rfl

theorem MatrixGraph.matrix_good (g : MatrixGraph vertex_type W) (hwf : g.WellFormed) :
    (AbstractGraph.matrix g).Good := by
  constructor
  · intro u e he
    exact ((g.mem_neighbors u e).1 he).1
  · intro u e he
    exact (g.cell_ne_zero_lt hwf u e.vertex ((g.mem_neighbors u e).1 he).2.1).1
  · intro u e he
    exact ((g.mem_neighbors u e).1 he).2.2.symm
  · intro u v
    show decide (g.cell u v ≠ 0) = true ↔ ∃ e ∈ g.neighbors u, e.vertex = v
    rw [decide_eq_true_iff]
    constructor
    · intro h
      exact ⟨⟨v, g.cell u v⟩, (g.mem_neighbors u _).2
        ⟨(g.cell_ne_zero_lt hwf u v h).2, h, rfl⟩, rfl⟩
    · rintro ⟨e, he, hev⟩
      rw [← hev]
      exact ((g.mem_neighbors u e).1 he).2.1

theorem AbstractGraph.good_of_wellFormed (g : AbstractGraph vertex_type W)
    (hwf : g.WellFormed) : g.Good := by
  cases g with
  | adjList g => exact g.list_good hwf
  | matrix g => exact g.matrix_good hwf


theorem overwriteNeighbor_eq_none_iff (y : Nat) (w : W) (l : List (Neighbor W)) :
    overwriteNeighbor y w l = none ↔ findNeighbor y l = none := by
  induction l with
  | nil => simp [overwriteNeighbor, findNeighbor]
  | cons a rest ih =>
    simp only [overwriteNeighbor, findNeighbor]
    by_cases ha : a.vertex = y
    · simp [ha]
    · simp [ha, ih]

theorem overwriteNeighbor_some {y : Nat} {w : W} {l r : List (Neighbor W)}
    (h : overwriteNeighbor y w l = some r) :
    r.map Neighbor.vertex = l.map Neighbor.vertex ∧
    findNeighbor y r = some ⟨y, w⟩ ∧
    ∀ y1, y1 ≠ y → findNeighbor y1 r = findNeighbor y1 l := by
  induction l generalizing r with
  | nil => simp [overwriteNeighbor] at h
  | cons a rest ih =>
    simp only [overwriteNeighbor] at h
    by_cases ha : a.vertex = y
    · rw [if_pos ha] at h
      cases h
      refine ⟨by simp, ?_, ?_⟩
      · simp [findNeighbor, ha]
      · intro y1 hy1
        have hne : a.vertex ≠ y1 := fun hc => hy1 (hc.symm.trans ha)
        simp [findNeighbor, hne]
    · rw [if_neg ha] at h
      cases ho : overwriteNeighbor y w rest with
      | none => rw [ho] at h; simp at h
      | some r1 =>
        rw [ho] at h
        simp only [Option.map_some', Option.some.injEq] at h
        subst h
        obtain ⟨h1, h2, h3⟩ := ih ho
        refine ⟨by simp [h1], ?_, ?_⟩
        · simp [findNeighbor, ha, h2]
        · intro y1 hy1
          simp only [findNeighbor]
          rw [h3 y1 hy1]

theorem findNeighbor_append_singleton (y1 : Nat) (l : List (Neighbor W)) (e : Neighbor W) :
    findNeighbor y1 (l ++ [e]) =
      match findNeighbor y1 l with
      | some a => some a
      | none => if e.vertex = y1 then some e else none := by
  induction l with
  | nil => simp [findNeighbor]
  | cons a rest ih =>
    simp only [List.cons_append, findNeighbor]
    by_cases ha : a.vertex = y1
    · simp [ha]
    · simp only [if_neg ha]
      exact ih

theorem eraseNeighbor_eq_none_iff (y : Nat) (l : List (Neighbor W)) :
    eraseNeighbor y l = none ↔ findNeighbor y l = none := by
  induction l with
  | nil => simp [eraseNeighbor, findNeighbor]
  | cons a rest ih =>
    simp only [eraseNeighbor, findNeighbor]
    by_cases ha : a.vertex = y
    · simp [ha]
    · simp [ha, ih]

theorem eraseNeighbor_sublist {y : Nat} {l r : List (Neighbor W)}
    (h : eraseNeighbor y l = some r) : r.Sublist l := by
  induction l generalizing r with
  | nil => simp [eraseNeighbor] at h
  | cons a rest ih =>
    simp only [eraseNeighbor] at h
    by_cases ha : a.vertex = y
    · rw [if_pos ha] at h
      cases h
      exact List.sublist_cons_self _ _
    · rw [if_neg ha] at h
      cases ho : eraseNeighbor y rest with
      | none => rw [ho] at h; simp at h
      | some r1 =>
        rw [ho] at h
        simp only [Option.map_some', Option.some.injEq] at h
        subst h
        exact List.Sublist.cons₂ _ (ih ho)

/-- Rows after replacing row `x`. -/
theorem getD_set_row {α : Type} (l : List (List α)) (x x1 : Nat) (r : List α)
    (hx : x < l.length) :
    (l.set x r).getD x1 [] = if x1 = x then r else l.getD x1 [] := by
  by_cases h : x1 = x
  · subst h
    simp [List.getD_eq_getElem?_getD, List.getElem?_set, hx]
  · have h1 : x ≠ x1 := fun hc => h hc.symm
    simp [List.getD_eq_getElem?_getD, List.getElem?_set, h, h1]

theorem AdjListGraph.row_addEdge (g : AdjListGraph vertex_type W) (x y : Nat) (w : W)
    (hx : x < g.AdjacencyList.length) (x1 : Nat) :
    (g.addEdge x y w).row x1 =
      if x1 = x then
        (match overwriteNeighbor y w (g.row x) with
         | some r => r
         | none => g.row x ++ [⟨y, w⟩])
      else g.row x1 := by
  unfold AdjListGraph.addEdge
  cases ho : overwriteNeighbor y w (g.row x) with
  | some r =>
    show (g.AdjacencyList.set x r).getD x1 [] = _
    rw [getD_set_row _ _ _ _ hx]
    rfl
  | none =>
    show (g.AdjacencyList.set x (g.row x ++ [⟨y, w⟩])).getD x1 [] = _
    rw [getD_set_row _ _ _ _ hx]
    rfl

/-- What `get_edge_value` sees in an `AdjListGraph` after `addEdge`. -/
theorem AdjListGraph.find_addEdge (g : AdjListGraph vertex_type W) (x y : Nat) (w : W)
    (hx : x < g.AdjacencyList.length) (x1 y1 : Nat) :
    findNeighbor y1 ((g.addEdge x y w).row x1) =
      if x1 = x ∧ y1 = y then some ⟨y, w⟩ else findNeighbor y1 (g.row x1) := by
  rw [g.row_addEdge x y w hx x1]
  by_cases hx1 : x1 = x
  · subst hx1
    simp only [if_true, true_and]
    cases ho : overwriteNeighbor y w (g.row x1) with
    | some r =>
      obtain ⟨-, h2, h3⟩ := overwriteNeighbor_some ho
      by_cases hy1 : y1 = y
      · subst hy1; simp [h2]
      · simp only [if_neg hy1]; exact h3 y1 hy1
    | none =>
      have hf := (overwriteNeighbor_eq_none_iff y w _).1 ho
      simp only
      rw [findNeighbor_append_singleton]
      by_cases hy1 : y1 = y
      · subst hy1; simp [hf]
      · have hne : ¬ y = y1 := fun hc => hy1 hc.symm
        simp only [if_neg hy1, if_neg hne]
        cases findNeighbor y1 (g.row x1) <;> rfl
  · simp [hx1]

theorem AdjListGraph.list_get_edge_value_addEdge (g : AdjListGraph vertex_type W) (x y : Nat) (w : W)
    (hx : x < g.AdjacencyList.length) (x1 y1 : Nat) :
    (g.addEdge x y w).get_edge_value x1 y1 =
      if x1 = x ∧ y1 = y then w else g.get_edge_value x1 y1 := by
  unfold AdjListGraph.get_edge_value
  rw [g.find_addEdge x y w hx x1 y1]
  by_cases h : x1 = x ∧ y1 = y
  · simp [h]
  · simp [h]

theorem AdjListGraph.list_adjacent_addEdge (g : AdjListGraph vertex_type W) (x y : Nat) (w : W)
    (hx : x < g.AdjacencyList.length) (x1 y1 : Nat) :
    (g.addEdge x y w).adjacent x1 y1 =
      if x1 = x ∧ y1 = y then true else g.adjacent x1 y1 := by
  unfold AdjListGraph.adjacent
  rw [g.find_addEdge x y w hx x1 y1]
  by_cases h : x1 = x ∧ y1 = y
  · simp [h]
  · simp [h]

theorem AdjListGraph.numEdge_addEdge (g : AdjListGraph vertex_type W) (x y : Nat) (w : W) :
    (g.addEdge x y w).E = if g.adjacent x y = true then g.E else g.E + 1 := by
  unfold AdjListGraph.addEdge AdjListGraph.adjacent AdjListGraph.E
  cases ho : overwriteNeighbor y w (g.row x) with
  | some r =>
    have hne : findNeighbor y (g.row x) ≠ none := fun hc => by
      rw [(overwriteNeighbor_eq_none_iff y w _).2 hc] at ho; cases ho
    have : (findNeighbor y (g.row x)).isSome = true := Option.isSome_iff_ne_none.2 hne
    simp [this]
  | none =>
    have hf := (overwriteNeighbor_eq_none_iff y w _).1 ho
    simp [hf]

theorem AdjListGraph.wellFormed_set (g g1 : AdjListGraph vertex_type W) (hwf : g.WellFormed)
    (x : Nat) (r : List (Neighbor W)) (hnv : g1.numVertex = g.numVertex)
    (hal : g1.AdjacencyList = g.AdjacencyList.set x r)
    (hnd : (r.map Neighbor.vertex).Nodup) (hr : ∀ e ∈ r, e.vertex < g.numVertex) :
    g1.WellFormed := by
  obtain ⟨hlen, hrows⟩ := hwf
  refine ⟨by rw [hal, hnv, List.length_set]; exact hlen, ?_⟩
  intro r1 hr1
  rw [hal] at hr1
  rw [hnv]
  rcases List.mem_or_eq_of_mem_set hr1 with h | h
  · exact hrows r1 h
  · subst h; exact ⟨hnd, hr⟩

theorem AdjListGraph.list_wellFormed_create (n : Nat) :
    (AdjListGraph.create vertex_type W n).WellFormed := by
  refine ⟨by simp [AdjListGraph.create], ?_⟩
  intro r hr
  simp only [AdjListGraph.create] at hr
  rw [List.eq_of_mem_replicate hr]
  simp

theorem AdjListGraph.wellFormed_row (g : AdjListGraph vertex_type W) (hwf : g.WellFormed)
    (x : Nat) :
    ((g.row x).map Neighbor.vertex).Nodup ∧ ∀ e ∈ g.row x, e.vertex < g.numVertex := by
  by_cases hx : x < g.AdjacencyList.length
  · exact hwf.2 _ (g.row_mem x hx)
  · rw [g.row_nil x (not_lt.1 hx)]
    simp

theorem AdjListGraph.list_wellFormed_addEdge (g : AdjListGraph vertex_type W) (hwf : g.WellFormed)
    (x y : Nat) (w : W) (hy : y < g.numVertex) : (g.addEdge x y w).WellFormed := by
  obtain ⟨hnd, hr⟩ := g.wellFormed_row hwf x
  unfold AdjListGraph.addEdge
  cases ho : overwriteNeighbor y w (g.row x) with
  | some r =>
    obtain ⟨h1, -, -⟩ := overwriteNeighbor_some ho
    refine g.wellFormed_set _ hwf x r rfl rfl (by rw [h1]; exact hnd) ?_
    intro e he
    have : e.vertex ∈ r.map Neighbor.vertex := List.mem_map_of_mem _ he
    rw [h1] at this
    obtain ⟨e1, he1, hev⟩ := List.mem_map.1 this
    rw [← hev]; exact hr e1 he1
  | none =>
    have hf := (overwriteNeighbor_eq_none_iff y w _).1 ho
    have hno := (findNeighbor_eq_none_iff y _).1 hf
    refine g.wellFormed_set _ hwf x _ rfl rfl ?_ ?_
    · rw [List.map_append, List.nodup_append]
      refine ⟨hnd, by simp, ?_⟩
      intro a ha hb
      simp only [List.map_cons, List.map_nil, List.mem_singleton] at hb
      obtain ⟨e1, he1, hev⟩ := List.mem_map.1 ha
      exact hno e1 he1 (hev.trans hb)
    · intro e he
      rcases List.mem_append.1 he with h | h
      · exact hr e h
      · simp only [List.mem_singleton] at h
        subst h; exact hy

theorem AdjListGraph.wellFormed_deleteEdge (g : AdjListGraph vertex_type W)
    (hwf : g.WellFormed) (x y : Nat) : (g.deleteEdge x y).WellFormed := by
  obtain ⟨hnd, hr⟩ := g.wellFormed_row hwf x
  unfold AdjListGraph.deleteEdge
  cases ho : eraseNeighbor y (g.row x) with
  | some r =>
    have hsub := eraseNeighbor_sublist ho
    refine g.wellFormed_set _ hwf x r rfl rfl ?_ ?_
    · exact List.Nodup.sublist (List.Sublist.map _ hsub) hnd
    · intro e he; exact hr e (hsub.subset he)
  | none => exact hwf

theorem AdjListGraph.wellFormed_set_edge_value (g : AdjListGraph vertex_type W)
    (hwf : g.WellFormed) (x y : Nat) (w : W) : (g.set_edge_value x y w).WellFormed := by
  obtain ⟨hnd, hr⟩ := g.wellFormed_row hwf x
  unfold AdjListGraph.set_edge_value
  cases ho : overwriteNeighbor y w (g.row x) with
  | some r =>
    obtain ⟨h1, -, -⟩ := overwriteNeighbor_some ho
    refine g.wellFormed_set _ hwf x r rfl rfl (by rw [h1]; exact hnd) ?_
    intro e he
    have : e.vertex ∈ r.map Neighbor.vertex := List.mem_map_of_mem _ he
    rw [h1] at this
    obtain ⟨e1, he1, hev⟩ := List.mem_map.1 this
    rw [← hev]; exact hr e1 he1
  | none => exact hwf

theorem MatrixGraph.matrix_wellFormed_create (n : Nat) :
    (MatrixGraph.create vertex_type W n).WellFormed := by
  refine ⟨by simp [MatrixGraph.create], ?_⟩
  intro r hr
  simp only [MatrixGraph.create] at hr
  rw [List.eq_of_mem_replicate hr]
  simp [MatrixGraph.create]

theorem MatrixGraph.wellFormed_setCell (g g1 : MatrixGraph vertex_type W) (hwf : g.WellFormed)
    (x y : Nat) (w : W) (hnv : g1.numVertex = g.numVertex)
    (hm : g1.matrix = MatrixGraph.setCell g.matrix x y w) : g1.WellFormed := by
  obtain ⟨hlen, hrows⟩ := hwf
  unfold MatrixGraph.setCell at hm
  refine ⟨by rw [hm, hnv, List.length_set]; exact hlen, ?_⟩
  intro r hr
  rw [hm] at hr
  rw [hnv]
  by_cases hx : x < g.matrix.length
  · rcases List.mem_or_eq_of_mem_set hr with h | h
    · exact hrows r h
    · subst h
      rw [List.length_set, List.getD_eq_getElem _ _ hx]
      exact hrows _ (List.getElem_mem _)
  · rw [List.set_eq_of_length_le (not_lt.1 hx)] at hr
    exact hrows r hr

theorem MatrixGraph.cell_setCell (g g1 : MatrixGraph vertex_type W) (hwf : g.WellFormed)
    (x y : Nat) (w : W) (hx : x < g.numVertex) (hy : y < g.numVertex)
    (hm : g1.matrix = MatrixGraph.setCell g.matrix x y w) (x1 y1 : Nat) :
    g1.cell x1 y1 = if x1 = x ∧ y1 = y then w else g.cell x1 y1 := by
  obtain ⟨hlen, hrows⟩ := hwf
  have hxl : x < g.matrix.length := by rw [hlen]; exact hx
  have hrow : (g.matrix.getD x []).length = g.numVertex := by
    rw [List.getD_eq_getElem _ _ hxl]
    exact hrows _ (List.getElem_mem _)
  unfold MatrixGraph.cell
  rw [hm]
  unfold MatrixGraph.setCell
  rw [getD_set_row _ _ _ _ hxl]
  by_cases hx1 : x1 = x
  · subst hx1
    simp only [if_true, true_and]
    by_cases hy1 : y1 = y
    · subst hy1
      rw [if_pos rfl]
      exact getD_set_self _ _ _ _ (by rw [hrow]; exact hy)
    · rw [if_neg hy1]
      exact getD_set_of_ne _ _ _ _ _ (fun hc => hy1 hc.symm)
  · simp [hx1]

end GraphLemmas

section DijkstraLemmas

variable {vertex_type W : Type} [LinearOrderedCommRing W]

theorem queueTop_eq_none (q : List (W × Nat)) : queueTop q = none ↔ q = [] := by
  cases q with
  | nil => simp [queueTop]
  | cons a rest =>
    simp only [queueTop]
    cases h : queueTop rest with
    | none => simp
    | some b => by_cases hb : pairLt b a = true <;> simp [hb]

theorem pairLt_fst_le {a b : W × Nat} (h : pairLt a b = true) : a.1 ≤ b.1 := by
  unfold pairLt at h
  simp only [Bool.or_eq_true, Bool.and_eq_true, decide_eq_true_eq] at h
  rcases h with h | ⟨h, _⟩
  · exact le_of_lt h
  · exact le_of_eq h

theorem not_pairLt_fst_le {a b : W × Nat} (h : ¬ pairLt a b = true) : b.1 ≤ a.1 := by
  unfold pairLt at h
  simp only [Bool.or_eq_true, Bool.and_eq_true, decide_eq_true_eq, not_or, not_lt] at h
  exact h.1

theorem queueTop_mem_min (q : List (W × Nat)) (a : W × Nat) (h : queueTop q = some a) :
    a ∈ q ∧ ∀ b ∈ q, a.1 ≤ b.1 := by
  induction q generalizing a with
  | nil => simp [queueTop] at h
  | cons c rest ih =>
    simp only [queueTop] at h
    cases hr : queueTop rest with
    | none =>
      rw [hr] at h
      have hnil : rest = [] := (queueTop_eq_none rest).1 hr
      simp only [Option.some.injEq] at h
      subst h; subst hnil
      simp
    | some b =>
      rw [hr] at h
      obtain ⟨hb, hmin⟩ := ih b hr
      by_cases hlt : pairLt b c = true
      · simp only [if_pos hlt, Option.some.injEq] at h
        subst h
        refine ⟨List.mem_cons_of_mem _ hb, ?_⟩
        intro x hx
        rcases List.mem_cons.1 hx with hx | hx
        · subst hx; exact pairLt_fst_le hlt
        · exact hmin x hx
      · simp only [if_neg hlt, Option.some.injEq] at h
        subst h
        refine ⟨List.mem_cons_self _ _, ?_⟩
        intro x hx
        rcases List.mem_cons.1 hx with hx | hx
        · subst hx; exact le_refl _
        · exact le_trans (not_pairLt_fst_le hlt) (hmin x hx)

theorem relaxNeighbors_noop (dist : W) (u : Nat) (l : List (Neighbor W)) (st : RelaxState W)
    (h : ∀ e ∈ l, ltDist (dist + e.weight) (st.min_distance.getD e.vertex none) = false) :
    relaxNeighbors dist u l st = st := by
  induction l with
  | nil => rfl
  | cons e rest ih =>
    have he := h e (List.mem_cons_self _ _)
    simp only [relaxNeighbors, he]
    exact ih (fun e' he' => h e' (List.mem_cons_of_mem _ he'))

theorem relaxNeighbors_queue_length (dist : W) (u : Nat) (l : List (Neighbor W))
    (st : RelaxState W) :
    (relaxNeighbors dist u l st).vertex_queue.length ≤ st.vertex_queue.length + l.length := by
  induction l generalizing st with
  | nil => simp [relaxNeighbors]
  | cons e rest ih =>
    simp only [relaxNeighbors]
    split
    · refine le_trans (ih _) ?_
      simp only [List.length_cons]
      omega
    · refine le_trans (ih _) ?_
      simp only [List.length_cons]
      omega

theorem ltDist_true_some {a b : W} (h : ltDist a (some b) = true) : a < b := by
  simpa [ltDist] using h

theorem ltDist_false {a : W} {o : Option W} (h : ltDist a o = false) :
    ∃ b, o = some b ∧ b ≤ a := by
  cases o with
  | none => simp [ltDist] at h
  | some b => exact ⟨b, rfl, by simpa [ltDist] using h⟩

theorem relaxInv_skip (g : AbstractGraph vertex_type W) (s : Nat) (done : Finset Nat)
    (dep : Nat → Nat) (u : Nat) (e : Neighbor W) (rest : List (Neighbor W)) (st : RelaxState W)
    (d : W) (hu : st.min_distance.getD u none = some d)
    (hno : ltDist (d + e.weight) (st.min_distance.getD e.vertex none) = false)
    (h : RelaxInv g s done dep u (e :: rest) st) : RelaxInv g s done dep u rest st := by
  refine { h with settled := ?_ }
  intro x hx
  obtain ⟨mx, hmx, hq, hed⟩ := h.settled x hx
  refine ⟨mx, hmx, hq, ?_⟩
  intro e1 he1
  rcases hed e1 he1 with ⟨hxu, hmem⟩ | hr
  · rcases List.mem_cons.1 hmem with heq | hmem
    · right
      obtain ⟨b, hb, hle⟩ := ltDist_false hno
      subst heq; subst hxu
      rw [hu] at hmx
      simp only [Option.some.injEq] at hmx
      subst hmx
      exact ⟨b, hb, hle⟩
    · exact Or.inl ⟨hxu, hmem⟩
  · exact Or.inr hr


theorem relaxInv_update (g : AbstractGraph vertex_type W) (hg : g.Good) (s : Nat)
    (done : Finset Nat) (dep : Nat → Nat) (u : Nat) (e : Neighbor W) (rest : List (Neighbor W))
    (st : RelaxState W) (d : W)
    (hu : st.min_distance.getD u none = some d) (hud : u ∈ done) (hsd : s ∈ done)
    (hdom : ∀ x ∈ done, ∀ mx, st.min_distance.getD x none = some mx → mx ≤ d)
    (he : e ∈ g.neighbors u) (hw : 0 ≤ e.weight)
    (hyes : ltDist (d + e.weight) (st.min_distance.getD e.vertex none) = true)
    (h : RelaxInv g s done dep u (e :: rest) st) :
    e.vertex ∉ done ∧
    RelaxInv g s done (Function.update dep e.vertex (dep u + 1)) u rest
      { min_distance := st.min_distance.set e.vertex (some (d + e.weight)),
        previous := st.previous.set e.vertex (some u),
        vertex_queue := (d + e.weight, e.vertex) :: st.vertex_queue } := by
  have hv : e.vertex < g.V := hg.range u e he
  have hvd : e.vertex ∉ done := by
    intro hmem
    obtain ⟨mx, hmx, -, -⟩ := h.settled _ hmem
    have h1 := hdom _ hmem mx hmx
    rw [hmx] at hyes
    have h2 := ltDist_true_some hyes
    linarith
  have hvu : e.vertex ≠ u := fun hc => hvd (hc ▸ hud)
  have hvs : e.vertex ≠ s := fun hc => hvd (hc ▸ hsd)
  have hlm : e.vertex < st.min_distance.length := by rw [h.len_md]; exact hv
  have hlp : e.vertex < st.previous.length := by rw [h.len_prev]; exact hv
  have hold : ∀ m, st.min_distance.getD e.vertex none = some m → d + e.weight < m := by
    intro m hm
    rw [hm] at hyes
    exact ltDist_true_some hyes
  refine ⟨hvd, ?_⟩
  constructor
  · simp [h.len_md]
  · simp [h.len_prev]
  · show (st.min_distance.set e.vertex (some (d + e.weight))).getD s none = some 0
    rw [getD_set_of_ne _ _ _ _ _ hvs]; exact h.src_md
  · show (st.previous.set e.vertex (some u)).getD s none = none
    rw [getD_set_of_ne _ _ _ _ _ hvs]; exact h.src_prev
  · exact Or.inl hsd
  · intro d1 y hy
    show y < g.V ∧ ∃ m, (st.min_distance.set e.vertex (some (d + e.weight))).getD y none = some m
      ∧ m ≤ d1
    rcases List.mem_cons.1 hy with heq | hy
    · simp only [Prod.mk.injEq] at heq
      obtain ⟨h1, h2⟩ := heq
      subst h1; subst h2
      exact ⟨hv, _, getD_set_self _ _ _ _ hlm, le_refl _⟩
    · obtain ⟨hyV, m, hm, hle⟩ := h.queue d1 y hy
      refine ⟨hyV, ?_⟩
      by_cases hyv : e.vertex = y
      · subst hyv
        exact ⟨_, getD_set_self _ _ _ _ hlm, le_trans (le_of_lt (hold m hm)) hle⟩
      · exact ⟨m, by rw [getD_set_of_ne _ _ _ _ _ hyv]; exact hm, hle⟩
  · intro y m hm
    show y ∈ done ∨ (m, y) ∈ (d + e.weight, e.vertex) :: st.vertex_queue
    change (st.min_distance.set e.vertex (some (d + e.weight))).getD y none = some m at hm
    by_cases hyv : e.vertex = y
    · subst hyv
      rw [getD_set_self _ _ _ _ hlm] at hm
      simp only [Option.some.injEq] at hm
      subst hm
      exact Or.inr (List.mem_cons_self _ _)
    · rw [getD_set_of_ne _ _ _ _ _ hyv] at hm
      rcases h.pending y m hm with h1 | h1
      · exact Or.inl h1
      · exact Or.inr (List.mem_cons_of_mem _ h1)
  · exact h.done_lt
  · intro x hx
    obtain ⟨mx, hmx, hq, hed⟩ := h.settled x hx
    have hxv : e.vertex ≠ x := fun hc => hvd (hc ▸ hx)
    refine ⟨mx, ?_, ?_, ?_⟩
    · show (st.min_distance.set e.vertex (some (d + e.weight))).getD x none = some mx
      rw [getD_set_of_ne _ _ _ _ _ hxv]; exact hmx
    · intro d1 y hy
      rcases List.mem_cons.1 hy with heq | hy
      · simp only [Prod.mk.injEq] at heq
        obtain ⟨h1, -⟩ := heq
        subst h1
        have := hdom x hx mx hmx
        linarith
      · exact hq d1 y hy
    · intro e1 he1
      show (x = u ∧ e1 ∈ rest) ∨ ∃ mv,
        (st.min_distance.set e.vertex (some (d + e.weight))).getD e1.vertex none = some mv
          ∧ mv ≤ mx + e1.weight
      rcases hed e1 he1 with ⟨hxu, hmem⟩ | ⟨mv, hmv, hle⟩
      · rcases List.mem_cons.1 hmem with heq | hmem
        · right
          subst heq; subst hxu
          rw [hu] at hmx
          simp only [Option.some.injEq] at hmx
          subst hmx
          exact ⟨_, getD_set_self _ _ _ _ hlm, le_refl _⟩
        · exact Or.inl ⟨hxu, hmem⟩
      · right
        by_cases hyv : e.vertex = e1.vertex
        · rw [← hyv]
          refine ⟨_, getD_set_self _ _ _ _ hlm, ?_⟩
          have := hold mv (by rw [hyv]; exact hmv)
          linarith
        · exact ⟨mv, by rw [getD_set_of_ne _ _ _ _ _ hyv]; exact hmv, hle⟩
  · intro y p hp
    change (st.previous.set e.vertex (some u)).getD y none = some p at hp
    show p ∈ done ∧ y ≠ s ∧
      Function.update dep e.vertex (dep u + 1) p < Function.update dep e.vertex (dep u + 1) y ∧
      ∃ e1 ∈ g.neighbors p, e1.vertex = y ∧ ∃ mp,
        (st.min_distance.set e.vertex (some (d + e.weight))).getD p none = some mp ∧
        (st.min_distance.set e.vertex (some (d + e.weight))).getD y none = some (mp + e1.weight)
    by_cases hyv : e.vertex = y
    · subst hyv
      rw [getD_set_self _ _ _ _ hlp] at hp
      simp only [Option.some.injEq] at hp
      subst hp
      refine ⟨hud, hvs, ?_, e, he, rfl, d, ?_, ?_⟩
      · rw [Function.update_same, Function.update_noteq (Ne.symm hvu)]
        exact Nat.lt_succ_self _
      · rw [getD_set_of_ne _ _ _ _ _ hvu]; exact hu
      · exact getD_set_self _ _ _ _ hlm
    · rw [getD_set_of_ne _ _ _ _ _ hyv] at hp
      obtain ⟨hpd, hys, hdep, e1, he1, hev, mp, hmp, hmy⟩ := h.tree y p hp
      have hpv : e.vertex ≠ p := fun hc => hvd (hc ▸ hpd)
      refine ⟨hpd, hys, ?_, e1, he1, hev, mp, ?_, ?_⟩
      · rw [Function.update_noteq (Ne.symm hpv), Function.update_noteq (Ne.symm hyv)]
        exact hdep
      · rw [getD_set_of_ne _ _ _ _ _ hpv]; exact hmp
      · rw [getD_set_of_ne _ _ _ _ _ hyv]; exact hmy
  · intro y m hm hys
    change (st.min_distance.set e.vertex (some (d + e.weight))).getD y none = some m at hm
    show ∃ p, (st.previous.set e.vertex (some u)).getD y none = some p
    by_cases hyv : e.vertex = y
    · subst hyv
      exact ⟨u, getD_set_self _ _ _ _ hlp⟩
    · rw [getD_set_of_ne _ _ _ _ _ hyv] at hm ⊢
      exact h.has_prev y m hm hys
  · intro y m hm
    change (st.min_distance.set e.vertex (some (d + e.weight))).getD y none = some m at hm
    by_cases hyv : e.vertex = y
    · subst hyv
      exact Relation.ReflTransGen.tail (h.reach u d hu) ((hg.adj u e.vertex).2 ⟨e, he, rfl⟩)
    · rw [getD_set_of_ne _ _ _ _ _ hyv] at hm
      exact h.reach y m hm

theorem relaxNeighbors_inv (g : AbstractGraph vertex_type W) (hg : g.Good) (s : Nat)
    (done : Finset Nat) (u : Nat) (d : W) (hud : u ∈ done) (hsd : s ∈ done)
    (hnn : ∀ e ∈ g.neighbors u, 0 ≤ e.weight) :
    ∀ (rem : List (Neighbor W)) (st : RelaxState W) (dep : Nat → Nat),
      (∀ e ∈ rem, e ∈ g.neighbors u) →
      st.min_distance.getD u none = some d →
      (∀ x ∈ done, ∀ mx, st.min_distance.getD x none = some mx → mx ≤ d) →
      RelaxInv g s done dep u rem st →
      ∃ dep1, RelaxInv g s done dep1 u [] (relaxNeighbors d u rem st) := by
  intro rem
  induction rem with
  | nil => intro st dep _ _ _ h; exact ⟨dep, h⟩
  | cons e rest ih =>
    intro st dep hsub hu hdom h
    have he : e ∈ g.neighbors u := hsub e (List.mem_cons_self _ _)
    have hsub1 : ∀ e1 ∈ rest, e1 ∈ g.neighbors u :=
      fun e1 h1 => hsub e1 (List.mem_cons_of_mem _ h1)
    simp only [relaxNeighbors]
    by_cases hyes : ltDist (d + e.weight) (st.min_distance.getD e.vertex none) = true
    · rw [if_pos hyes]
      obtain ⟨hvd, hinv⟩ :=
        relaxInv_update g hg s done dep u e rest st d hu hud hsd hdom he (hnn e he) hyes h
      have hvu : e.vertex ≠ u := fun hc => hvd (hc ▸ hud)
      refine ih _ _ hsub1 ?_ ?_ hinv
      · show (st.min_distance.set e.vertex (some (d + e.weight))).getD u none = some d
        rw [getD_set_of_ne _ _ _ _ _ hvu]; exact hu
      · intro x hx mx hmx
        have hxv : e.vertex ≠ x := fun hc => hvd (hc ▸ hx)
        change (st.min_distance.set e.vertex (some (d + e.weight))).getD x none = some mx at hmx
        rw [getD_set_of_ne _ _ _ _ _ hxv] at hmx
        exact hdom x hx mx hmx
    · rw [if_neg hyes]
      have hno : ltDist (d + e.weight) (st.min_distance.getD e.vertex none) = false := by
        simpa using hyes
      exact ih st dep hsub1 hu hdom (relaxInv_skip g s done dep u e rest st d hu hno h)

theorem relaxInv_nil_vertex (g : AbstractGraph vertex_type W) (s : Nat) (done : Finset Nat)
    (dep : Nat → Nat) (u u1 : Nat) (st : RelaxState W) (h : RelaxInv g s done dep u [] st) :
    RelaxInv g s done dep u1 [] st := by
  refine { h with settled := ?_ }
  intro x hx
  obtain ⟨mx, hmx, hq, hed⟩ := h.settled x hx
  refine ⟨mx, hmx, hq, ?_⟩
  intro e he
  rcases hed e he with ⟨-, hmem⟩ | hr
  · simp at hmem
  · exact Or.inr hr

theorem relaxStep_eq_none (g : AbstractGraph vertex_type W) (st : RelaxState W) :
    relaxStep g st = none ↔ st.vertex_queue = [] := by
  unfold relaxStep
  cases hq : queueTop st.vertex_queue with
  | none => simpa using (queueTop_eq_none _).1 hq
  | some a =>
    have hne : st.vertex_queue ≠ [] := fun hc => by
      rw [(queueTop_eq_none _).2 hc] at hq; cases hq
    obtain ⟨dist, u⟩ := a
    simp only [hne, iff_false]
    by_cases hlt : ltDist dist (st.min_distance.getD u none) = true
    · rw [if_pos hlt]; exact fun hc => Option.noConfusion hc
    · rw [if_neg hlt]; exact fun hc => Option.noConfusion hc

theorem relaxStep_inv (g : AbstractGraph vertex_type W) (hg : g.Good) (hnn : g.NonNegWeights)
    (s : Nat) (done : Finset Nat) (dep : Nat → Nat) (u0 : Nat) (st st1 : RelaxState W)
    (h : RelaxInv g s done dep u0 [] st) (hstep : relaxStep g st = some st1) :
    ∃ done1 dep1, RelaxInv g s done1 dep1 u0 [] st1 ∧
      relaxMeasure g done1 st1 < relaxMeasure g done st := by
  unfold relaxStep at hstep
  cases hq : queueTop st.vertex_queue with
  | none => rw [hq] at hstep; cases hstep
  | some a =>
    obtain ⟨d, u⟩ := a
    rw [hq] at hstep
    obtain ⟨hmem, hmin⟩ := queueTop_mem_min _ _ hq
    obtain ⟨huV, m, hm, hmd⟩ := h.queue d u hmem
    have hnlt : ¬ ltDist d (st.min_distance.getD u none) = true := by
      rw [hm]
      simp only [ltDist, decide_eq_true_eq, not_lt]
      exact hmd
    simp only [if_neg hnlt, Option.some.injEq] at hstep
    have hlen : (st.vertex_queue.erase (d, u)).length + 1 = st.vertex_queue.length := by
      rw [List.length_erase_of_mem hmem]
      have : 0 < st.vertex_queue.length := List.length_pos_of_mem hmem
      omega
    have hsubq : ∀ x, x ∈ st.vertex_queue.erase (d, u) → x ∈ st.vertex_queue :=
      fun x hx => List.mem_of_mem_erase hx
    by_cases hud : u ∈ done
    · -- the vertex was expanded before: nothing changes
      obtain ⟨mu, hmu, hqu, hed⟩ := h.settled u hud
      have hmm : mu = m := by rw [hm] at hmu; exact (Option.some.inj hmu).symm
      subst hmm
      have hnoop : relaxNeighbors d u (g.neighbors u)
          { st with vertex_queue := st.vertex_queue.erase (d, u) } =
          { st with vertex_queue := st.vertex_queue.erase (d, u) } := by
        apply relaxNeighbors_noop
        intro e he
        rcases hed e he with ⟨-, hc⟩ | ⟨mv, hmv, hle⟩
        · simp at hc
        · show ltDist (d + e.weight) (st.min_distance.getD e.vertex none) = false
          rw [hmv]
          simp only [ltDist, decide_eq_false_iff_not, not_lt]
          linarith
      rw [hnoop] at hstep
      subst hstep
      refine ⟨done, dep, ?_, ?_⟩
      · refine { h with src_done := ?_, queue := ?_, pending := ?_, settled := ?_ }
        · rcases h.src_done with h1 | ⟨h1, -⟩
          · exact Or.inl h1
          · rw [h1] at hud; simp at hud
        · intro d1 y hy
          exact h.queue d1 y (hsubq _ hy)
        · intro y m1 hm1
          rcases h.pending y m1 hm1 with h1 | h1
          · exact Or.inl h1
          · by_cases heq : (m1, y) = (d, u)
            · simp only [Prod.mk.injEq] at heq
              rw [heq.2]; exact Or.inl hud
            · exact Or.inr ((List.mem_erase_of_ne heq).2 h1)
        · intro x hx
          obtain ⟨mx, hmx, hqx, hedx⟩ := h.settled x hx
          exact ⟨mx, hmx, fun d1 y hy => hqx d1 y (hsubq _ hy), hedx⟩
      · unfold relaxMeasure
        show (st.vertex_queue.erase (d, u)).length + _ < st.vertex_queue.length + _
        omega
    · -- first expansion of the vertex
      have hdm : d = m := by
        rcases h.pending u m hm with h1 | h1
        · exact absurd h1 hud
        · exact le_antisymm (hmin _ h1) hmd
      subst hdm
      have hsd : s ∈ insert u done := by
        rcases h.src_done with h1 | ⟨-, h1⟩
        · exact Finset.mem_insert_of_mem h1
        · rw [h1] at hmem
          simp only [List.mem_singleton, Prod.mk.injEq] at hmem
          rw [hmem.2]; exact Finset.mem_insert_self _ _
      have hdom : ∀ x ∈ insert u done, ∀ mx, st.min_distance.getD x none = some mx → mx ≤ d := by
        intro x hx mx hmx
        rcases Finset.mem_insert.1 hx with hx | hx
        · subst hx
          rw [hm] at hmx
          exact le_of_eq (Option.some.inj hmx).symm
        · obtain ⟨mx1, hmx1, hqx, -⟩ := h.settled x hx
          rw [hmx] at hmx1
          have := hqx d u hmem
          rw [Option.some.inj hmx1]; exact this
      have hmid : RelaxInv g s (insert u done) dep u (g.neighbors u)
          { st with vertex_queue := st.vertex_queue.erase (d, u) } := by
        refine { h with src_done := Or.inl hsd, queue := ?_, pending := ?_, done_lt := ?_,
                        settled := ?_, tree := ?_ }
        · intro d1 y hy
          exact h.queue d1 y (hsubq _ hy)
        · intro y m1 hm1
          rcases h.pending y m1 hm1 with h1 | h1
          · exact Or.inl (Finset.mem_insert_of_mem h1)
          · by_cases heq : (m1, y) = (d, u)
            · simp only [Prod.mk.injEq] at heq
              rw [heq.2]; exact Or.inl (Finset.mem_insert_self _ _)
            · exact Or.inr ((List.mem_erase_of_ne heq).2 h1)
        · intro x hx
          rcases Finset.mem_insert.1 hx with hx | hx
          · rw [hx]; exact huV
          · exact h.done_lt x hx
        · intro x hx
          rcases Finset.mem_insert.1 hx with hx | hx
          · subst hx
            exact ⟨d, hm, fun d1 y hy => hmin (d1, y) (hsubq _ hy),
              fun e he => Or.inl ⟨rfl, he⟩⟩
          · obtain ⟨mx, hmx, hqx, hedx⟩ := h.settled x hx
            refine ⟨mx, hmx, fun d1 y hy => hqx d1 y (hsubq _ hy), ?_⟩
            intro e he
            rcases hedx e he with ⟨-, hc⟩ | hr
            · simp at hc
            · exact Or.inr hr
        · intro v p hp
          obtain ⟨h1, h2⟩ := h.tree v p hp
          exact ⟨Finset.mem_insert_of_mem h1, h2⟩
      obtain ⟨dep1, hfin⟩ := relaxNeighbors_inv g hg s (insert u done) u d
        (Finset.mem_insert_self _ _) hsd (hnn u huV) (g.neighbors u)
        { st with vertex_queue := st.vertex_queue.erase (d, u) } dep
        (fun e he => he) hm hdom hmid
      rw [hstep] at hfin
      refine ⟨insert u done, dep1, relaxInv_nil_vertex g s _ _ u u0 _ hfin, ?_⟩
      have hql := relaxNeighbors_queue_length d u (g.neighbors u)
        { st with vertex_queue := st.vertex_queue.erase (d, u) }
      rw [hstep] at hql
      have hql1 : st1.vertex_queue.length ≤
          (st.vertex_queue.erase (d, u)).length + (g.neighbors u).length := hql
      have hin : u ∈ Finset.range g.V \ done := by
        simp only [Finset.mem_sdiff, Finset.mem_range]
        exact ⟨huV, hud⟩
      have hsum := Finset.add_sum_erase (Finset.range g.V \ done)
        (fun x => (g.neighbors x).length + 1) hin
      unfold relaxMeasure
      rw [Finset.sdiff_insert]
      simp only at hsum
      omega

/-- The state with which `path` enters the relax loop. -/
theorem relaxInv_init (g : AbstractGraph vertex_type W) (s : Nat) (hs : s < g.V) :
    RelaxInv g s ∅ (fun _ => 0) s []
      (ShortestPath.initState g.V s) := by
  unfold ShortestPath.initState
  have hget : ∀ v m, ((List.replicate g.V (none : Option W)).set s (some 0)).getD v none = some m →
      v = s ∧ m = 0 := by
    intro v m hm
    by_cases hv : s = v
    · subst hv
      rw [getD_set_self _ _ _ _ (by simpa using hs)] at hm
      exact ⟨rfl, (Option.some.inj hm).symm⟩
    · rw [getD_set_of_ne _ _ _ _ _ hv] at hm
      by_cases hvn : v < g.V <;>
        simp [List.getD_eq_getElem?_getD, List.getElem?_replicate, hvn] at hm
  have hprev : ∀ v, (List.replicate g.V (none : Option Nat)).getD v none = none := by
    intro v
    by_cases hvn : v < g.V <;>
      simp [List.getD_eq_getElem?_getD, List.getElem?_replicate, hvn]
  constructor
  · simp
  · simp
  · exact getD_set_self _ _ _ _ (by simpa using hs)
  · exact hprev s
  · exact Or.inr ⟨rfl, rfl⟩
  · intro d v hv
    simp only [List.mem_singleton, Prod.mk.injEq] at hv
    obtain ⟨h1, h2⟩ := hv
    subst h1; subst h2
    exact ⟨hs, 0, getD_set_self _ _ _ _ (by simpa using hs), le_refl _⟩
  · intro v m hm
    obtain ⟨h1, h2⟩ := hget v m hm
    subst h1; subst h2
    exact Or.inr (List.mem_singleton_self _)
  · intro x hx; simp at hx
  · intro x hx; simp at hx
  · intro v p hp
    change (List.replicate g.V (none : Option Nat)).getD v none = some p at hp
    rw [hprev v] at hp; cases hp
  · intro v m hm hvs
    exact absurd (hget v m hm).1 hvs
  · intro v m hm
    rw [(hget v m hm).1]
    exact Relation.ReflTransGen.refl

theorem relaxLoop_inv (g : AbstractGraph vertex_type W) (hg : g.Good) (hnn : g.NonNegWeights)
    (s u0 : Nat) :
    ∀ (fuel : Nat) (st : RelaxState W) (done : Finset Nat) (dep : Nat → Nat),
      RelaxInv g s done dep u0 [] st → relaxMeasure g done st ≤ fuel →
      ∃ st1 done1 dep1, relaxLoop g fuel st = some st1 ∧
        RelaxInv g s done1 dep1 u0 [] st1 ∧ st1.vertex_queue = [] := by
  intro fuel
  induction fuel with
  | zero =>
    intro st done dep h hm
    have hq : st.vertex_queue = [] := by
      unfold relaxMeasure at hm
      have : st.vertex_queue.length = 0 := by omega
      exact List.length_eq_zero.1 this
    exact ⟨st, done, dep, by simp [relaxLoop, hq], h, hq⟩
  | succ fuel ih =>
    intro st done dep h hm
    simp only [relaxLoop]
    cases hstep : relaxStep g st with
    | none => exact ⟨st, done, dep, rfl, h, (relaxStep_eq_none g st).1 hstep⟩
    | some st1 =>
      obtain ⟨done1, dep1, h1, hlt⟩ := relaxStep_inv g hg hnn s done dep u0 st st1 h hstep
      exact ih st1 done1 dep1 h1 (by omega)

/-- Right-nested sum of the edge values along a vertex sequence. -/
theorem sumEdges_eq (g : AbstractGraph vertex_type W) (l : List Nat) (acc : W) :
    sumEdges g acc l = acc + pathCost g l := by
  induction l generalizing acc with
  | nil => simp [sumEdges, pathCost]
  | cons a rest ih =>
    cases rest with
    | nil => simp [sumEdges, pathCost]
    | cons b rest =>
      simp only [sumEdges, pathCost]
      rw [ih]
      simp only [pathCost, add_assoc]

theorem pathCost_append_singleton (g : AbstractGraph vertex_type W) (l : List Nat) (p v : Nat)
    (hl : l.getLast? = some p) :
    pathCost g (l ++ [v]) = pathCost g l + g.get_edge_value p v := by
  induction l with
  | nil => simp at hl
  | cons a rest ih =>
    cases rest with
    | nil =>
      simp only [List.getLast?_singleton, Option.some.injEq] at hl
      subst hl
      simp [pathCost]
    | cons b rest =>
      have hl1 : (b :: rest).getLast? = some p := by
        rw [List.getLast?_cons_cons] at hl; exact hl
      have h1 := ih hl1
      have h2 : pathCost g (a :: b :: rest ++ [v]) =
          g.get_edge_value a b + pathCost g (b :: rest ++ [v]) := rfl
      have h3 : pathCost g (a :: b :: rest) =
          g.get_edge_value a b + pathCost g (b :: rest) := rfl
      rw [h2, h3, h1, add_assoc]

theorem relaxLoop_mono (g : AbstractGraph vertex_type W) (k : Nat) :
    ∀ (fuel : Nat) (st r : RelaxState W), relaxLoop g fuel st = some r →
      relaxLoop g (fuel + k) st = some r := by
  intro fuel
  induction fuel with
  | zero =>
    intro st r h
    simp only [relaxLoop] at h
    by_cases hq : st.vertex_queue = []
    · rw [if_pos hq] at h
      cases k with
      | zero => simp [relaxLoop, hq, h]
      | succ k =>
        have hstep : relaxStep g st = none := (relaxStep_eq_none g st).2 hq
        simp only [Nat.zero_add, relaxLoop, hstep]
        exact h
    · rw [if_neg hq] at h; cases h
  | succ fuel ih =>
    intro st r h
    rw [Nat.succ_add]
    simp only [relaxLoop] at h ⊢
    cases hstep : relaxStep g st with
    | none => rw [hstep] at h; exact h
    | some st1 => rw [hstep] at h; exact ih st1 r h

theorem walkBack_mono (previous : List (Option Nat)) (k : Nat) :
    ∀ (fuel : Nat) (target : Option Nat) (acc r : List Nat),
      walkBack previous fuel target acc = some r →
      walkBack previous (fuel + k) target acc = some r := by
  intro fuel
  induction fuel with
  | zero =>
    intro target acc r h
    cases target with
    | none =>
      cases k with
      | zero => exact h
      | succ k => simpa [walkBack] using h
    | some t => simp [walkBack] at h
  | succ fuel ih =>
    intro target acc r h
    rw [Nat.succ_add]
    cases target with
    | none => simpa [walkBack] using h
    | some t =>
      simp only [walkBack] at h ⊢
      exact ih _ _ _ h

/-- After the relax loop no walk beats the recorded distance. -/
theorem final_lower_bound (g : AbstractGraph vertex_type W) (hg : g.Good) (s : Nat)
    (done : Finset Nat) (dep : Nat → Nat) (u0 : Nat) (st : RelaxState W)
    (h : RelaxInv g s done dep u0 [] st) (hq : st.vertex_queue = []) :
    ∀ (p : List Nat), g.IsWalk p → ∀ a b ma, p.head? = some a → p.getLast? = some b →
      st.min_distance.getD a none = some ma →
      ∃ mb, st.min_distance.getD b none = some mb ∧ mb ≤ ma + pathCost g p := by
  intro p
  induction p with
  | nil => intro _ a b ma ha; simp at ha
  | cons x rest ih =>
    intro hw a b ma ha hb hma
    simp only [List.head?_cons, Option.some.injEq] at ha
    subst ha
    cases rest with
    | nil =>
      simp only [List.getLast?_singleton, Option.some.injEq] at hb
      subst hb
      exact ⟨ma, hma, by simp [pathCost]⟩
    | cons c rest =>
      have hadj : g.adjacent x c = true := by
        have := hw
        unfold AbstractGraph.IsWalk at this
        exact (List.chain'_cons.1 this).1
      have hw1 : g.IsWalk (c :: rest) := by
        unfold AbstractGraph.IsWalk at hw ⊢
        exact (List.chain'_cons.1 hw).2
      obtain ⟨e, he, hev⟩ := (hg.adj x c).1 hadj
      have hxd : x ∈ done := by
        rcases h.pending x ma hma with h1 | h1
        · exact h1
        · rw [hq] at h1; simp at h1
      obtain ⟨mx, hmx, -, hed⟩ := h.settled x hxd
      rw [hma] at hmx
      have hmm : ma = mx := Option.some.inj hmx
      subst hmm
      rcases hed e he with ⟨-, hc⟩ | ⟨mv, hmv, hle⟩
      · simp at hc
      · rw [hev] at hmv
        have hb1 : (c :: rest).getLast? = some b := by
          rw [List.getLast?_cons_cons] at hb; exact hb
        obtain ⟨mb, hmb, hle1⟩ := ih hw1 c b mv rfl hb1 hmv
        refine ⟨mb, hmb, ?_⟩
        have hval := hg.value x e he
        rw [hev] at hval
        have hpc : pathCost g (x :: c :: rest) =
            g.get_edge_value x c + pathCost g (c :: rest) := rfl
        rw [hpc, hval]
        linarith

/-- After the relax loop every vertex reachable from the source has a finite
distance. -/
theorem final_reach_finite (g : AbstractGraph vertex_type W) (hg : g.Good) (s : Nat)
    (done : Finset Nat) (dep : Nat → Nat) (u0 : Nat) (st : RelaxState W)
    (h : RelaxInv g s done dep u0 [] st) (hq : st.vertex_queue = [])
    (t : Nat) (ht : g.Reaches s t) : ∃ m, st.min_distance.getD t none = some m := by
  unfold AbstractGraph.Reaches at ht
  induction ht with
  | refl => exact ⟨0, h.src_md⟩
  | @tail b c _ hadj ih =>
    obtain ⟨mb, hmb⟩ := ih
    obtain ⟨e, he, hev⟩ := (hg.adj b c).1 hadj
    have hbd : b ∈ done := by
      rcases h.pending b mb hmb with h1 | h1
      · exact h1
      · rw [hq] at h1; simp at h1
    obtain ⟨mx, -, -, hed⟩ := h.settled b hbd
    rcases hed e he with ⟨-, hc⟩ | ⟨mv, hmv, -⟩
    · simp at hc
    · rw [hev] at hmv; exact ⟨mv, hmv⟩

theorem walkBack_succ (previous : List (Option Nat)) (fuel t : Nat) (acc : List Nat) :
    walkBack previous (fuel + 1) (some t) acc =
      walkBack previous fuel (previous.getD t none) (acc ++ [t]) := by
  simp only [walkBack]

theorem walkBack_none (previous : List (Option Nat)) (fuel : Nat) (acc : List Nat) :
    walkBack previous fuel none acc = some acc := by
  cases fuel <;> simp only [walkBack]

/-- The backward walk over `previous` from a vertex with a finite distance
ends at the source and spells (reversed) a walk of exactly that cost. -/
theorem walkBack_spec (g : AbstractGraph vertex_type W) (hg : g.Good) (s : Nat)
    (done : Finset Nat) (dep : Nat → Nat) (u0 : Nat) (st : RelaxState W)
    (h : RelaxInv g s done dep u0 [] st) :
    ∀ (k v : Nat) (m : W), dep v ≤ k → st.min_distance.getD v none = some m →
      ∀ acc : List Nat, ∃ r : List Nat,
        walkBack st.previous (k + 1) (some v) acc = some (acc ++ r.reverse) ∧
        r.head? = some s ∧ r.getLast? = some v ∧ g.IsWalk r ∧ pathCost g r = m ∧
        r.Nodup ∧ ∀ x ∈ r, dep x ≤ dep v := by
  intro k
  induction k with
  | zero =>
    intro v m hk hm acc
    cases hp : st.previous.getD v none with
    | some p =>
      have := (h.tree v p hp).2.2.1
      omega
    | none =>
      have hvs : v = s := by
        by_contra hne
        obtain ⟨p, hp1⟩ := h.has_prev v m hm hne
        rw [hp] at hp1; cases hp1
      subst hvs
      have hm0 : m = 0 := by
        rw [h.src_md] at hm; exact (Option.some.inj hm).symm
      refine ⟨[v], ?_, rfl, rfl, ?_, ?_, ?_, ?_⟩
      · rw [walkBack_succ, hp, walkBack_none]; simp
      · unfold AbstractGraph.IsWalk; simp
      · simp [pathCost, hm0]
      · simp
      · intro x hx; simp at hx; subst hx; exact le_refl _
  | succ k ih =>
    intro v m hk hm acc
    cases hp : st.previous.getD v none with
    | none =>
      have hvs : v = s := by
        by_contra hne
        obtain ⟨p, hp1⟩ := h.has_prev v m hm hne
        rw [hp] at hp1; cases hp1
      subst hvs
      have hm0 : m = 0 := by
        rw [h.src_md] at hm; exact (Option.some.inj hm).symm
      refine ⟨[v], ?_, rfl, rfl, ?_, ?_, ?_, ?_⟩
      · rw [walkBack_succ, hp, walkBack_none]; simp
      · unfold AbstractGraph.IsWalk; simp
      · simp [pathCost, hm0]
      · simp
      · intro x hx; simp at hx; subst hx; exact le_refl _
    | some p =>
      obtain ⟨-, -, hdep, e, he, hev, mp, hmp, hmv⟩ := h.tree v p hp
      obtain ⟨r, hwalk, hhead, hlast, hw, hcost, hnd, hdepr⟩ :=
        ih p mp (by omega) hmp (acc ++ [v])
      have hrne : r ≠ [] := by
        intro hc; rw [hc] at hhead; simp at hhead
      have hadj : g.adjacent p v = true := (hg.adj p v).2 ⟨e, he, hev⟩
      have hval : g.get_edge_value p v = e.weight := by
        have := hg.value p e he
        rw [hev] at this; exact this
      refine ⟨r ++ [v], ?_, ?_, ?_, ?_, ?_, ?_, ?_⟩
      · rw [walkBack_succ, hp, hwalk]
        simp
      · rw [List.head?_append_of_ne_nil _ hrne]; exact hhead
      · simp
      · unfold AbstractGraph.IsWalk at hw ⊢
        refine List.Chain'.append hw (List.chain'_singleton v) ?_
        intro x hx y hy
        rw [hlast] at hx
        simp only [Option.mem_def, Option.some.injEq] at hx
        simp only [List.head?_cons, Option.mem_def, Option.some.injEq] at hy
        subst hx; subst hy
        exact hadj
      · rw [pathCost_append_singleton g r p v hlast, hcost, hval]
        rw [hm] at hmv
        exact (Option.some.inj hmv).symm
      · rw [List.nodup_append]
        refine ⟨hnd, List.nodup_singleton v, ?_⟩
        intro x hx hxv
        simp only [List.mem_singleton] at hxv
        subst hxv
        have := hdepr x hx
        omega
      · intro x hx
        rcases List.mem_append.1 hx with hx | hx
        · have := hdepr x hx; omega
        · simp only [List.mem_singleton] at hx
          subst hx; exact le_refl _

theorem pathCost_nonneg (g : AbstractGraph vertex_type W) (hg : g.Good)
    (hnn : g.NonNegWeights) (p : List Nat) (hw : g.IsWalk p) : 0 ≤ pathCost g p := by
  induction p with
  | nil => simp [pathCost]
  | cons a rest ih =>
    cases rest with
    | nil => simp [pathCost]
    | cons b rest =>
      unfold AbstractGraph.IsWalk at hw ih
      obtain ⟨hadj, hrest⟩ := List.chain'_cons.1 hw
      obtain ⟨e, he, hev⟩ := (hg.adj a b).1 hadj
      have hval := hg.value a e he
      rw [hev] at hval
      have h0 := hnn a (hg.src_range a e he) e he
      have h1 := ih hrest
      have hpc : pathCost g (a :: b :: rest) =
          g.get_edge_value a b + pathCost g (b :: rest) := rfl
      rw [hpc, hval]
      linarith

/-- Everything `path` does on a good graph with non-negative weights. -/
theorem path_master (sp : ShortestPath vertex_type W) (hg : sp.g.Good)
    (hnn : sp.g.NonNegWeights) (s t : Nat) (hs : s < sp.g.V) :
    ∃ (fuel0 : Nat) (st : RelaxState W) (p : List Nat),
      relaxLoop sp.g fuel0 (ShortestPath.initState sp.g.V s) = some st ∧
      st.vertex_queue = [] ∧
      walkBack st.previous fuel0 (some t) [] = some p.reverse ∧
      (∀ fuel, fuel0 ≤ fuel → sp.path fuel s t =
        some ({ sp with min_distance := st.min_distance, previous := st.previous, _path := p },
              p)) ∧
      p.getLast? = some t ∧ p.Nodup ∧
      (sp.g.Reaches s t →
        p.head? = some s ∧ sp.g.IsWalk p ∧
        st.min_distance.getD t none = some (pathCost sp.g p) ∧
        ∀ q, sp.g.IsWalk q → q.head? = some s → q.getLast? = some t →
          pathCost sp.g p ≤ pathCost sp.g q) ∧
      (¬ sp.g.Reaches s t → p = [t] ∧ st.min_distance.getD t none = none) := by
  obtain ⟨st, done, dep, hloop, hinv, hq⟩ :=
    relaxLoop_inv sp.g hg hnn s s _ (ShortestPath.initState sp.g.V s) ∅ (fun _ => 0)
      (relaxInv_init sp.g s hs) (le_refl _)
  have hfin : ∀ (fuel0 : Nat) (p : List Nat),
      relaxLoop sp.g fuel0 (ShortestPath.initState sp.g.V s) = some st →
      walkBack st.previous fuel0 (some t) [] = some p.reverse →
      ∀ fuel, fuel0 ≤ fuel → sp.path fuel s t =
        some ({ sp with min_distance := st.min_distance, previous := st.previous, _path := p },
              p) := by
    intro fuel0 p h1 h2 fuel hle
    obtain ⟨k, rfl⟩ := Nat.exists_eq_add_of_le hle
    unfold ShortestPath.path
    rw [relaxLoop_mono sp.g k fuel0 _ _ h1]
    simp only
    rw [walkBack_mono st.previous k fuel0 _ _ _ h2]
    simp
  by_cases hr : sp.g.Reaches s t
  · obtain ⟨m, hm⟩ := final_reach_finite sp.g hg s done dep s st hinv hq t hr
    obtain ⟨r, hwalk, hhead, hlast, hw, hcost, hnd, -⟩ :=
      walkBack_spec sp.g hg s done dep s st hinv (dep t) t m (le_refl _) hm []
    rw [List.nil_append] at hwalk
    have hl1 := relaxLoop_mono sp.g (dep t + 1) _ _ _ hloop
    have hw1 : walkBack st.previous
        (relaxMeasure sp.g ∅ (ShortestPath.initState sp.g.V s) + (dep t + 1)) (some t) [] =
        some r.reverse := by
      rw [Nat.add_comm]
      exact walkBack_mono st.previous _ _ _ _ _ hwalk
    refine ⟨_, st, r, hl1, hq, hw1, hfin _ r hl1 hw1, hlast, hnd, ?_, ?_⟩
    · intro _
      refine ⟨hhead, hw, by rw [hcost]; exact hm, ?_⟩
      intro q hwq hqh hql
      obtain ⟨mb, hmb, hle⟩ :=
        final_lower_bound sp.g hg s done dep s st hinv hq q hwq s t 0 hqh hql hinv.src_md
      rw [hm] at hmb
      rw [hcost, Option.some.inj hmb]
      linarith
    · intro hc; exact absurd hr hc
  · have hmd : st.min_distance.getD t none = none := by
      cases hmt : st.min_distance.getD t none with
      | none => rfl
      | some m => exact absurd (hinv.reach t m hmt) hr
    have hpv : st.previous.getD t none = none := by
      cases hpt : st.previous.getD t none with
      | none => rfl
      | some p =>
        obtain ⟨-, -, -, e, -, -, mp, -, hmv⟩ := hinv.tree t p hpt
        rw [hmd] at hmv; cases hmv
    have hl1 := relaxLoop_mono sp.g 1 _ _ _ hloop
    have hw1 : walkBack st.previous
        (relaxMeasure sp.g ∅ (ShortestPath.initState sp.g.V s) + 1) (some t) [] =
        some [t].reverse := by
      rw [walkBack_succ, hpv, walkBack_none]; simp
    refine ⟨_, st, [t], hl1, hq, hw1, hfin _ [t] hl1 hw1, rfl, by simp, ?_, ?_⟩
    · intro hc; exact absurd hc hr
    · intro _; exact ⟨rfl, hmd⟩

theorem path_size_of_path (sp sp1 : ShortestPath vertex_type W) (fuel s t : Nat)
    (p : List Nat) (h : sp.path fuel s t = some (sp1, p)) :
    sp.path_size fuel s t =
      some (sp1, if sumEdges sp1.g 0 sp1._path = 0 then -1 else sumEdges sp1.g 0 sp1._path) := by
  unfold ShortestPath.path_size
  rw [h]
  simp only
  by_cases h0 : sumEdges sp1.g 0 sp1._path = 0
  · rw [if_pos h0, if_pos h0]
  · rw [if_neg h0, if_neg h0]

end DijkstraLemmas

section StateLemmas

variable {vertex_type W : Type} [LinearOrderedCommRing W]

theorem AbstractGraph.addEdge2_eq (g : AbstractGraph vertex_type W) (x y : Nat) :
    g.addEdge2 x y = g.addEdge x y 0 := by
  cases g <;> rfl

theorem AbstractGraph.V_addEdge (g : AbstractGraph vertex_type W) (x y : Nat) (w : W) :
    (g.addEdge x y w).V = g.V := by
  cases g with
  | adjList a =>
    show (a.addEdge x y w).numVertex = a.numVertex
    unfold AdjListGraph.addEdge
    cases overwriteNeighbor y w (a.row x) <;> rfl
  | matrix m => rfl

theorem AbstractGraph.V_deleteEdge (g : AbstractGraph vertex_type W) (x y : Nat) :
    (g.deleteEdge x y).V = g.V := by
  cases g with
  | adjList a =>
    show (a.deleteEdge x y).numVertex = a.numVertex
    unfold AdjListGraph.deleteEdge
    cases eraseNeighbor y (a.row x) <;> rfl
  | matrix m => rfl

theorem AbstractGraph.V_set_edge_value (g : AbstractGraph vertex_type W) (x y : Nat) (w : W) :
    (g.set_edge_value x y w).V = g.V := by
  cases g with
  | adjList a =>
    show (a.set_edge_value x y w).numVertex = a.numVertex
    unfold AdjListGraph.set_edge_value
    cases overwriteNeighbor y w (a.row x) <;> rfl
  | matrix m => rfl

theorem AbstractGraph.wellFormed_addEdge (g : AbstractGraph vertex_type W)
    (hwf : g.WellFormed) (x y : Nat) (w : W) (hy : y < g.V) : (g.addEdge x y w).WellFormed := by
  cases g with
  | adjList a => exact a.list_wellFormed_addEdge hwf x y w hy
  | matrix m => exact m.wellFormed_setCell _ hwf x y w rfl rfl

theorem AbstractGraph.wellFormed_of_reachable (g : AbstractGraph vertex_type W)
    (h : g.Reachable) : g.WellFormed := by
  induction h with
  | createList n => exact AdjListGraph.list_wellFormed_create n
  | createMatrix n => exact MatrixGraph.matrix_wellFormed_create n
  | addEdge g x y w _ _ hy ih => exact g.wellFormed_addEdge ih x y w hy
  | addEdge2 g x y _ _ hy ih =>
    rw [g.addEdge2_eq]; exact g.wellFormed_addEdge ih x y 0 hy
  | deleteEdge g x y _ _ _ ih =>
    cases g with
    | adjList a => exact a.wellFormed_deleteEdge ih x y
    | matrix m => exact m.wellFormed_setCell _ ih x y 0 rfl rfl
  | set_edge_value g x y w _ _ _ ih =>
    cases g with
    | adjList a => exact a.wellFormed_set_edge_value ih x y w
    | matrix m => exact m.wellFormed_setCell _ ih x y w rfl rfl

theorem AbstractGraph.neighbors_nodup (g : AbstractGraph vertex_type W) (hwf : g.WellFormed)
    (x : Nat) : ((g.neighbors x).map Neighbor.vertex).Nodup := by
  cases g with
  | adjList a => exact (a.wellFormed_row hwf x).1
  | matrix m =>
    show ((m.neighbors x).map Neighbor.vertex).Nodup
    unfold MatrixGraph.neighbors
    rw [List.map_filterMap]
    refine List.Nodup.filterMap ?_ (List.nodup_range _)
    intro a a1 b hb hb1
    by_cases ha : m.cell x a ≠ 0
    · by_cases ha1 : m.cell x a1 ≠ 0
      · simp only [if_pos ha, if_pos ha1, Option.map_some', Option.mem_def,
          Option.some.injEq] at hb hb1
        rw [hb, hb1]
      · simp [if_neg ha1] at hb1
    · simp [if_neg ha] at hb

end StateLemmas

section ClaimLemmas

variable {vertex_type W : Type} [LinearOrderedCommRing W]

theorem ShortestPath.path_mono (sp : ShortestPath vertex_type W) (s t fuel k : Nat)
    (r : ShortestPath vertex_type W × List Nat) (h : sp.path fuel s t = some r) :
    sp.path (fuel + k) s t = some r := by
  unfold ShortestPath.path at h ⊢
  cases hl : relaxLoop sp.g fuel (ShortestPath.initState sp.g.V s) with
  | none => rw [hl] at h; cases h
  | some st =>
    rw [hl] at h
    rw [relaxLoop_mono sp.g k fuel _ _ hl]
    simp only at h ⊢
    cases hw : walkBack st.previous fuel (some t) [] with
    | none => rw [hw] at h; cases h
    | some p =>
      rw [hw] at h
      rw [walkBack_mono st.previous k fuel _ _ _ hw]
      exact h

theorem ShortestPath.path_size_mono (sp : ShortestPath vertex_type W) (s t fuel k : Nat)
    (r : ShortestPath vertex_type W × W) (h : sp.path_size fuel s t = some r) :
    sp.path_size (fuel + k) s t = some r := by
  unfold ShortestPath.path_size at h ⊢
  cases hp : sp.path fuel s t with
  | none => rw [hp] at h; cases h
  | some r1 =>
    rw [hp] at h
    rw [sp.path_mono s t fuel k r1 hp]
    exact h

theorem runTest_mono (g : AbstractGraph ℤ ℤ) (fuel k : Nat) (r : List Nat × ℤ)
    (h : runTest fuel g = some r) : runTest (fuel + k) g = some r := by
  unfold runTest at h ⊢
  cases hp : (ShortestPath.create g).path fuel 0 4 with
  | none => rw [hp] at h; cases h
  | some r1 =>
    obtain ⟨sp, path⟩ := r1
    rw [hp] at h
    rw [ShortestPath.path_mono _ 0 4 fuel k _ hp]
    simp only at h ⊢
    cases hs : sp.path_size fuel 0 4 with
    | none => rw [hs] at h; cases h
    | some r2 =>
      rw [hs] at h
      rw [sp.path_size_mono 0 4 fuel k r2 hs]
      exact h

theorem ShortestPath.path_map_mono (sp : ShortestPath vertex_type W) (s t fuel k : Nat)
    (p : List Nat) (h : (sp.path fuel s t).map Prod.snd = some p) :
    (sp.path (fuel + k) s t).map Prod.snd = some p := by
  cases hp : sp.path fuel s t with
  | none => rw [hp] at h; cases h
  | some r => rw [sp.path_mono s t fuel k r hp]; rw [hp] at h; exact h

theorem ShortestPath.path_size_map_mono (sp : ShortestPath vertex_type W) (s t fuel k : Nat)
    (c : W) (h : (sp.path_size fuel s t).map Prod.snd = some c) :
    (sp.path_size (fuel + k) s t).map Prod.snd = some c := by
  cases hp : sp.path_size fuel s t with
  | none => rw [hp] at h; cases h
  | some r => rw [sp.path_size_mono s t fuel k r hp]; rw [hp] at h; exact h

set_option maxRecDepth 100000 in
theorem path_test1Graph :
    ((ShortestPath.create test1Graph).path 8 0 4).map Prod.snd = some [0, 2, 5, 4] := by
  decide

set_option maxRecDepth 100000 in
theorem path_size_test1Graph :
    ((ShortestPath.create test1Graph).path_size 8 0 4).map Prod.snd = some 20 := by
  decide

set_option maxRecDepth 100000 in
theorem path_test2Graph :
    ((ShortestPath.create test2Graph).path 8 0 4).map Prod.snd = some [0, 2, 5, 4] := by
  decide

set_option maxRecDepth 100000 in
theorem path_size_test2Graph :
    ((ShortestPath.create test2Graph).path_size 8 0 4).map Prod.snd = some 20 := by
  decide

set_option maxRecDepth 100000 in
theorem runTest_test1Graph : runTest 8 test1Graph = some ([0, 2, 5, 4], 20) := by decide

set_option maxRecDepth 100000 in
theorem runTest_test2Graph : runTest 8 test2Graph = some ([0, 2, 5, 4], 20) := by decide

theorem MatrixGraph.cell_addEdge (g : MatrixGraph vertex_type W) (hwf : g.WellFormed)
    (x y : Nat) (w : W) (hx : x < g.numVertex) (hy : y < g.numVertex) (x1 y1 : Nat) :
    (g.addEdge x y w).cell x1 y1 = if x1 = x ∧ y1 = y then w else g.cell x1 y1 :=
  g.cell_setCell (g.addEdge x y w) hwf x y w hx hy rfl x1 y1

theorem AbstractGraph.get_edge_value_addEdge (g : AbstractGraph vertex_type W)
    (hwf : g.WellFormed) (x y : Nat) (w : W) (hx : x < g.V) (hy : y < g.V) (x1 y1 : Nat) :
    (g.addEdge x y w).get_edge_value x1 y1 =
      if x1 = x ∧ y1 = y then w else g.get_edge_value x1 y1 := by
  cases g with
  | adjList a =>
    exact a.list_get_edge_value_addEdge x y w (by rw [hwf.1]; exact hx) x1 y1
  | matrix m => exact m.cell_addEdge hwf x y w hx hy x1 y1

theorem AbstractGraph.adjacent_addEdge (g : AbstractGraph vertex_type W)
    (hwf : g.WellFormed) (x y : Nat) (w : W) (hx : x < g.V) (hy : y < g.V) (x1 y1 : Nat) :
    (g.addEdge x y w).adjacent x1 y1 =
      if x1 = x ∧ y1 = y then (g.isAdjList || decide (w ≠ 0)) else g.adjacent x1 y1 := by
  cases g with
  | adjList a =>
    have := a.list_adjacent_addEdge x y w (by rw [hwf.1]; exact hx) x1 y1
    simpa [AbstractGraph.isAdjList] using this
  | matrix m =>
    show decide ((m.addEdge x y w).cell x1 y1 ≠ 0) = _
    rw [m.cell_addEdge hwf x y w hx hy x1 y1]
    by_cases h : x1 = x ∧ y1 = y
    · simp [h, AbstractGraph.isAdjList]
    · simp [h, AbstractGraph.adjacent, MatrixGraph.adjacent]

theorem AbstractGraph.E_addEdge (g : AbstractGraph vertex_type W) (x y : Nat) (w : W) :
    (g.addEdge x y w).E =
      if g.isAdjList then (if g.adjacent x y = true then g.E else g.E + 1)
      else (if g.get_edge_value x y = 0 then g.E + 1 else g.E) := by
  cases g with
  | adjList a => simpa [AbstractGraph.isAdjList] using a.numEdge_addEdge x y w
  | matrix m => rfl

theorem AbstractGraph.not_reaches_of_closed (g : AbstractGraph vertex_type W)
    (hwf : g.WellFormed) (S : Nat → Bool) (s t : Nat) (hs : S s = true)
    (hclosed : ∀ a < g.V, S a = true → ∀ e ∈ g.neighbors a, S e.vertex = true)
    (ht : S t = false) : ¬ g.Reaches s t := by
  have hg := g.good_of_wellFormed hwf
  have hall : ∀ v, g.Reaches s v → S v = true := by
    intro v hr
    unfold AbstractGraph.Reaches at hr
    induction hr with
    | refl => exact hs
    | @tail b c _ hadj ih =>
      obtain ⟨e, he, hev⟩ := (hg.adj b c).1 hadj
      rw [← hev]
      exact hclosed b (hg.src_range b e he) ih e he
  intro hr
  have := hall t hr
  rw [ht] at this
  cases this

theorem AdjListGraph.row_create (n x : Nat) :
    (AdjListGraph.create vertex_type W n).row x = [] := by
  unfold AdjListGraph.row AdjListGraph.create
  by_cases hx : x < n <;> simp [List.getD_eq_getElem?_getD, List.getElem?_replicate, hx]

theorem MatrixGraph.cell_create (n x y : Nat) :
    (MatrixGraph.create vertex_type W n).cell x y = 0 := by
  unfold MatrixGraph.cell MatrixGraph.create
  by_cases hx : x < n <;> by_cases hy : y < n <;>
    simp [List.getD_eq_getElem?_getD, List.getElem?_replicate, hx, hy]

theorem sameEdges_create (n : Nat) :
    SameEdges (AbstractGraph.adjList (AdjListGraph.create vertex_type W n))
      (AbstractGraph.matrix (MatrixGraph.create vertex_type W n)) n := by
  have hadj : ∀ x y, (AbstractGraph.adjList (AdjListGraph.create vertex_type W n)).adjacent x y
      = false := by
    intro x y
    show (findNeighbor y ((AdjListGraph.create vertex_type W n).row x)).isSome = false
    rw [AdjListGraph.row_create]; rfl
  constructor
  · exact AdjListGraph.list_wellFormed_create n
  · exact MatrixGraph.matrix_wellFormed_create n
  · rfl
  · rfl
  · intro x y
    show (AdjListGraph.create vertex_type W n).get_edge_value x y =
      (MatrixGraph.create vertex_type W n).cell x y
    unfold AdjListGraph.get_edge_value
    rw [AdjListGraph.row_create, MatrixGraph.cell_create]; rfl
  · intro x y
    rw [hadj x y]
    show false = decide ((MatrixGraph.create vertex_type W n).cell x y ≠ 0)
    rw [MatrixGraph.cell_create]; simp
  · intro x y h
    rw [hadj x y] at h; cases h

theorem sameEdges_addEdge (g1 g2 : AbstractGraph vertex_type W) (n : Nat)
    (h : SameEdges g1 g2 n) (x y : Nat) (w : W) (hx : x < n) (hy : y < n) (hw : 0 < w) :
    SameEdges (g1.addEdge x y w) (g2.addEdge x y w) n := by
  have hx1 : x < g1.V := by rw [h.v1]; exact hx
  have hy1 : y < g1.V := by rw [h.v1]; exact hy
  have hx2 : x < g2.V := by rw [h.v2]; exact hx
  have hy2 : y < g2.V := by rw [h.v2]; exact hy
  have hw0 : w ≠ 0 := ne_of_gt hw
  constructor
  · exact g1.wellFormed_addEdge h.wf1 x y w hy1
  · exact g2.wellFormed_addEdge h.wf2 x y w hy2
  · rw [g1.V_addEdge]; exact h.v1
  · rw [g2.V_addEdge]; exact h.v2
  · intro a b
    rw [g1.get_edge_value_addEdge h.wf1 x y w hx1 hy1, g2.get_edge_value_addEdge h.wf2 x y w hx2 hy2,
      h.value a b]
  · intro a b
    rw [g1.adjacent_addEdge h.wf1 x y w hx1 hy1, g2.adjacent_addEdge h.wf2 x y w hx2 hy2,
      h.adj a b]
    by_cases hab : a = x ∧ b = y
    · simp [hab, hw0]
    · simp [hab]
  · intro a b
    rw [g1.adjacent_addEdge h.wf1 x y w hx1 hy1, g1.get_edge_value_addEdge h.wf1 x y w hx1 hy1]
    by_cases hab : a = x ∧ b = y
    · simp [hab, hw]
    · simp only [if_neg hab]; exact h.pos a b

theorem sameEdges_addEdges (n : Nat) (calls : List (Nat × Nat × W))
    (hcalls : ∀ c ∈ calls, c.1 < n ∧ c.2.1 < n ∧ 0 < c.2.2) :
    ∀ (g1 g2 : AbstractGraph vertex_type W), SameEdges g1 g2 n →
      SameEdges (g1.addEdges calls) (g2.addEdges calls) n := by
  induction calls with
  | nil => intro g1 g2 h; exact h
  | cons c rest ih =>
    intro g1 g2 h
    obtain ⟨hx, hy, hw⟩ := hcalls c (List.mem_cons_self _ _)
    exact ih (fun c1 hc1 => hcalls c1 (List.mem_cons_of_mem _ hc1)) _ _
      (sameEdges_addEdge g1 g2 n h c.1 c.2.1 c.2.2 hx hy hw)

theorem pathCost_congr (g1 g2 : AbstractGraph vertex_type W)
    (h : ∀ x y, g1.get_edge_value x y = g2.get_edge_value x y) (p : List Nat) :
    pathCost g1 p = pathCost g2 p := by
  induction p with
  | nil => rfl
  | cons a rest ih =>
    cases rest with
    | nil => rfl
    | cons b rest =>
      have h1 : pathCost g1 (a :: b :: rest) =
          g1.get_edge_value a b + pathCost g1 (b :: rest) := rfl
      have h2 : pathCost g2 (a :: b :: rest) =
          g2.get_edge_value a b + pathCost g2 (b :: rest) := rfl
      rw [h1, h2, ih, h a b]

theorem SameEdges.nonNeg (g1 g2 : AbstractGraph vertex_type W) (n : Nat)
    (h : SameEdges g1 g2 n) : g1.NonNegWeights ∧ g2.NonNegWeights := by
  have hg1 := g1.good_of_wellFormed h.wf1
  have hg2 := g2.good_of_wellFormed h.wf2
  constructor
  · intro x _ e he
    have hadj := (hg1.adj x e.vertex).2 ⟨e, he, rfl⟩
    have := h.pos x e.vertex hadj
    rw [hg1.value x e he] at this
    exact le_of_lt this
  · intro x _ e he
    have hadj := (hg2.adj x e.vertex).2 ⟨e, he, rfl⟩
    rw [← h.adj] at hadj
    have := h.pos x e.vertex hadj
    rw [h.value, hg2.value x e he] at this
    exact le_of_lt this

/-- The two engines agree on `path_size` when their graphs present the same
positively weighted edges. -/
theorem path_size_sameEdges (sp1 sp2 : ShortestPath vertex_type W) (n : Nat)
    (h : SameEdges sp1.g sp2.g n) (s t : Nat) (hs : s < n) :
    ∃ (fuel0 : Nat) (r : W), ∀ fuel, fuel0 ≤ fuel →
      (sp1.path_size fuel s t).map Prod.snd = some r ∧
      (sp2.path_size fuel s t).map Prod.snd = some r := by
  have hg1 := sp1.g.good_of_wellFormed h.wf1
  have hg2 := sp2.g.good_of_wellFormed h.wf2
  obtain ⟨hnn1, hnn2⟩ := h.nonNeg
  obtain ⟨f1, st1, p1, -, -, -, hpath1, hlast1, -, hyes1, hnot1⟩ :=
    path_master sp1 hg1 hnn1 s t (by rw [h.v1]; exact hs)
  obtain ⟨f2, st2, p2, -, -, -, hpath2, hlast2, -, hyes2, hnot2⟩ :=
    path_master sp2 hg2 hnn2 s t (by rw [h.v2]; exact hs)
  have hadjf : (fun a b => sp1.g.adjacent a b = true) = (fun a b => sp2.g.adjacent a b = true) := by
    funext a b; rw [h.adj a b]
  have hreach : sp1.g.Reaches s t ↔ sp2.g.Reaches s t := by
    unfold AbstractGraph.Reaches; rw [hadjf]
  have hwalk : ∀ q, sp1.g.IsWalk q ↔ sp2.g.IsWalk q := by
    intro q; unfold AbstractGraph.IsWalk; rw [hadjf]
  have hsum : sumEdges sp1.g 0 p1 = sumEdges sp2.g 0 p2 := by
    rw [sumEdges_eq, sumEdges_eq, zero_add, zero_add]
    by_cases hr : sp1.g.Reaches s t
    · obtain ⟨hh1, hw1, -, hmin1⟩ := hyes1 hr
      obtain ⟨hh2, hw2, -, hmin2⟩ := hyes2 (hreach.1 hr)
      have ha := hmin1 p2 ((hwalk p2).2 hw2) hh2 hlast2
      have hb := hmin2 p1 ((hwalk p1).1 hw1) hh1 hlast1
      rw [pathCost_congr sp1.g sp2.g h.value p2] at ha
      rw [← pathCost_congr sp1.g sp2.g h.value p1] at hb
      exact le_antisymm ha hb
    · rw [(hnot1 hr).1, (hnot2 (fun hc => hr (hreach.2 hc))).1]
      simp [pathCost]
  refine ⟨max f1 f2, if sumEdges sp1.g 0 p1 = 0 then -1 else sumEdges sp1.g 0 p1, ?_⟩
  intro fuel hf
  have hf1 : f1 ≤ fuel := le_trans (le_max_left _ _) hf
  have hf2 : f2 ≤ fuel := le_trans (le_max_right _ _) hf
  constructor
  · rw [path_size_of_path sp1 _ fuel s t _ (hpath1 fuel hf1)]; rfl
  · rw [path_size_of_path sp2 _ fuel s t _ (hpath2 fuel hf2)]
    show some (if sumEdges sp2.g 0 p2 = 0 then (-1 : W) else sumEdges sp2.g 0 p2) = _
    rw [hsum]

end ClaimLemmas

/-! ## The relax loop over the arithmetic of `weight_type`: lemmas -/

section RoundedLemmas

variable {vertex_type W : Type} [LinearOrderedCommRing W]

theorem roundedAdd_exact : RoundedAdd (exactAdd : W → W → Option W) (fun _ => True) := by
  constructor
  · trivial
  · intro a b c _; trivial
  · intro d w c _ hw hc
    simp only [exactAdd, Option.some.injEq] at hc
    rw [← hc]; linarith
  · intro a b w ca cb hab ha hb
    simp only [exactAdd, Option.some.injEq] at ha hb
    rw [← ha, ← hb]; linarith

theorem relaxOneFl_none (add : W → W → Option W) (dist : W) (u : Nat) (e : Neighbor W)
    (st : RelaxState W) (h : add dist e.weight = none) : relaxOneFl add dist u e st = st := by
  simp only [relaxOneFl, h]

theorem relaxOneFl_skip (add : W → W → Option W) (dist : W) (u : Nat) (e : Neighbor W)
    (st : RelaxState W) (c : W) (h : add dist e.weight = some c)
    (hno : ltDist c (st.min_distance.getD e.vertex none) = false) :
    relaxOneFl add dist u e st = st := by
  simp only [relaxOneFl, h]
  rw [if_neg (by rw [hno]; exact Bool.false_ne_true)]

theorem relaxOneFl_update (add : W → W → Option W) (dist : W) (u : Nat) (e : Neighbor W)
    (st : RelaxState W) (c : W) (h : add dist e.weight = some c)
    (hyes : ltDist c (st.min_distance.getD e.vertex none) = true) :
    relaxOneFl add dist u e st =
      { min_distance := st.min_distance.set e.vertex (some c),
        previous := st.previous.set e.vertex (some u),
        vertex_queue := (c, e.vertex) :: st.vertex_queue } := by
  simp only [relaxOneFl, h]
  rw [if_pos hyes]

theorem relaxNeighborsFl_noop (add : W → W → Option W) (dist : W) (u : Nat)
    (l : List (Neighbor W)) (st : RelaxState W)
    (h : ∀ e ∈ l, relaxOneFl add dist u e st = st) :
    relaxNeighborsFl add dist u l st = st := by
  induction l with
  | nil => rfl
  | cons e rest ih =>
    have he := h e (List.mem_cons_self _ _)
    simp only [relaxNeighborsFl, he]
    exact ih (fun e1 he1 => h e1 (List.mem_cons_of_mem _ he1))

theorem relaxOneFl_queue_length (add : W → W → Option W) (dist : W) (u : Nat) (e : Neighbor W)
    (st : RelaxState W) :
    (relaxOneFl add dist u e st).vertex_queue.length ≤ st.vertex_queue.length + 1 := by
  cases hc : add dist e.weight with
  | none => rw [relaxOneFl_none add dist u e st hc]; omega
  | some c =>
    by_cases hyes : ltDist c (st.min_distance.getD e.vertex none) = true
    · rw [relaxOneFl_update add dist u e st c hc hyes]
      simp
    · rw [relaxOneFl_skip add dist u e st c hc (by simpa using hyes)]; omega

theorem relaxNeighborsFl_queue_length (add : W → W → Option W) (dist : W) (u : Nat)
    (l : List (Neighbor W)) (st : RelaxState W) :
    (relaxNeighborsFl add dist u l st).vertex_queue.length ≤
      st.vertex_queue.length + l.length := by
  induction l generalizing st with
  | nil => simp [relaxNeighborsFl]
  | cons e rest ih =>
    simp only [relaxNeighborsFl]
    refine le_trans (ih _) ?_
    have := relaxOneFl_queue_length add dist u e st
    simp only [List.length_cons]
    omega

theorem relaxInvFl_skip (g : AbstractGraph vertex_type W) (add : W → W → Option W)
    (Rep : W → Prop) (s : Nat) (done : Finset Nat)
    (dep : Nat → Nat) (u : Nat) (e : Neighbor W) (rest : List (Neighbor W)) (st : RelaxState W)
    (d c : W) (hu : st.min_distance.getD u none = some d)
    (hc : add d e.weight = some c)
    (hno : ltDist c (st.min_distance.getD e.vertex none) = false)
    (h : RelaxInvFl g add Rep s done dep u (e :: rest) st) :
    RelaxInvFl g add Rep s done dep u rest st := by
  refine { h with settled := ?_ }
  intro x hx
  obtain ⟨mx, hmx, hq, hed⟩ := h.settled x hx
  refine ⟨mx, hmx, hq, ?_⟩
  intro e1 he1
  rcases hed e1 he1 with ⟨hxu, hmem⟩ | hr
  · rcases List.mem_cons.1 hmem with heq | hmem
    · right
      obtain ⟨b, hb, hle⟩ := ltDist_false hno
      subst heq; subst hxu
      rw [hu] at hmx
      simp only [Option.some.injEq] at hmx
      subst hmx
      exact ⟨b, c, hb, hc, hle⟩
    · exact Or.inl ⟨hxu, hmem⟩
  · exact Or.inr hr

theorem relaxInvFl_update (g : AbstractGraph vertex_type W) (hg : g.Good)
    (add : W → W → Option W) (Rep : W → Prop) (hadd : RoundedAdd add Rep) (s : Nat)
    (done : Finset Nat) (dep : Nat → Nat) (u : Nat) (e : Neighbor W) (rest : List (Neighbor W))
    (st : RelaxState W) (d c : W)
    (hu : st.min_distance.getD u none = some d) (hud : u ∈ done) (hsd : s ∈ done)
    (hdom : ∀ x ∈ done, ∀ mx, st.min_distance.getD x none = some mx → mx ≤ d)
    (he : e ∈ g.neighbors u) (hw : 0 ≤ e.weight)
    (hc : add d e.weight = some c)
    (hyes : ltDist c (st.min_distance.getD e.vertex none) = true)
    (h : RelaxInvFl g add Rep s done dep u (e :: rest) st) :
    e.vertex ∉ done ∧
    RelaxInvFl g add Rep s done (Function.update dep e.vertex (dep u + 1)) u rest
      { min_distance := st.min_distance.set e.vertex (some c),
        previous := st.previous.set e.vertex (some u),
        vertex_queue := (c, e.vertex) :: st.vertex_queue } := by
  have hv : e.vertex < g.V := hg.range u e he
  have hdc : d ≤ c := hadd.ge_left d e.weight c (h.rep u d hu) hw hc
  have hvd : e.vertex ∉ done := by
    intro hmem
    obtain ⟨mx, hmx, -, -⟩ := h.settled _ hmem
    have h1 := hdom _ hmem mx hmx
    rw [hmx] at hyes
    have h2 := ltDist_true_some hyes
    exact absurd (lt_of_lt_of_le h2 (le_trans h1 hdc)) (lt_irrefl _)
  have hvu : e.vertex ≠ u := fun hc => hvd (hc ▸ hud)
  have hvs : e.vertex ≠ s := fun hc => hvd (hc ▸ hsd)
  have hlm : e.vertex < st.min_distance.length := by rw [h.len_md]; exact hv
  have hlp : e.vertex < st.previous.length := by rw [h.len_prev]; exact hv
  have hold : ∀ m, st.min_distance.getD e.vertex none = some m → c < m := by
    intro m hm
    rw [hm] at hyes
    exact ltDist_true_some hyes
  refine ⟨hvd, ?_⟩
  constructor
  · simp [h.len_md]
  · simp [h.len_prev]
  · show (st.min_distance.set e.vertex (some c)).getD s none = some 0
    rw [getD_set_of_ne _ _ _ _ _ hvs]; exact h.src_md
  · show (st.previous.set e.vertex (some u)).getD s none = none
    rw [getD_set_of_ne _ _ _ _ _ hvs]; exact h.src_prev
  · exact Or.inl hsd
  · intro y m hm
    change (st.min_distance.set e.vertex (some c)).getD y none = some m at hm
    by_cases hyv : e.vertex = y
    · subst hyv
      rw [getD_set_self _ _ _ _ hlm] at hm
      simp only [Option.some.injEq] at hm
      subst hm
      exact hadd.rep_add _ _ _ hc
    · rw [getD_set_of_ne _ _ _ _ _ hyv] at hm
      exact h.rep y m hm
  · intro d1 y hy
    show y < g.V ∧ ∃ m, (st.min_distance.set e.vertex (some c)).getD y none = some m
      ∧ m ≤ d1
    rcases List.mem_cons.1 hy with heq | hy
    · simp only [Prod.mk.injEq] at heq
      obtain ⟨h1, h2⟩ := heq
      subst h1; subst h2
      exact ⟨hv, _, getD_set_self _ _ _ _ hlm, le_refl _⟩
    · obtain ⟨hyV, m, hm, hle⟩ := h.queue d1 y hy
      refine ⟨hyV, ?_⟩
      by_cases hyv : e.vertex = y
      · subst hyv
        exact ⟨_, getD_set_self _ _ _ _ hlm, le_trans (le_of_lt (hold m hm)) hle⟩
      · exact ⟨m, by rw [getD_set_of_ne _ _ _ _ _ hyv]; exact hm, hle⟩
  · intro y m hm
    show y ∈ done ∨ (m, y) ∈ (c, e.vertex) :: st.vertex_queue
    change (st.min_distance.set e.vertex (some c)).getD y none = some m at hm
    by_cases hyv : e.vertex = y
    · subst hyv
      rw [getD_set_self _ _ _ _ hlm] at hm
      simp only [Option.some.injEq] at hm
      subst hm
      exact Or.inr (List.mem_cons_self _ _)
    · rw [getD_set_of_ne _ _ _ _ _ hyv] at hm
      rcases h.pending y m hm with h1 | h1
      · exact Or.inl h1
      · exact Or.inr (List.mem_cons_of_mem _ h1)
  · exact h.done_lt
  · intro x hx
    obtain ⟨mx, hmx, hq, hed⟩ := h.settled x hx
    have hxv : e.vertex ≠ x := fun hc => hvd (hc ▸ hx)
    refine ⟨mx, ?_, ?_, ?_⟩
    · show (st.min_distance.set e.vertex (some c)).getD x none = some mx
      rw [getD_set_of_ne _ _ _ _ _ hxv]; exact hmx
    · intro d1 y hy
      rcases List.mem_cons.1 hy with heq | hy
      · simp only [Prod.mk.injEq] at heq
        obtain ⟨h1, -⟩ := heq
        subst h1
        exact le_trans (hdom x hx mx hmx) hdc
      · exact hq d1 y hy
    · intro e1 he1
      show (x = u ∧ e1 ∈ rest) ∨ ∃ mv c1,
        (st.min_distance.set e.vertex (some c)).getD e1.vertex none = some mv
          ∧ add mx e1.weight = some c1 ∧ mv ≤ c1
      rcases hed e1 he1 with ⟨hxu, hmem⟩ | ⟨mv, c1, hmv, hc1, hle⟩
      · rcases List.mem_cons.1 hmem with heq | hmem
        · right
          subst heq; subst hxu
          rw [hu] at hmx
          simp only [Option.some.injEq] at hmx
          subst hmx
          exact ⟨_, c, getD_set_self _ _ _ _ hlm, hc, le_refl _⟩
        · exact Or.inl ⟨hxu, hmem⟩
      · right
        by_cases hyv : e.vertex = e1.vertex
        · rw [← hyv]
          refine ⟨_, c1, getD_set_self _ _ _ _ hlm, hc1, ?_⟩
          have := hold mv (by rw [hyv]; exact hmv)
          exact le_trans (le_of_lt this) hle
        · exact ⟨mv, c1, by rw [getD_set_of_ne _ _ _ _ _ hyv]; exact hmv, hc1, hle⟩
  · intro y p hp
    change (st.previous.set e.vertex (some u)).getD y none = some p at hp
    show p ∈ done ∧ y ≠ s ∧
      Function.update dep e.vertex (dep u + 1) p < Function.update dep e.vertex (dep u + 1) y ∧
      ∃ e1 ∈ g.neighbors p, e1.vertex = y ∧ ∃ mp c1,
        (st.min_distance.set e.vertex (some c)).getD p none = some mp ∧
        add mp e1.weight = some c1 ∧
        (st.min_distance.set e.vertex (some c)).getD y none = some c1
    by_cases hyv : e.vertex = y
    · subst hyv
      rw [getD_set_self _ _ _ _ hlp] at hp
      simp only [Option.some.injEq] at hp
      subst hp
      refine ⟨hud, hvs, ?_, e, he, rfl, d, c, ?_, hc, ?_⟩
      · rw [Function.update_same, Function.update_noteq (Ne.symm hvu)]
        exact Nat.lt_succ_self _
      · rw [getD_set_of_ne _ _ _ _ _ hvu]; exact hu
      · exact getD_set_self _ _ _ _ hlm
    · rw [getD_set_of_ne _ _ _ _ _ hyv] at hp
      obtain ⟨hpd, hys, hdep, e1, he1, hev, mp, c1, hmp, hc1, hmy⟩ := h.tree y p hp
      have hpv : e.vertex ≠ p := fun hc => hvd (hc ▸ hpd)
      refine ⟨hpd, hys, ?_, e1, he1, hev, mp, c1, ?_, hc1, ?_⟩
      · rw [Function.update_noteq (Ne.symm hpv), Function.update_noteq (Ne.symm hyv)]
        exact hdep
      · rw [getD_set_of_ne _ _ _ _ _ hpv]; exact hmp
      · rw [getD_set_of_ne _ _ _ _ _ hyv]; exact hmy
  · intro y m hm hys
    change (st.min_distance.set e.vertex (some c)).getD y none = some m at hm
    show ∃ p, (st.previous.set e.vertex (some u)).getD y none = some p
    by_cases hyv : e.vertex = y
    · subst hyv
      exact ⟨u, getD_set_self _ _ _ _ hlp⟩
    · rw [getD_set_of_ne _ _ _ _ _ hyv] at hm ⊢
      exact h.has_prev y m hm hys
  · intro y m hm
    change (st.min_distance.set e.vertex (some c)).getD y none = some m at hm
    by_cases hyv : e.vertex = y
    · subst hyv
      exact Relation.ReflTransGen.tail (h.reach u d hu) ((hg.adj u e.vertex).2 ⟨e, he, rfl⟩)
    · rw [getD_set_of_ne _ _ _ _ _ hyv] at hm
      exact h.reach y m hm

theorem relaxNeighborsFl_inv (g : AbstractGraph vertex_type W) (hg : g.Good)
    (add : W → W → Option W) (Rep : W → Prop) (hadd : RoundedAdd add Rep) (s : Nat)
    (done : Finset Nat) (u : Nat) (d : W) (hud : u ∈ done) (hsd : s ∈ done)
    (hnn : ∀ e ∈ g.neighbors u, 0 ≤ e.weight)
    (hfin : ∀ e ∈ g.neighbors u, add d e.weight ≠ none) :
    ∀ (rem : List (Neighbor W)) (st : RelaxState W) (dep : Nat → Nat),
      (∀ e ∈ rem, e ∈ g.neighbors u) →
      st.min_distance.getD u none = some d →
      (∀ x ∈ done, ∀ mx, st.min_distance.getD x none = some mx → mx ≤ d) →
      RelaxInvFl g add Rep s done dep u rem st →
      ∃ dep1, RelaxInvFl g add Rep s done dep1 u [] (relaxNeighborsFl add d u rem st) := by
  intro rem
  induction rem with
  | nil => intro st dep _ _ _ h; exact ⟨dep, h⟩
  | cons e rest ih =>
    intro st dep hsub hu hdom h
    have he : e ∈ g.neighbors u := hsub e (List.mem_cons_self _ _)
    have hsub1 : ∀ e1 ∈ rest, e1 ∈ g.neighbors u :=
      fun e1 h1 => hsub e1 (List.mem_cons_of_mem _ h1)
    simp only [relaxNeighborsFl]
    cases hc : add d e.weight with
    | none => exact absurd hc (hfin e he)
    | some c =>
      by_cases hyes : ltDist c (st.min_distance.getD e.vertex none) = true
      · rw [relaxOneFl_update add d u e st c hc hyes]
        obtain ⟨hvd, hinv⟩ :=
          relaxInvFl_update g hg add Rep hadd s done dep u e rest st d c hu hud hsd hdom he
            (hnn e he) hc hyes h
        have hvu : e.vertex ≠ u := fun hc => hvd (hc ▸ hud)
        refine ih _ _ hsub1 ?_ ?_ hinv
        · show (st.min_distance.set e.vertex (some c)).getD u none = some d
          rw [getD_set_of_ne _ _ _ _ _ hvu]; exact hu
        · intro x hx mx hmx
          have hxv : e.vertex ≠ x := fun hc => hvd (hc ▸ hx)
          change (st.min_distance.set e.vertex (some c)).getD x none = some mx at hmx
          rw [getD_set_of_ne _ _ _ _ _ hxv] at hmx
          exact hdom x hx mx hmx
      · have hno : ltDist c (st.min_distance.getD e.vertex none) = false := by
          simpa using hyes
        rw [relaxOneFl_skip add d u e st c hc hno]
        exact ih st dep hsub1 hu hdom (relaxInvFl_skip g add Rep s done dep u e rest st d c hu hc hno h)

theorem relaxInvFl_nil_vertex (g : AbstractGraph vertex_type W) (add : W → W → Option W)
    (Rep : W → Prop) (s : Nat) (done : Finset Nat)
    (dep : Nat → Nat) (u u1 : Nat) (st : RelaxState W)
    (h : RelaxInvFl g add Rep s done dep u [] st) :
    RelaxInvFl g add Rep s done dep u1 [] st := by
  refine { h with settled := ?_ }
  intro x hx
  obtain ⟨mx, hmx, hq, hed⟩ := h.settled x hx
  refine ⟨mx, hmx, hq, ?_⟩
  intro e he
  rcases hed e he with ⟨-, hmem⟩ | hr
  · simp at hmem
  · exact Or.inr hr

theorem relaxStepFl_eq_none (g : AbstractGraph vertex_type W) (add : W → W → Option W)
    (st : RelaxState W) :
    relaxStepFl g add st = none ↔ st.vertex_queue = [] := by
  unfold relaxStepFl
  cases hq : queueTop st.vertex_queue with
  | none => simpa using (queueTop_eq_none _).1 hq
  | some a =>
    have hne : st.vertex_queue ≠ [] := fun hc => by
      rw [(queueTop_eq_none _).2 hc] at hq; cases hq
    obtain ⟨dist, u⟩ := a
    simp only [hne, iff_false]
    by_cases hlt : ltDist dist (st.min_distance.getD u none) = true
    · rw [if_pos hlt]; exact fun hc => Option.noConfusion hc
    · rw [if_neg hlt]; exact fun hc => Option.noConfusion hc

theorem relaxStepFl_inv (g : AbstractGraph vertex_type W) (hg : g.Good) (hnn : g.NonNegWeights)
    (add : W → W → Option W) (Rep : W → Prop) (hadd : RoundedAdd add Rep)
    (s : Nat) (done : Finset Nat) (dep : Nat → Nat) (u0 : Nat) (st st1 : RelaxState W)
    (hfin : ∀ dist u, queueTop st.vertex_queue = some (dist, u) →
      ∀ e ∈ g.neighbors u, add dist e.weight ≠ none)
    (h : RelaxInvFl g add Rep s done dep u0 [] st) (hstep : relaxStepFl g add st = some st1) :
    ∃ done1 dep1, RelaxInvFl g add Rep s done1 dep1 u0 [] st1 ∧
      relaxMeasure g done1 st1 < relaxMeasure g done st := by
  unfold relaxStepFl at hstep
  cases hq : queueTop st.vertex_queue with
  | none => rw [hq] at hstep; cases hstep
  | some a =>
    obtain ⟨d, u⟩ := a
    rw [hq] at hstep
    have hfin1 := hfin d u hq
    obtain ⟨hmem, hmin⟩ := queueTop_mem_min _ _ hq
    obtain ⟨huV, m, hm, hmd⟩ := h.queue d u hmem
    have hnlt : ¬ ltDist d (st.min_distance.getD u none) = true := by
      rw [hm]
      simp only [ltDist, decide_eq_true_eq, not_lt]
      exact hmd
    simp only [if_neg hnlt, Option.some.injEq] at hstep
    have hlen : (st.vertex_queue.erase (d, u)).length + 1 = st.vertex_queue.length := by
      rw [List.length_erase_of_mem hmem]
      have : 0 < st.vertex_queue.length := List.length_pos_of_mem hmem
      omega
    have hsubq : ∀ x, x ∈ st.vertex_queue.erase (d, u) → x ∈ st.vertex_queue :=
      fun x hx => List.mem_of_mem_erase hx
    by_cases hud : u ∈ done
    · -- the vertex was expanded before: nothing changes
      obtain ⟨mu, hmu, hqu, hed⟩ := h.settled u hud
      have hmm : mu = m := by rw [hm] at hmu; exact (Option.some.inj hmu).symm
      subst hmm
      have hnoop : relaxNeighborsFl add d u (g.neighbors u)
          { st with vertex_queue := st.vertex_queue.erase (d, u) } =
          { st with vertex_queue := st.vertex_queue.erase (d, u) } := by
        apply relaxNeighborsFl_noop
        intro e he
        rcases hed e he with ⟨-, hc⟩ | ⟨mv, c, hmv, hc, hle⟩
        · simp at hc
        · cases hc1 : add d e.weight with
          | none => exact relaxOneFl_none add d u e _ hc1
          | some c1 =>
            apply relaxOneFl_skip add d u e _ c1 hc1
            show ltDist c1 (st.min_distance.getD e.vertex none) = false
            rw [hmv]
            simp only [ltDist, decide_eq_false_iff_not, not_lt]
            exact le_trans hle (hadd.mono mu d e.weight c c1 hmd hc hc1)
      rw [hnoop] at hstep
      subst hstep
      refine ⟨done, dep, ?_, ?_⟩
      · refine { h with src_done := ?_, queue := ?_, pending := ?_, settled := ?_ }
        · rcases h.src_done with h1 | ⟨h1, -⟩
          · exact Or.inl h1
          · rw [h1] at hud; simp at hud
        · intro d1 y hy
          exact h.queue d1 y (hsubq _ hy)
        · intro y m1 hm1
          rcases h.pending y m1 hm1 with h1 | h1
          · exact Or.inl h1
          · by_cases heq : (m1, y) = (d, u)
            · simp only [Prod.mk.injEq] at heq
              rw [heq.2]; exact Or.inl hud
            · exact Or.inr ((List.mem_erase_of_ne heq).2 h1)
        · intro x hx
          obtain ⟨mx, hmx, hqx, hedx⟩ := h.settled x hx
          exact ⟨mx, hmx, fun d1 y hy => hqx d1 y (hsubq _ hy), hedx⟩
      · unfold relaxMeasure
        show (st.vertex_queue.erase (d, u)).length + _ < st.vertex_queue.length + _
        omega
    · -- first expansion of the vertex
      have hdm : d = m := by
        rcases h.pending u m hm with h1 | h1
        · exact absurd h1 hud
        · exact le_antisymm (hmin _ h1) hmd
      subst hdm
      have hsd : s ∈ insert u done := by
        rcases h.src_done with h1 | ⟨-, h1⟩
        · exact Finset.mem_insert_of_mem h1
        · rw [h1] at hmem
          simp only [List.mem_singleton, Prod.mk.injEq] at hmem
          rw [hmem.2]; exact Finset.mem_insert_self _ _
      have hdom : ∀ x ∈ insert u done, ∀ mx, st.min_distance.getD x none = some mx → mx ≤ d := by
        intro x hx mx hmx
        rcases Finset.mem_insert.1 hx with hx | hx
        · subst hx
          rw [hm] at hmx
          exact le_of_eq (Option.some.inj hmx).symm
        · obtain ⟨mx1, hmx1, hqx, -⟩ := h.settled x hx
          rw [hmx] at hmx1
          have := hqx d u hmem
          rw [Option.some.inj hmx1]; exact this
      have hmid : RelaxInvFl g add Rep s (insert u done) dep u (g.neighbors u)
          { st with vertex_queue := st.vertex_queue.erase (d, u) } := by
        refine { h with src_done := Or.inl hsd, queue := ?_, pending := ?_, done_lt := ?_,
                        settled := ?_, tree := ?_ }
        · intro d1 y hy
          exact h.queue d1 y (hsubq _ hy)
        · intro y m1 hm1
          rcases h.pending y m1 hm1 with h1 | h1
          · exact Or.inl (Finset.mem_insert_of_mem h1)
          · by_cases heq : (m1, y) = (d, u)
            · simp only [Prod.mk.injEq] at heq
              rw [heq.2]; exact Or.inl (Finset.mem_insert_self _ _)
            · exact Or.inr ((List.mem_erase_of_ne heq).2 h1)
        · intro x hx
          rcases Finset.mem_insert.1 hx with hx | hx
          · rw [hx]; exact huV
          · exact h.done_lt x hx
        · intro x hx
          rcases Finset.mem_insert.1 hx with hx | hx
          · subst hx
            exact ⟨d, hm, fun d1 y hy => hmin (d1, y) (hsubq _ hy),
              fun e he => Or.inl ⟨rfl, he⟩⟩
          · obtain ⟨mx, hmx, hqx, hedx⟩ := h.settled x hx
            refine ⟨mx, hmx, fun d1 y hy => hqx d1 y (hsubq _ hy), ?_⟩
            intro e he
            rcases hedx e he with ⟨-, hc⟩ | hr
            · simp at hc
            · exact Or.inr hr
        · intro v p hp
          obtain ⟨h1, h2⟩ := h.tree v p hp
          exact ⟨Finset.mem_insert_of_mem h1, h2⟩
      obtain ⟨dep1, hfin2⟩ := relaxNeighborsFl_inv g hg add Rep hadd s (insert u done) u d
        (Finset.mem_insert_self _ _) hsd (hnn u huV) hfin1 (g.neighbors u)
        { st with vertex_queue := st.vertex_queue.erase (d, u) } dep
        (fun e he => he) hm hdom hmid
      rw [hstep] at hfin2
      refine ⟨insert u done, dep1, relaxInvFl_nil_vertex g add Rep s _ _ u u0 _ hfin2, ?_⟩
      have hql := relaxNeighborsFl_queue_length add d u (g.neighbors u)
        { st with vertex_queue := st.vertex_queue.erase (d, u) }
      rw [hstep] at hql
      have hql1 : st1.vertex_queue.length ≤
          (st.vertex_queue.erase (d, u)).length + (g.neighbors u).length := hql
      have hin : u ∈ Finset.range g.V \ done := by
        simp only [Finset.mem_sdiff, Finset.mem_range]
        exact ⟨huV, hud⟩
      have hsum := Finset.add_sum_erase (Finset.range g.V \ done)
        (fun x => (g.neighbors x).length + 1) hin
      unfold relaxMeasure
      rw [Finset.sdiff_insert]
      simp only at hsum
      omega

/-- The state with which `path` enters the relax loop. -/
theorem relaxInvFl_init (g : AbstractGraph vertex_type W) (add : W → W → Option W)
    (Rep : W → Prop) (hadd : RoundedAdd add Rep) (s : Nat) (hs : s < g.V) :
    RelaxInvFl g add Rep s ∅ (fun _ => 0) s []
      (ShortestPath.initState g.V s) := by
  unfold ShortestPath.initState
  have hget : ∀ v m, ((List.replicate g.V (none : Option W)).set s (some 0)).getD v none = some m →
      v = s ∧ m = 0 := by
    intro v m hm
    by_cases hv : s = v
    · subst hv
      rw [getD_set_self _ _ _ _ (by simpa using hs)] at hm
      exact ⟨rfl, (Option.some.inj hm).symm⟩
    · rw [getD_set_of_ne _ _ _ _ _ hv] at hm
      by_cases hvn : v < g.V <;>
        simp [List.getD_eq_getElem?_getD, List.getElem?_replicate, hvn] at hm
  have hprev : ∀ v, (List.replicate g.V (none : Option Nat)).getD v none = none := by
    intro v
    by_cases hvn : v < g.V <;>
      simp [List.getD_eq_getElem?_getD, List.getElem?_replicate, hvn]
  constructor
  · simp
  · simp
  · exact getD_set_self _ _ _ _ (by simpa using hs)
  · exact hprev s
  · exact Or.inr ⟨rfl, rfl⟩
  · intro v m hm
    rw [(hget v m hm).2]; exact hadd.rep_zero
  · intro d v hv
    simp only [List.mem_singleton, Prod.mk.injEq] at hv
    obtain ⟨h1, h2⟩ := hv
    subst h1; subst h2
    exact ⟨hs, 0, getD_set_self _ _ _ _ (by simpa using hs), le_refl _⟩
  · intro v m hm
    obtain ⟨h1, h2⟩ := hget v m hm
    subst h1; subst h2
    exact Or.inr (List.mem_singleton_self _)
  · intro x hx; simp at hx
  · intro x hx; simp at hx
  · intro v p hp
    change (List.replicate g.V (none : Option Nat)).getD v none = some p at hp
    rw [hprev v] at hp; cases hp
  · intro v m hm hvs
    exact absurd (hget v m hm).1 hvs
  · intro v m hm
    rw [(hget v m hm).1]
    exact Relation.ReflTransGen.refl

theorem relaxPassesFl_snoc (g : AbstractGraph vertex_type W) (add : W → W → Option W) :
    ∀ (k : Nat) (st0 st st1 : RelaxState W), relaxPassesFl g add k st0 = some st →
      relaxStepFl g add st = some st1 → relaxPassesFl g add (k + 1) st0 = some st1 := by
  intro k
  induction k with
  | zero =>
    intro st0 st st1 h hstep
    simp only [relaxPassesFl, Option.some.injEq] at h
    subst h
    simp only [relaxPassesFl, hstep]
  | succ k ih =>
    intro st0 st st1 h hstep
    simp only [relaxPassesFl] at h
    cases h0 : relaxStepFl g add st0 with
    | none => rw [h0] at h; cases h
    | some st2 =>
      rw [h0] at h
      have := ih st2 st st1 h hstep
      rw [relaxPassesFl, h0]
      exact this

theorem relaxLoopFl_inv (g : AbstractGraph vertex_type W) (hg : g.Good) (hnn : g.NonNegWeights)
    (add : W → W → Option W) (Rep : W → Prop) (hadd : RoundedAdd add Rep)
    (s u0 : Nat) (hfin : NoOverflow g add s) :
    ∀ (fuel : Nat) (st : RelaxState W) (done : Finset Nat) (dep : Nat → Nat) (k : Nat),
      relaxPassesFl g add k (ShortestPath.initState g.V s) = some st →
      RelaxInvFl g add Rep s done dep u0 [] st → relaxMeasure g done st ≤ fuel →
      ∃ st1 done1 dep1, relaxLoopFl g add fuel st = some st1 ∧
        RelaxInvFl g add Rep s done1 dep1 u0 [] st1 ∧ st1.vertex_queue = [] := by
  intro fuel
  induction fuel with
  | zero =>
    intro st done dep k _ h hm
    have hq : st.vertex_queue = [] := by
      unfold relaxMeasure at hm
      have : st.vertex_queue.length = 0 := by omega
      exact List.length_eq_zero.1 this
    exact ⟨st, done, dep, by simp [relaxLoopFl, hq], h, hq⟩
  | succ fuel ih =>
    intro st done dep k hk h hm
    simp only [relaxLoopFl]
    cases hstep : relaxStepFl g add st with
    | none => exact ⟨st, done, dep, rfl, h, (relaxStepFl_eq_none g add st).1 hstep⟩
    | some st1 =>
      obtain ⟨done1, dep1, h1, hlt⟩ :=
        relaxStepFl_inv g hg hnn add Rep hadd s done dep u0 st st1 (hfin k st hk) h hstep
      exact ih st1 done1 dep1 (k + 1) (relaxPassesFl_snoc g add k _ st st1 hk hstep) h1 (by omega)

theorem relaxLoopFl_mono (g : AbstractGraph vertex_type W) (add : W → W → Option W) (k : Nat) :
    ∀ (fuel : Nat) (st r : RelaxState W), relaxLoopFl g add fuel st = some r →
      relaxLoopFl g add (fuel + k) st = some r := by
  intro fuel
  induction fuel with
  | zero =>
    intro st r h
    simp only [relaxLoopFl] at h
    by_cases hq : st.vertex_queue = []
    · rw [if_pos hq] at h
      cases k with
      | zero => simp [relaxLoopFl, hq, h]
      | succ k =>
        have hstep : relaxStepFl g add st = none := (relaxStepFl_eq_none g add st).2 hq
        simp only [Nat.zero_add, relaxLoopFl, hstep]
        exact h
    · rw [if_neg hq] at h; cases h
  | succ fuel ih =>
    intro st r h
    rw [Nat.succ_add]
    simp only [relaxLoopFl] at h ⊢
    cases hstep : relaxStepFl g add st with
    | none => rw [hstep] at h; exact h
    | some st1 => rw [hstep] at h; exact ih st1 r h

theorem walkWeight_none (g : AbstractGraph vertex_type W) (add : W → W → Option W)
    (l : List Nat) : walkWeight g add none l = none := by
  induction l with
  | nil => rfl
  | cons a rest ih =>
    cases rest with
    | nil => rfl
    | cons b rest =>
      simp only [walkWeight, Option.none_bind]
      exact ih

theorem walkWeight_append_singleton (g : AbstractGraph vertex_type W) (add : W → W → Option W)
    (l : List Nat) (p v : Nat) (hl : l.getLast? = some p) (acc : Option W) :
    walkWeight g add acc (l ++ [v]) =
      (walkWeight g add acc l).bind (fun x => add x (g.get_edge_value p v)) := by
  induction l generalizing acc with
  | nil => simp at hl
  | cons a rest ih =>
    cases rest with
    | nil =>
      simp only [List.getLast?_singleton, Option.some.injEq] at hl
      subst hl
      simp [walkWeight]
    | cons b rest =>
      have hl1 : (b :: rest).getLast? = some p := by
        rw [List.getLast?_cons_cons] at hl; exact hl
      have h2 : walkWeight g add acc (a :: b :: rest ++ [v]) =
          walkWeight g add (acc.bind (fun x => add x (g.get_edge_value a b)))
            (b :: rest ++ [v]) := rfl
      have h3 : walkWeight g add acc (a :: b :: rest) =
          walkWeight g add (acc.bind (fun x => add x (g.get_edge_value a b))) (b :: rest) := rfl
      rw [h2, h3]
      exact ih hl1 _

/-- After the relax loop no walk, its weight added from the left in
`weight_type`, beats the recorded distance. -/
theorem final_lower_bound_fl (g : AbstractGraph vertex_type W) (hg : g.Good)
    (add : W → W → Option W) (Rep : W → Prop) (hadd : RoundedAdd add Rep) (s : Nat)
    (done : Finset Nat) (dep : Nat → Nat) (u0 : Nat) (st : RelaxState W)
    (h : RelaxInvFl g add Rep s done dep u0 [] st) (hq : st.vertex_queue = []) :
    ∀ (p : List Nat), g.IsWalk p → ∀ a b ma acc total, p.head? = some a → p.getLast? = some b →
      st.min_distance.getD a none = some ma → ma ≤ acc →
      walkWeight g add (some acc) p = some total →
      ∃ mb, st.min_distance.getD b none = some mb ∧ mb ≤ total := by
  intro p
  induction p with
  | nil => intro _ a b ma acc total ha; simp at ha
  | cons x rest ih =>
    intro hw a b ma acc total ha hb hma hacc htot
    simp only [List.head?_cons, Option.some.injEq] at ha
    subst ha
    cases rest with
    | nil =>
      simp only [List.getLast?_singleton, Option.some.injEq] at hb
      subst hb
      simp only [walkWeight, Option.some.injEq] at htot
      subst htot
      exact ⟨ma, hma, hacc⟩
    | cons c rest =>
      have hadj : g.adjacent x c = true := by
        have := hw
        unfold AbstractGraph.IsWalk at this
        exact (List.chain'_cons.1 this).1
      have hw1 : g.IsWalk (c :: rest) := by
        unfold AbstractGraph.IsWalk at hw ⊢
        exact (List.chain'_cons.1 hw).2
      obtain ⟨e, he, hev⟩ := (hg.adj x c).1 hadj
      have hxd : x ∈ done := by
        rcases h.pending x ma hma with h1 | h1
        · exact h1
        · rw [hq] at h1; simp at h1
      obtain ⟨mx, hmx, -, hed⟩ := h.settled x hxd
      rw [hma] at hmx
      have hmm : ma = mx := Option.some.inj hmx
      subst hmm
      have hval := hg.value x e he
      rw [hev] at hval
      have htot1 : walkWeight g add (add acc e.weight) (c :: rest) = some total := by
        have h2 : walkWeight g add (some acc) (x :: c :: rest) =
            walkWeight g add ((some acc).bind (fun y => add y (g.get_edge_value x c)))
              (c :: rest) := rfl
        rw [h2, hval] at htot
        exact htot
      rcases hed e he with ⟨-, hc⟩ | ⟨mv, c1, hmv, hc1, hle⟩
      · simp at hc
      · rw [hev] at hmv
        have hb1 : (c :: rest).getLast? = some b := by
          rw [List.getLast?_cons_cons] at hb; exact hb
        cases hacc1 : add acc e.weight with
        | none =>
          rw [hacc1, walkWeight_none] at htot1; cases htot1
        | some acc1 =>
          rw [hacc1] at htot1
          have hle1 : mv ≤ acc1 :=
            le_trans hle (hadd.mono ma acc e.weight c1 acc1 hacc hc1 hacc1)
          exact ih hw1 c b mv acc1 total rfl hb1 hmv hle1 htot1

/-- After the relax loop every vertex reachable from the source has a finite
distance. -/
theorem final_reach_finite_fl (g : AbstractGraph vertex_type W) (hg : g.Good)
    (add : W → W → Option W) (Rep : W → Prop) (s : Nat)
    (done : Finset Nat) (dep : Nat → Nat) (u0 : Nat) (st : RelaxState W)
    (h : RelaxInvFl g add Rep s done dep u0 [] st) (hq : st.vertex_queue = [])
    (t : Nat) (ht : g.Reaches s t) : ∃ m, st.min_distance.getD t none = some m := by
  unfold AbstractGraph.Reaches at ht
  induction ht with
  | refl => exact ⟨0, h.src_md⟩
  | @tail b c _ hadj ih =>
    obtain ⟨mb, hmb⟩ := ih
    obtain ⟨e, he, hev⟩ := (hg.adj b c).1 hadj
    have hbd : b ∈ done := by
      rcases h.pending b mb hmb with h1 | h1
      · exact h1
      · rw [hq] at h1; simp at h1
    obtain ⟨mx, -, -, hed⟩ := h.settled b hbd
    rcases hed e he with ⟨-, hc⟩ | ⟨mv, c1, hmv, -, -⟩
    · simp at hc
    · rw [hev] at hmv; exact ⟨mv, hmv⟩

/-- The backward walk over `previous` from a vertex with a finite distance
ends at the source and spells (reversed) a walk of exactly that weight. -/
theorem walkBack_spec_fl (g : AbstractGraph vertex_type W) (hg : g.Good)
    (add : W → W → Option W) (Rep : W → Prop) (s : Nat)
    (done : Finset Nat) (dep : Nat → Nat) (u0 : Nat) (st : RelaxState W)
    (h : RelaxInvFl g add Rep s done dep u0 [] st) :
    ∀ (k v : Nat) (m : W), dep v ≤ k → st.min_distance.getD v none = some m →
      ∀ acc : List Nat, ∃ r : List Nat,
        walkBack st.previous (k + 1) (some v) acc = some (acc ++ r.reverse) ∧
        r.head? = some s ∧ r.getLast? = some v ∧ g.IsWalk r ∧
        walkWeight g add (some 0) r = some m ∧
        r.Nodup ∧ ∀ x ∈ r, dep x ≤ dep v := by
  intro k
  induction k with
  | zero =>
    intro v m hk hm acc
    cases hp : st.previous.getD v none with
    | some p =>
      have := (h.tree v p hp).2.2.1
      omega
    | none =>
      have hvs : v = s := by
        by_contra hne
        obtain ⟨p, hp1⟩ := h.has_prev v m hm hne
        rw [hp] at hp1; cases hp1
      subst hvs
      have hm0 : m = 0 := by
        rw [h.src_md] at hm; exact (Option.some.inj hm).symm
      refine ⟨[v], ?_, rfl, rfl, ?_, ?_, ?_, ?_⟩
      · rw [walkBack_succ, hp, walkBack_none]; simp
      · unfold AbstractGraph.IsWalk; simp
      · simp [walkWeight, hm0]
      · simp
      · intro x hx; simp at hx; subst hx; exact le_refl _
  | succ k ih =>
    intro v m hk hm acc
    cases hp : st.previous.getD v none with
    | none =>
      have hvs : v = s := by
        by_contra hne
        obtain ⟨p, hp1⟩ := h.has_prev v m hm hne
        rw [hp] at hp1; cases hp1
      subst hvs
      have hm0 : m = 0 := by
        rw [h.src_md] at hm; exact (Option.some.inj hm).symm
      refine ⟨[v], ?_, rfl, rfl, ?_, ?_, ?_, ?_⟩
      · rw [walkBack_succ, hp, walkBack_none]; simp
      · unfold AbstractGraph.IsWalk; simp
      · simp [walkWeight, hm0]
      · simp
      · intro x hx; simp at hx; subst hx; exact le_refl _
    | some p =>
      obtain ⟨-, -, hdep, e, he, hev, mp, c, hmp, hc, hmv⟩ := h.tree v p hp
      obtain ⟨r, hwalk, hhead, hlast, hw, hcost, hnd, hdepr⟩ :=
        ih p mp (by omega) hmp (acc ++ [v])
      have hrne : r ≠ [] := by
        intro hc; rw [hc] at hhead; simp at hhead
      have hadj : g.adjacent p v = true := (hg.adj p v).2 ⟨e, he, hev⟩
      have hval : g.get_edge_value p v = e.weight := by
        have := hg.value p e he
        rw [hev] at this; exact this
      refine ⟨r ++ [v], ?_, ?_, ?_, ?_, ?_, ?_, ?_⟩
      · rw [walkBack_succ, hp, hwalk]
        simp
      · rw [List.head?_append_of_ne_nil _ hrne]; exact hhead
      · simp
      · unfold AbstractGraph.IsWalk at hw ⊢
        refine List.Chain'.append hw (List.chain'_singleton v) ?_
        intro x hx y hy
        rw [hlast] at hx
        simp only [Option.mem_def, Option.some.injEq] at hx
        simp only [List.head?_cons, Option.mem_def, Option.some.injEq] at hy
        subst hx; subst hy
        exact hadj
      · rw [walkWeight_append_singleton g add r p v hlast, hcost, hval]
        simp only [Option.some_bind]
        rw [hc, ← hmv, hm]
      · rw [List.nodup_append]
        refine ⟨hnd, List.nodup_singleton v, ?_⟩
        intro x hx hxv
        simp only [List.mem_singleton] at hxv
        subst hxv
        have := hdepr x hx
        omega
      · intro x hx
        rcases List.mem_append.1 hx with hx | hx
        · have := hdepr x hx; omega
        · simp only [List.mem_singleton] at hx
          subst hx; exact le_refl _

/-- Everything `path` does on a good graph with non-negative weights when the
sums of its relax loop are taken in `weight_type` and none of them is
infinite. -/
theorem pathFl_master (sp : ShortestPath vertex_type W) (hg : sp.g.Good)
    (hnn : sp.g.NonNegWeights) (add : W → W → Option W) (Rep : W → Prop)
    (hadd : RoundedAdd add Rep) (s t : Nat) (hs : s < sp.g.V)
    (hfin : NoOverflow sp.g add s) :
    ∃ (fuel0 : Nat) (st : RelaxState W) (p : List Nat),
      relaxLoopFl sp.g add fuel0 (ShortestPath.initState sp.g.V s) = some st ∧
      st.vertex_queue = [] ∧
      walkBack st.previous fuel0 (some t) [] = some p.reverse ∧
      (∀ fuel, fuel0 ≤ fuel → sp.pathFl add fuel s t =
        some ({ sp with min_distance := st.min_distance, previous := st.previous, _path := p },
              p)) ∧
      p.getLast? = some t ∧ p.Nodup ∧
      (sp.g.Reaches s t →
        p.head? = some s ∧ sp.g.IsWalk p ∧
        (∃ m, walkWeight sp.g add (some 0) p = some m) ∧
        st.min_distance.getD t none = walkWeight sp.g add (some 0) p ∧
        ∀ q, sp.g.IsWalk q → q.head? = some s → q.getLast? = some t →
          leInf (walkWeight sp.g add (some 0) p) (walkWeight sp.g add (some 0) q)) ∧
      (¬ sp.g.Reaches s t → p = [t] ∧ st.min_distance.getD t none = none) := by
  obtain ⟨st, done, dep, hloop, hinv, hq⟩ :=
    relaxLoopFl_inv sp.g hg hnn add Rep hadd s s hfin _ (ShortestPath.initState sp.g.V s) ∅
      (fun _ => 0) 0 rfl (relaxInvFl_init sp.g add Rep hadd s hs) (le_refl _)
  have hfinal : ∀ (fuel0 : Nat) (p : List Nat),
      relaxLoopFl sp.g add fuel0 (ShortestPath.initState sp.g.V s) = some st →
      walkBack st.previous fuel0 (some t) [] = some p.reverse →
      ∀ fuel, fuel0 ≤ fuel → sp.pathFl add fuel s t =
        some ({ sp with min_distance := st.min_distance, previous := st.previous, _path := p },
              p) := by
    intro fuel0 p h1 h2 fuel hle
    obtain ⟨k, rfl⟩ := Nat.exists_eq_add_of_le hle
    unfold ShortestPath.pathFl
    rw [relaxLoopFl_mono sp.g add k fuel0 _ _ h1]
    simp only
    rw [walkBack_mono st.previous k fuel0 _ _ _ h2]
    simp
  by_cases hr : sp.g.Reaches s t
  · obtain ⟨m, hm⟩ := final_reach_finite_fl sp.g hg add Rep s done dep s st hinv hq t hr
    obtain ⟨r, hwalk, hhead, hlast, hw, hcost, hnd, -⟩ :=
      walkBack_spec_fl sp.g hg add Rep s done dep s st hinv (dep t) t m (le_refl _) hm []
    rw [List.nil_append] at hwalk
    have hl1 := relaxLoopFl_mono sp.g add (dep t + 1) _ _ _ hloop
    have hw1 : walkBack st.previous
        (relaxMeasure sp.g ∅ (ShortestPath.initState sp.g.V s) + (dep t + 1)) (some t) [] =
        some r.reverse := by
      rw [Nat.add_comm]
      exact walkBack_mono st.previous _ _ _ _ _ hwalk
    refine ⟨_, st, r, hl1, hq, hw1, hfinal _ r hl1 hw1, hlast, hnd, ?_, ?_⟩
    · intro _
      refine ⟨hhead, hw, ⟨m, hcost⟩, by rw [hcost]; exact hm, ?_⟩
      intro q hwq hqh hql
      rw [hcost]
      cases hqw : walkWeight sp.g add (some 0) q with
      | none => trivial
      | some total =>
        obtain ⟨mb, hmb, hle⟩ :=
          final_lower_bound_fl sp.g hg add Rep hadd s done dep s st hinv hq q hwq s t 0 0 total
            hqh hql hinv.src_md (le_refl _) hqw
        rw [hm] at hmb
        rw [Option.some.inj hmb]
        exact hle
    · intro hc; exact absurd hr hc
  · have hmd : st.min_distance.getD t none = none := by
      cases hmt : st.min_distance.getD t none with
      | none => rfl
      | some m => exact absurd (hinv.reach t m hmt) hr
    have hpv : st.previous.getD t none = none := by
      cases hpt : st.previous.getD t none with
      | none => rfl
      | some p =>
        obtain ⟨-, -, -, e, -, -, mp, c, -, -, hmv⟩ := hinv.tree t p hpt
        rw [hmd] at hmv; cases hmv
    have hl1 := relaxLoopFl_mono sp.g add 1 _ _ _ hloop
    have hw1 : walkBack st.previous
        (relaxMeasure sp.g ∅ (ShortestPath.initState sp.g.V s) + 1) (some t) [] =
        some [t].reverse := by
      rw [walkBack_succ, hpv, walkBack_none]; simp
    refine ⟨_, st, [t], hl1, hq, hw1, hfinal _ [t] hl1 hw1, rfl, by simp, ?_, ?_⟩
    · intro hc; exact absurd hc hr
    · intro _; exact ⟨rfl, hmd⟩

theorem noOverflow_exactAdd (g : AbstractGraph vertex_type W) (s : Nat) :
    NoOverflow g exactAdd s := by
  intro k st _ dist u _ e _ hc
  simp [exactAdd] at hc

end RoundedLemmas

section RoundedCheckLemmas

variable {vertex_type W : Type} [LinearOrderedCommRing W]

theorem roundedAdd_doubleAdd : RoundedAdd doubleAdd (fun _ => True) := by
  constructor
  · trivial
  · intro a b c _; trivial
  · intro d w c _ hw hc
    unfold doubleAdd at hc
    split at hc
    · simp only [Option.some.injEq] at hc
      omega
    · cases hc
  · intro a b w ca cb hab ha hb
    unfold doubleAdd at ha hb
    split at ha
    · split at hb
      · simp only [Option.some.injEq] at ha hb
        omega
      · cases hb
    · cases ha

theorem noOverflow_of_sumsFinite_aux (g : AbstractGraph vertex_type W) (add : W → W → Option W) :
    ∀ (fuel : Nat) (st0 : RelaxState W), sumsFinite g add fuel st0 = true →
      ∀ (k : Nat) (st : RelaxState W), relaxPassesFl g add k st0 = some st →
        passSumsFinite g add st = true := by
  intro fuel
  induction fuel with
  | zero =>
    intro st0 h0 k st hk
    simp only [sumsFinite, decide_eq_true_eq] at h0
    cases k with
    | zero =>
      simp only [relaxPassesFl, Option.some.injEq] at hk
      subst hk
      simp [passSumsFinite, h0, queueTop]
    | succ k =>
      simp only [relaxPassesFl, (relaxStepFl_eq_none g add st0).2 h0] at hk
      cases hk
  | succ fuel ih =>
    intro st0 h0 k st hk
    simp only [sumsFinite, Bool.and_eq_true] at h0
    cases k with
    | zero =>
      simp only [relaxPassesFl, Option.some.injEq] at hk
      subst hk
      exact h0.1
    | succ k =>
      simp only [relaxPassesFl] at hk
      cases hstep : relaxStepFl g add st0 with
      | none => rw [hstep] at hk; cases hk
      | some st1 =>
        rw [hstep] at hk
        have h1 := h0.2
        rw [hstep] at h1
        exact ih st1 h1 k st hk

/-- A run of the relax loop that `sumsFinite` accepts forms no infinite sum. -/
theorem noOverflow_of_sumsFinite (g : AbstractGraph vertex_type W) (add : W → W → Option W)
    (s fuel : Nat) (h : sumsFinite g add fuel (ShortestPath.initState g.V s) = true) :
    NoOverflow g add s := by
  intro k st hk dist u hq e he hc
  have h1 := noOverflow_of_sumsFinite_aux g add fuel _ h k st hk
  simp only [passSumsFinite, hq, List.all_eq_true] at h1
  have h2 := h1 e he
  rw [hc] at h2
  cases h2

theorem relaxNeighborsFl_exactAdd (dist : W) (u : Nat) (l : List (Neighbor W))
    (st : RelaxState W) :
    relaxNeighborsFl exactAdd dist u l st = relaxNeighbors dist u l st := by
  induction l generalizing st with
  | nil => rfl
  | cons e rest ih =>
    simp only [relaxNeighborsFl, relaxNeighbors, relaxOneFl, exactAdd]
    split
    · exact ih _
    · exact ih _

theorem relaxStepFl_exactAdd (g : AbstractGraph vertex_type W) (st : RelaxState W) :
    relaxStepFl g exactAdd st = relaxStep g st := by
  unfold relaxStepFl relaxStep
  cases queueTop st.vertex_queue with
  | none => rfl
  | some a =>
    obtain ⟨dist, u⟩ := a
    simp only [relaxNeighborsFl_exactAdd]

theorem relaxLoopFl_exactAdd (g : AbstractGraph vertex_type W) (fuel : Nat)
    (st : RelaxState W) :
    relaxLoopFl g exactAdd fuel st = relaxLoop g fuel st := by
  induction fuel generalizing st with
  | zero => rfl
  | succ fuel ih =>
    simp only [relaxLoopFl, relaxLoop, relaxStepFl_exactAdd]
    cases relaxStep g st with
    | none => rfl
    | some st1 => exact ih st1

/-- With exact addition `pathFl` is `path`. -/
theorem pathFl_exactAdd (sp : ShortestPath vertex_type W) (fuel s t : Nat) :
    sp.pathFl exactAdd fuel s t = sp.path fuel s t := by
  unfold ShortestPath.pathFl ShortestPath.path
  rw [relaxLoopFl_exactAdd]

theorem pathCost_eq_sum (g : AbstractGraph vertex_type W) (l : List Nat) :
    pathCost g l = (edgeValues g l).sum := by
  induction l with
  | nil => simp [pathCost, edgeValues]
  | cons a rest ih =>
    cases rest with
    | nil => simp [pathCost, edgeValues]
    | cons b rest =>
      have h1 : pathCost g (a :: b :: rest) =
          g.get_edge_value a b + pathCost g (b :: rest) := rfl
      rw [h1, ih]
      simp [edgeValues]

/-- The loop of `path_size` computes the sum of the edge values. -/
theorem sumEdges_eq_sum (g : AbstractGraph vertex_type W) (l : List Nat) :
    sumEdges g 0 l = (edgeValues g l).sum := by
  rw [sumEdges_eq, zero_add, pathCost_eq_sum]

/-- The loop of `path_size` adds the edge values from the left. -/
theorem sumEdges_eq_foldl (g : AbstractGraph vertex_type W) (l : List Nat) :
    sumEdges g 0 l = (edgeValues g l).foldl (· + ·) 0 := by
  rw [sumEdges_eq_sum, List.sum_eq_foldl]

end RoundedCheckLemmas

/-! ## The claims -/

section Claims

variable {vertex_type W : Type} [LinearOrderedCommRing W]

/-- C1: on the example graph of `test1` (adjacency lists) and of `test2`
(matrix), `path(0, 4)` returns `[0, 2, 5, 4]` and `path_size(0, 4)` returns
`20`, on a fresh engine and also when, as in the tests, `path_size` is called
on the engine that has just answered `path`; any number of loop passes from 8
on is enough. -/
theorem test_graph_path_and_cost (k : Nat) :
    ((ShortestPath.create test1Graph).path (8 + k) 0 4).map Prod.snd = some [0, 2, 5, 4] ∧
    ((ShortestPath.create test1Graph).path_size (8 + k) 0 4).map Prod.snd = some 20 ∧
    ((ShortestPath.create test2Graph).path (8 + k) 0 4).map Prod.snd = some [0, 2, 5, 4] ∧
    ((ShortestPath.create test2Graph).path_size (8 + k) 0 4).map Prod.snd = some 20 ∧
    runTest (8 + k) test1Graph = some ([0, 2, 5, 4], 20) ∧
    runTest (8 + k) test2Graph = some ([0, 2, 5, 4], 20) :=
  ⟨ShortestPath.path_map_mono _ 0 4 8 k _ path_test1Graph,
   ShortestPath.path_size_map_mono _ 0 4 8 k _ path_size_test1Graph,
   ShortestPath.path_map_mono _ 0 4 8 k _ path_test2Graph,
   ShortestPath.path_size_map_mono _ 0 4 8 k _ path_size_test2Graph,
   runTest_mono _ 8 k _ runTest_test1Graph, runTest_mono _ 8 k _ runTest_test2Graph⟩

end Claims

section RouteClaims

variable {vertex_type W : Type} [LinearOrderedCommRing W]

set_option maxRecDepth 100000
set_option exponentiation.threshold 2000

/-- C2 (as stated, refuted): on `AdjListGraph<int, double> g(3)` after
`addEdge(0, 1, w)` and `addEdge(1, 2, w)` with `w = 2 ^ 1023` the weights are
non-negative and vertex 2 is reachable from vertex 0, but the sum `w + w`
formed by the relax loop is infinite: `min_distance[2]` stays infinite and
`path(0, 2)` returns `[2]`, which is no route from 0 and whose sum of edge
values, 0, is not `min_distance[2]`. -/
theorem path_overflow_not_minimum_route :
    overflowListGraph.WellFormed ∧ overflowListGraph.NonNegWeights ∧
    overflowListGraph.Reaches 0 2 ∧
    overflowListGraph.neighbors 0 = [⟨1, hugeWeight⟩] ∧
    overflowListGraph.neighbors 1 = [⟨2, hugeWeight⟩] ∧
    doubleAdd 0 hugeWeight = some hugeWeight ∧ doubleAdd hugeWeight hugeWeight = none ∧
    ((ShortestPath.create overflowListGraph).pathFl doubleAdd 10 0 2).map
      (fun r => (r.2, r.1.min_distance.getD 2 none)) = some ([2], none) ∧
    [2].head? ≠ some 0 ∧
    walkWeight overflowListGraph doubleAdd (some 0) [2] = some 0 :=
  ⟨by decide, by decide,
   Relation.ReflTransGen.tail
     (Relation.ReflTransGen.single (show overflowListGraph.adjacent 0 1 = true by decide))
     (show overflowListGraph.adjacent 1 2 = true by decide),
   by decide, by decide, by decide, by decide, by decide, by decide, by decide⟩

/-- C2 (amended): on a well-formed graph of either kind with non-negative
weights, with the sums `dist + weight` of the relax loop taken in
`weight_type` (an addition `add` that rounds monotonically) and none of them
infinite, for in-range `s`, `t` with `t` reachable from `s`: `path(s, t)`
returns a walk from `s` to `t` whose weight, the `get_edge_value` of its
consecutive vertices added from the left in `weight_type`, is finite, equals
the `min_distance[t]` left by the relax loop and is at most the weight, added
the same way, of every walk from `s` to `t`. -/
theorem path_is_minimum_weight_route (sp : ShortestPath vertex_type W)
    (add : W → W → Option W) (Rep : W → Prop) (hadd : RoundedAdd add Rep)
    (hwf : sp.g.WellFormed) (hnn : sp.g.NonNegWeights) (s t : Nat)
    (hs : s < sp.g.V) (_ht : t < sp.g.V) (hfin : NoOverflow sp.g add s)
    (hreach : sp.g.Reaches s t) :
    ∃ (fuel0 : Nat) (st : RelaxState W) (p : List Nat) (m : W),
      relaxLoopFl sp.g add fuel0 (ShortestPath.initState sp.g.V s) = some st ∧
      (∀ fuel, fuel0 ≤ fuel → (sp.pathFl add fuel s t).map Prod.snd = some p) ∧
      p.head? = some s ∧ p.getLast? = some t ∧ sp.g.IsWalk p ∧
      walkWeight sp.g add (some 0) p = some m ∧
      st.min_distance.getD t none = some m ∧
      ∀ q, sp.g.IsWalk q → q.head? = some s → q.getLast? = some t →
        leInf (some m) (walkWeight sp.g add (some 0) q) := by
  obtain ⟨fuel0, st, p, hloop, -, -, hpath, hlast, -, hyes, -⟩ :=
    pathFl_master sp (sp.g.good_of_wellFormed hwf) hnn add Rep hadd s t hs hfin
  obtain ⟨hhead, hwalk, ⟨m, hm⟩, hmd, hmin⟩ := hyes hreach
  refine ⟨fuel0, st, p, m, hloop, ?_, hhead, hlast, hwalk, hm, ?_, ?_⟩
  · intro fuel hf
    rw [hpath fuel hf]; rfl
  · rw [hmd, hm]
  · intro q hq hqh hql
    rw [← hm]
    exact hmin q hq hqh hql

theorem path_is_minimum_weight_route_witness :
    RoundedAdd doubleAdd (fun _ => True) ∧
    test1Engine.g.WellFormed ∧ test1Engine.g.NonNegWeights ∧
    0 < test1Engine.g.V ∧ 4 < test1Engine.g.V ∧ NoOverflow test1Engine.g doubleAdd 0 ∧
    test1Engine.g.Reaches 0 4 ∧
    (∃ (fuel0 : Nat) (st : RelaxState ℤ) (p : List Nat) (m : ℤ),
      relaxLoopFl test1Engine.g doubleAdd fuel0 (ShortestPath.initState test1Engine.g.V 0) =
        some st ∧
      (∀ fuel, fuel0 ≤ fuel → (test1Engine.pathFl doubleAdd fuel 0 4).map Prod.snd = some p) ∧
      p.head? = some 0 ∧ p.getLast? = some 4 ∧ test1Engine.g.IsWalk p ∧
      walkWeight test1Engine.g doubleAdd (some 0) p = some m ∧
      st.min_distance.getD 4 none = some m ∧
      ∀ q, test1Engine.g.IsWalk q → q.head? = some 0 → q.getLast? = some 4 →
        leInf (some m) (walkWeight test1Engine.g doubleAdd (some 0) q)) ∧
    (test1Engine.pathFl doubleAdd 8 0 4).map
      (fun r => (r.2, r.1.min_distance.getD 4 none)) = some ([0, 2, 5, 4], some 20) ∧
    walkWeight test1Engine.g doubleAdd (some 0) [0, 2, 5, 4] = some 20 :=
  ⟨roundedAdd_doubleAdd, by decide, by decide, by decide, by decide,
   noOverflow_of_sumsFinite _ _ 0 8 (by decide),
   (Relation.ReflTransGen.tail (Relation.ReflTransGen.tail
      (Relation.ReflTransGen.single (show test1Engine.g.adjacent 0 2 = true by decide))
      (show test1Engine.g.adjacent 2 5 = true by decide))
      (show test1Engine.g.adjacent 5 4 = true by decide)),
   path_is_minimum_weight_route test1Engine doubleAdd (fun _ => True) roundedAdd_doubleAdd
     (by decide) (by decide) 0 4 (by decide) (by decide)
     (noOverflow_of_sumsFinite _ _ 0 8 (by decide))
     (Relation.ReflTransGen.tail (Relation.ReflTransGen.tail
      (Relation.ReflTransGen.single (show test1Engine.g.adjacent 0 2 = true by decide))
      (show test1Engine.g.adjacent 2 5 = true by decide))
      (show test1Engine.g.adjacent 5 4 = true by decide)),
   by decide, by decide⟩

/-- C3 (as stated, refuted): on `MatrixGraph<int, double> g(3)` after
`addEdge(0, 1, w)` and `addEdge(1, 2, w)` with `w = 2 ^ 1023` the weights are
non-negative and vertex 2, different from vertex 0, is reachable from it, but
the sum `w + w` formed by the relax loop is infinite, `previous[2]` stays `-1`
and the vector returned by `path(0, 2)` is `[2]`: its first element is not the
source. -/
theorem path_overflow_not_simple_route :
    overflowMatrixGraph.WellFormed ∧ overflowMatrixGraph.NonNegWeights ∧
    (2 : Nat) ≠ 0 ∧ overflowMatrixGraph.Reaches 0 2 ∧
    overflowMatrixGraph.neighbors 0 = [⟨1, hugeWeight⟩] ∧
    overflowMatrixGraph.neighbors 1 = [⟨2, hugeWeight⟩] ∧
    doubleAdd 0 hugeWeight = some hugeWeight ∧ doubleAdd hugeWeight hugeWeight = none ∧
    ((ShortestPath.create overflowMatrixGraph).pathFl doubleAdd 10 0 2).map
      (fun r => (r.2, r.1.previous.getD 2 none)) = some ([2], none) ∧
    [2].head? ≠ some 0 :=
  ⟨by decide, by decide, by decide,
   Relation.ReflTransGen.tail
     (Relation.ReflTransGen.single (show overflowMatrixGraph.adjacent 0 1 = true by decide))
     (show overflowMatrixGraph.adjacent 1 2 = true by decide),
   by decide, by decide, by decide, by decide, by decide, by decide⟩

/-- C3 (amended): on a well-formed graph of either kind with non-negative
weights, with the sums `dist + weight` of the relax loop taken in
`weight_type` (an addition `add` that rounds monotonically) and none of them
infinite, for in-range `s` and `t ≠ s` reachable from `s`, the vector returned
by `path(s, t)` starts with `s`, ends with `t`, has `adjacent(a, b)` for every
two consecutive elements and holds no vertex twice. -/
theorem path_is_simple_route (sp : ShortestPath vertex_type W)
    (add : W → W → Option W) (Rep : W → Prop) (hadd : RoundedAdd add Rep)
    (hwf : sp.g.WellFormed) (hnn : sp.g.NonNegWeights) (s t : Nat)
    (hs : s < sp.g.V) (_ht : t < sp.g.V) (_hne : t ≠ s) (hfin : NoOverflow sp.g add s)
    (hreach : sp.g.Reaches s t) :
    ∃ (fuel0 : Nat) (p : List Nat),
      (∀ fuel, fuel0 ≤ fuel → (sp.pathFl add fuel s t).map Prod.snd = some p) ∧
      p.head? = some s ∧ p.getLast? = some t ∧
      List.Chain' (fun a b => sp.g.adjacent a b = true) p ∧ p.Nodup := by
  obtain ⟨fuel0, st, p, -, -, -, hpath, hlast, hnd, hyes, -⟩ :=
    pathFl_master sp (sp.g.good_of_wellFormed hwf) hnn add Rep hadd s t hs hfin
  obtain ⟨hhead, hwalk, -, -, -⟩ := hyes hreach
  refine ⟨fuel0, p, ?_, hhead, hlast, hwalk, hnd⟩
  intro fuel hf
  rw [hpath fuel hf]; rfl

theorem path_is_simple_route_witness :
    RoundedAdd doubleAdd (fun _ => True) ∧
    (ShortestPath.create test2Graph).g.WellFormed ∧
    (ShortestPath.create test2Graph).g.NonNegWeights ∧
    0 < (ShortestPath.create test2Graph).g.V ∧ 4 < (ShortestPath.create test2Graph).g.V ∧
    4 ≠ 0 ∧ NoOverflow (ShortestPath.create test2Graph).g doubleAdd 0 ∧
    (ShortestPath.create test2Graph).g.Reaches 0 4 ∧
    (∃ (fuel0 : Nat) (p : List Nat),
      (∀ fuel, fuel0 ≤ fuel →
        ((ShortestPath.create test2Graph).pathFl doubleAdd fuel 0 4).map Prod.snd = some p) ∧
      p.head? = some 0 ∧ p.getLast? = some 4 ∧
      List.Chain' (fun a b => (ShortestPath.create test2Graph).g.adjacent a b = true) p ∧
      p.Nodup) ∧
    ((ShortestPath.create test2Graph).pathFl doubleAdd 8 0 4).map Prod.snd =
      some [0, 2, 5, 4] :=
  ⟨roundedAdd_doubleAdd, by decide, by decide, by decide, by decide, by decide,
   noOverflow_of_sumsFinite _ _ 0 8 (by decide),
   (Relation.ReflTransGen.tail (Relation.ReflTransGen.tail
      (Relation.ReflTransGen.single
        (show (ShortestPath.create test2Graph).g.adjacent 0 2 = true by decide))
      (show (ShortestPath.create test2Graph).g.adjacent 2 5 = true by decide))
      (show (ShortestPath.create test2Graph).g.adjacent 5 4 = true by decide)),
   path_is_simple_route (ShortestPath.create test2Graph) doubleAdd (fun _ => True)
     roundedAdd_doubleAdd (by decide) (by decide) 0 4 (by decide) (by decide) (by decide)
     (noOverflow_of_sumsFinite _ _ 0 8 (by decide))
     (Relation.ReflTransGen.tail (Relation.ReflTransGen.tail
      (Relation.ReflTransGen.single
        (show (ShortestPath.create test2Graph).g.adjacent 0 2 = true by decide))
      (show (ShortestPath.create test2Graph).g.adjacent 2 5 = true by decide))
      (show (ShortestPath.create test2Graph).g.adjacent 5 4 = true by decide)),
   by decide⟩

end RouteClaims

section Claims

variable {vertex_type W : Type} [LinearOrderedCommRing W]

/-- C4: on a well-formed graph of either kind with non-negative weights, for
in-range `s` and `t ≠ s` not reachable from `s`, `path(s, t)` returns `[t]` and
`path_size(s, t)` returns `-1`. -/
theorem unreachable_target (sp : ShortestPath vertex_type W)
    (hwf : sp.g.WellFormed) (hnn : sp.g.NonNegWeights) (s t : Nat)
    (hs : s < sp.g.V) (_ht : t < sp.g.V) (_hne : t ≠ s) (hno : ¬ sp.g.Reaches s t) :
    ∃ fuel0 : Nat, ∀ fuel, fuel0 ≤ fuel →
      (sp.path fuel s t).map Prod.snd = some [t] ∧
      (sp.path_size fuel s t).map Prod.snd = some (-1) := by
  obtain ⟨fuel0, st, p, -, -, -, hpath, -, -, -, hnot⟩ :=
    path_master sp (sp.g.good_of_wellFormed hwf) hnn s t hs
  obtain ⟨hp, -⟩ := hnot hno
  subst hp
  refine ⟨fuel0, fun fuel hf => ⟨?_, ?_⟩⟩
  · rw [hpath fuel hf]; rfl
  · rw [path_size_of_path sp _ fuel s t _ (hpath fuel hf)]
    simp [sumEdges]

theorem unreachable_target_witness :
    (ShortestPath.create isolatedGraph).g.WellFormed ∧
    (ShortestPath.create isolatedGraph).g.NonNegWeights ∧
    0 < (ShortestPath.create isolatedGraph).g.V ∧ 2 < (ShortestPath.create isolatedGraph).g.V ∧
    2 ≠ 0 ∧ ¬ (ShortestPath.create isolatedGraph).g.Reaches 0 2 ∧
    ∃ fuel0 : Nat, ∀ fuel, fuel0 ≤ fuel →
      ((ShortestPath.create isolatedGraph).path fuel 0 2).map Prod.snd = some [2] ∧
      ((ShortestPath.create isolatedGraph).path_size fuel 0 2).map Prod.snd = some (-1) :=
  ⟨by decide, by decide, by decide, by decide, by decide,
   (AbstractGraph.not_reaches_of_closed _ (by decide) (fun v => decide (v ≤ 1)) 0 2
      (by decide) (by decide) (by decide)),
   unreachable_target (ShortestPath.create isolatedGraph) (by decide) (by decide) 0 2
     (by decide) (by decide) (by decide)
     (AbstractGraph.not_reaches_of_closed _ (by decide) (fun v => decide (v ≤ 1)) 0 2
      (by decide) (by decide) (by decide))⟩

/-- C5 (as stated, refuted): after `addEdge(0, 1, 0)` and `addEdge(1, 2, 5)` on
a fresh `AdjListGraph(3)` and a fresh `MatrixGraph(3)`, `path_size(0, 2)` is
`5` on the first and `-1` on the second. -/
theorem backends_differ_with_zero_weight :
    (∀ c ∈ [((0 : Nat), (1 : Nat), (0 : ℤ)), (1, 2, 5)], c.1 < 3 ∧ c.2.1 < 3 ∧ 0 ≤ c.2.2) ∧
    ((ShortestPath.create ((AbstractGraph.adjList (AdjListGraph.create ℤ ℤ 3)).addEdges
        [(0, 1, 0), (1, 2, 5)])).path_size 10 0 2).map Prod.snd = some 5 ∧
    ((ShortestPath.create ((AbstractGraph.matrix (MatrixGraph.create ℤ ℤ 3)).addEdges
        [(0, 1, 0), (1, 2, 5)])).path_size 10 0 2).map Prod.snd = some (-1) := by
  decide

/-- C5 (amended): for every vertex count `n` and every sequence of
`addEdge(x, y, w)` calls with in-range `x`, `y` and strictly positive `w`,
applied to a fresh `AdjListGraph(n)` and to a fresh `MatrixGraph(n)`,
`path_size(s, t)` returns the same value on both for all in-range `s`, `t`. -/
theorem backend_equivalence_positive_weights (n : Nat) (calls : List (Nat × Nat × W))
    (hcalls : ∀ c ∈ calls, c.1 < n ∧ c.2.1 < n ∧ 0 < c.2.2)
    (s t : Nat) (hs : s < n) (_ht : t < n) :
    ∃ (fuel0 : Nat) (r : W), ∀ fuel, fuel0 ≤ fuel →
      ((ShortestPath.create ((AbstractGraph.adjList
          (AdjListGraph.create vertex_type W n)).addEdges calls)).path_size fuel s t).map
        Prod.snd = some r ∧
      ((ShortestPath.create ((AbstractGraph.matrix
          (MatrixGraph.create vertex_type W n)).addEdges calls)).path_size fuel s t).map
        Prod.snd = some r :=
  path_size_sameEdges _ _ n (sameEdges_addEdges n calls hcalls _ _ (sameEdges_create n)) s t hs

theorem backend_equivalence_positive_weights_witness :
    (∀ c ∈ [((0 : Nat), (1 : Nat), (2 : ℤ)), (1, 2, 5)], c.1 < 3 ∧ c.2.1 < 3 ∧ 0 < c.2.2) ∧
    0 < 3 ∧ 2 < 3 ∧
    ∃ (fuel0 : Nat) (r : ℤ), ∀ fuel, fuel0 ≤ fuel →
      ((ShortestPath.create ((AbstractGraph.adjList
          (AdjListGraph.create ℤ ℤ 3)).addEdges [(0, 1, 2), (1, 2, 5)])).path_size fuel 0 2).map
        Prod.snd = some r ∧
      ((ShortestPath.create ((AbstractGraph.matrix
          (MatrixGraph.create ℤ ℤ 3)).addEdges [(0, 1, 2), (1, 2, 5)])).path_size fuel 0 2).map
        Prod.snd = some r :=
  ⟨by decide, by decide, by decide,
   backend_equivalence_positive_weights 3 [(0, 1, 2), (1, 2, 5)] (by decide) 0 2
     (by decide) (by decide)⟩

/-- C6: on a well-formed graph of either kind with non-negative weights and
in-range `s`, `t`, `path_size(s, t)` leaves the engine as `path(s, t)` does
and returns the sum of the values `get_edge_value(p[i], p[i+1])` over the
consecutive vertices of the vector `p` that `path(s, t)` returns, added from
the left, or `-1` when that sum is zero; the result is `-1` exactly when the
sum is zero, and for `t = s` the vector is `[s]` and the result `-1`. -/
theorem path_size_is_sum_or_sentinel (sp : ShortestPath vertex_type W)
    (hwf : sp.g.WellFormed) (hnn : sp.g.NonNegWeights) (s t : Nat)
    (hs : s < sp.g.V) (_ht : t < sp.g.V) :
    ∃ (fuel0 : Nat) (sp1 : ShortestPath vertex_type W) (p : List Nat),
      (∀ fuel, fuel0 ≤ fuel →
        sp.path fuel s t = some (sp1, p) ∧
        sp.path_size fuel s t =
          some (sp1, if (edgeValues sp.g p).foldl (· + ·) 0 = 0 then -1
            else (edgeValues sp.g p).foldl (· + ·) 0)) ∧
      ((if (edgeValues sp.g p).foldl (· + ·) 0 = 0 then (-1 : W)
          else (edgeValues sp.g p).foldl (· + ·) 0) = -1 ↔
        (edgeValues sp.g p).foldl (· + ·) 0 = 0) ∧
      (t = s → p = [s] ∧
        ∀ fuel, fuel0 ≤ fuel → (sp.path_size fuel s t).map Prod.snd = some (-1)) := by
  have hg := sp.g.good_of_wellFormed hwf
  obtain ⟨fuel0, st, p, -, -, -, hpath, hlast, hnd, hyes, hnot⟩ := path_master sp hg hnn s t hs
  have hcost : 0 ≤ (edgeValues sp.g p).foldl (· + ·) 0 := by
    rw [← List.sum_eq_foldl, ← pathCost_eq_sum]
    by_cases hr : sp.g.Reaches s t
    · exact pathCost_nonneg sp.g hg hnn p (hyes hr).2.1
    · rw [(hnot hr).1]; simp [pathCost]
  have hsize : ∀ fuel, fuel0 ≤ fuel → sp.path_size fuel s t =
      some ({ sp with min_distance := st.min_distance, previous := st.previous, _path := p },
        if (edgeValues sp.g p).foldl (· + ·) 0 = 0 then -1
          else (edgeValues sp.g p).foldl (· + ·) 0) := by
    intro fuel hf
    rw [path_size_of_path sp _ fuel s t _ (hpath fuel hf)]
    simp only [sumEdges_eq_foldl]
  refine ⟨fuel0, _, p, fun fuel hf => ⟨hpath fuel hf, hsize fuel hf⟩, ?_, ?_⟩
  · by_cases h0 : (edgeValues sp.g p).foldl (· + ·) 0 = 0
    · simp [h0]
    · rw [if_neg h0]
      simp only [h0, iff_false]
      intro hc
      rw [hc] at hcost
      linarith
  · intro hts
    subst hts
    obtain ⟨hhead, -, -, -⟩ := hyes Relation.ReflTransGen.refl
    have hp : p = [t] := by
      cases p with
      | nil => simp at hhead
      | cons a rest =>
        simp only [List.head?_cons, Option.some.injEq] at hhead
        subst hhead
        cases rest with
        | nil => rfl
        | cons b rest =>
          exfalso
          have hmem : a ∈ (b :: rest) := by
            have h1 : (a :: b :: rest).getLast? = (b :: rest).getLast? :=
              List.getLast?_cons_cons
            rw [h1] at hlast
            exact List.mem_of_getLast?_eq_some hlast
          exact (List.nodup_cons.1 hnd).1 hmem
    refine ⟨hp, fun fuel hf => ?_⟩
    rw [hsize fuel hf, hp]
    simp [edgeValues]

set_option maxRecDepth 100000 in
theorem path_size_is_sum_or_sentinel_witness :
    test1Engine.g.WellFormed ∧ test1Engine.g.NonNegWeights ∧
    0 < test1Engine.g.V ∧ 4 < test1Engine.g.V ∧
    (∃ (fuel0 : Nat) (sp1 : ShortestPath ℤ ℤ) (p : List Nat),
      (∀ fuel, fuel0 ≤ fuel →
        test1Engine.path fuel 0 4 = some (sp1, p) ∧
        test1Engine.path_size fuel 0 4 =
          some (sp1, if (edgeValues test1Engine.g p).foldl (· + ·) 0 = 0 then -1
            else (edgeValues test1Engine.g p).foldl (· + ·) 0)) ∧
      ((if (edgeValues test1Engine.g p).foldl (· + ·) 0 = 0 then (-1 : ℤ)
          else (edgeValues test1Engine.g p).foldl (· + ·) 0) = -1 ↔
        (edgeValues test1Engine.g p).foldl (· + ·) 0 = 0) ∧
      (4 = 0 → p = [0] ∧
        ∀ fuel, fuel0 ≤ fuel → (test1Engine.path_size fuel 0 4).map Prod.snd = some (-1))) ∧
    (test1Engine.path 8 0 4).map Prod.snd = some [0, 2, 5, 4] ∧
    edgeValues test1Engine.g [0, 2, 5, 4] = [9, 2, 9] ∧
    (test1Engine.path_size 8 0 4).map Prod.snd = some 20 ∧
    (test1Engine.path 8 0 0).map Prod.snd = some [0] ∧
    (test1Engine.path_size 8 0 0).map Prod.snd = some (-1) :=
  ⟨by decide, by decide, by decide, by decide,
   path_size_is_sum_or_sentinel test1Engine (by decide) (by decide) 0 4 (by decide) (by decide),
   by decide, by decide, by decide, by decide, by decide⟩

/-- C7: on a well-formed graph of either kind with non-negative weights and
in-range `s`, `t`, `path(s, t)` terminates: within finitely many passes the
relax loop finds the queue empty, and the backward walk from `t` over
`previous` then reaches the `-1` sentinel without visiting a vertex twice. -/
theorem path_terminates (sp : ShortestPath vertex_type W)
    (hwf : sp.g.WellFormed) (hnn : sp.g.NonNegWeights) (s t : Nat)
    (hs : s < sp.g.V) (_ht : t < sp.g.V) :
    ∃ (fuel0 : Nat) (st : RelaxState W) (walk : List Nat),
      relaxLoop sp.g fuel0 (ShortestPath.initState sp.g.V s) = some st ∧
      st.vertex_queue = [] ∧
      walkBack st.previous fuel0 (some t) [] = some walk ∧ walk.Nodup ∧
      ∀ fuel, fuel0 ≤ fuel → (sp.path fuel s t).map Prod.snd = some walk.reverse := by
  obtain ⟨fuel0, st, p, hloop, hq, hwalk, hpath, -, hnd, -, -⟩ :=
    path_master sp (sp.g.good_of_wellFormed hwf) hnn s t hs
  refine ⟨fuel0, st, p.reverse, hloop, hq, hwalk, List.nodup_reverse.2 hnd, ?_⟩
  intro fuel hf
  rw [hpath fuel hf]; simp

set_option maxRecDepth 100000 in
theorem path_terminates_witness :
    test1Engine.g.WellFormed ∧ test1Engine.g.NonNegWeights ∧
    0 < test1Engine.g.V ∧ 4 < test1Engine.g.V ∧
    ∃ (fuel0 : Nat) (st : RelaxState ℤ) (walk : List Nat),
      relaxLoop test1Engine.g fuel0 (ShortestPath.initState test1Engine.g.V 0) = some st ∧
      st.vertex_queue = [] ∧
      walkBack st.previous fuel0 (some 4) [] = some walk ∧ walk.Nodup ∧
      ∀ fuel, fuel0 ≤ fuel → (test1Engine.path fuel 0 4).map Prod.snd = some walk.reverse :=
  ⟨by decide, by decide, by decide, by decide,
   path_terminates test1Engine (by decide) (by decide) 0 4 (by decide) (by decide)⟩

/-- C8: in every graph state reachable from a constructor by `addEdge`,
`deleteEdge` and `set_edge_value` with in-range indices, for every in-range
`x`, `neighbors(x)` reports exactly the `y` with `adjacent(x, y)`, each of
them once, with the weight `get_edge_value(x, y)`. -/
theorem neighbors_agree_with_adjacent (g : AbstractGraph vertex_type W) (hr : g.Reachable)
    (x : Nat) (_hx : x < g.V) :
    (∀ y, y ∈ (g.neighbors x).map Neighbor.vertex ↔ g.adjacent x y = true) ∧
    (∀ y, g.adjacent x y = true → ((g.neighbors x).map Neighbor.vertex).count y = 1) ∧
    (∀ e ∈ g.neighbors x, e.weight = g.get_edge_value x e.vertex) := by
  have hwf := g.wellFormed_of_reachable hr
  have hg := g.good_of_wellFormed hwf
  have hmem : ∀ y, y ∈ (g.neighbors x).map Neighbor.vertex ↔ g.adjacent x y = true := by
    intro y
    rw [hg.adj x y, List.mem_map]
  refine ⟨hmem, ?_, ?_⟩
  · intro y hy
    exact List.count_eq_one_of_mem (g.neighbors_nodup hwf x) ((hmem y).2 hy)
  · intro e he
    exact (hg.value x e he).symm

theorem neighbors_agree_with_adjacent_witness :
    ((AbstractGraph.adjList (AdjListGraph.create ℤ ℤ 3)).addEdge 0 1 5).Reachable ∧
    0 < ((AbstractGraph.adjList (AdjListGraph.create ℤ ℤ 3)).addEdge 0 1 5).V ∧
    ((∀ y, y ∈ ((((AbstractGraph.adjList (AdjListGraph.create ℤ ℤ 3)).addEdge 0 1 5).neighbors 0).map
        Neighbor.vertex) ↔
        ((AbstractGraph.adjList (AdjListGraph.create ℤ ℤ 3)).addEdge 0 1 5).adjacent 0 y = true) ∧
     (∀ y, ((AbstractGraph.adjList (AdjListGraph.create ℤ ℤ 3)).addEdge 0 1 5).adjacent 0 y = true →
        ((((AbstractGraph.adjList (AdjListGraph.create ℤ ℤ 3)).addEdge 0 1 5).neighbors 0).map
          Neighbor.vertex).count y = 1) ∧
     (∀ e ∈ ((AbstractGraph.adjList (AdjListGraph.create ℤ ℤ 3)).addEdge 0 1 5).neighbors 0,
        e.weight =
          ((AbstractGraph.adjList (AdjListGraph.create ℤ ℤ 3)).addEdge 0 1 5).get_edge_value 0
            e.vertex)) :=
  ⟨AbstractGraph.Reachable.addEdge _ 0 1 5 (AbstractGraph.Reachable.createList 3)
      (by decide) (by decide),
   by decide,
   neighbors_agree_with_adjacent _
     (AbstractGraph.Reachable.addEdge _ 0 1 5 (AbstractGraph.Reachable.createList 3)
       (by decide) (by decide)) 0 (by decide)⟩

/-- C9 (as stated, refuted): on a fresh `MatrixGraph(2)` the call
`addEdge(0, 1, 0)` with the non-negative weight zero, and the two-argument
`addEdge(0, 1)`, leave `adjacent(0, 1)` false. -/
theorem addEdge_zero_weight_matrix_not_adjacent :
    (AbstractGraph.matrix (MatrixGraph.create ℤ ℤ 2)).WellFormed ∧
    (0 : ℤ) ≤ 0 ∧
    ((AbstractGraph.matrix (MatrixGraph.create ℤ ℤ 2)).addEdge 0 1 0).adjacent 0 1 = false ∧
    ((AbstractGraph.matrix (MatrixGraph.create ℤ ℤ 2)).addEdge2 0 1).adjacent 0 1 = false := by
  decide

/-- C9 (amended): in every well-formed graph state, for in-range `x`, `y` and a
non-negative weight `w`: after `addEdge(x, y, w)`, `get_edge_value(x, y)` is
`w`, and `adjacent(x, y)` is true if the graph is an `AdjListGraph` or `w` is
not zero; after the two-argument `addEdge(x, y)`, `get_edge_value(x, y)` is
zero, and `adjacent(x, y)` is true if the graph is an `AdjListGraph`. -/
theorem addEdge_creates_edge (g : AbstractGraph vertex_type W) (hwf : g.WellFormed)
    (x y : Nat) (hx : x < g.V) (hy : y < g.V) (w : W) (_hw : 0 ≤ w) :
    (g.addEdge x y w).get_edge_value x y = w ∧
    (g.isAdjList = true ∨ w ≠ 0 → (g.addEdge x y w).adjacent x y = true) ∧
    (g.addEdge2 x y).get_edge_value x y = 0 ∧
    (g.isAdjList = true → (g.addEdge2 x y).adjacent x y = true) := by
  rw [g.addEdge2_eq]
  refine ⟨?_, ?_, ?_, ?_⟩
  · rw [g.get_edge_value_addEdge hwf x y w hx hy]; simp
  · intro h
    rw [g.adjacent_addEdge hwf x y w hx hy]
    rcases h with h | h
    · simp [h]
    · simp [h]
  · rw [g.get_edge_value_addEdge hwf x y 0 hx hy]; simp
  · intro h
    rw [g.adjacent_addEdge hwf x y 0 hx hy]
    simp [h]

theorem addEdge_creates_edge_witness :
    (AbstractGraph.matrix (MatrixGraph.create ℤ ℤ 2)).WellFormed ∧
    0 < (AbstractGraph.matrix (MatrixGraph.create ℤ ℤ 2)).V ∧
    1 < (AbstractGraph.matrix (MatrixGraph.create ℤ ℤ 2)).V ∧ (0 : ℤ) ≤ 5 ∧
    (((AbstractGraph.matrix (MatrixGraph.create ℤ ℤ 2)).addEdge 0 1 5).get_edge_value 0 1 = 5 ∧
     ((AbstractGraph.matrix (MatrixGraph.create ℤ ℤ 2)).isAdjList = true ∨ (5 : ℤ) ≠ 0 →
        ((AbstractGraph.matrix (MatrixGraph.create ℤ ℤ 2)).addEdge 0 1 5).adjacent 0 1 = true) ∧
     ((AbstractGraph.matrix (MatrixGraph.create ℤ ℤ 2)).addEdge2 0 1).get_edge_value 0 1 = 0 ∧
     ((AbstractGraph.matrix (MatrixGraph.create ℤ ℤ 2)).isAdjList = true →
        ((AbstractGraph.matrix (MatrixGraph.create ℤ ℤ 2)).addEdge2 0 1).adjacent 0 1 = true)) :=
  ⟨by decide, by decide, by decide, by decide,
   addEdge_creates_edge _ (by decide) 0 1 (by decide) (by decide) 5 (by decide)⟩

/-- C10 (as stated, refuted): on a fresh `MatrixGraph(2)`, after
`addEdge(0, 1, 0)` the call `addEdge(0, 1, 5)` changes `E()` from 1 to 2. -/
theorem addEdge_twice_matrix_counts_twice :
    (AbstractGraph.matrix (MatrixGraph.create ℤ ℤ 2)).WellFormed ∧
    (0 : ℤ) ≤ 0 ∧ (0 : ℤ) ≤ 5 ∧
    ((AbstractGraph.matrix (MatrixGraph.create ℤ ℤ 2)).addEdge 0 1 0).E = 1 ∧
    (((AbstractGraph.matrix (MatrixGraph.create ℤ ℤ 2)).addEdge 0 1 0).addEdge 0 1 5).E = 2 := by
  decide

/-- C10 (amended): in every well-formed graph state, for in-range `x`, `y` and
non-negative weights `w1`, `w2`: after `addEdge(x, y, w1)` then
`addEdge(x, y, w2)`, `get_edge_value(x, y)` is `w2`; and the second call leaves
`E()` unchanged if the graph is an `AdjListGraph` or `w1` is not zero. -/
theorem addEdge_overwrite (g : AbstractGraph vertex_type W) (hwf : g.WellFormed)
    (x y : Nat) (hx : x < g.V) (hy : y < g.V) (w1 w2 : W) (_hw1 : 0 ≤ w1) (_hw2 : 0 ≤ w2) :
    ((g.addEdge x y w1).addEdge x y w2).get_edge_value x y = w2 ∧
    (g.isAdjList = true ∨ w1 ≠ 0 →
      ((g.addEdge x y w1).addEdge x y w2).E = (g.addEdge x y w1).E) := by
  have hwf1 := g.wellFormed_addEdge hwf x y w1 hy
  have hV := g.V_addEdge x y w1
  refine ⟨?_, ?_⟩
  · rw [(g.addEdge x y w1).get_edge_value_addEdge hwf1 x y w2 (by rw [hV]; exact hx)
      (by rw [hV]; exact hy)]
    simp
  · intro h
    rw [(g.addEdge x y w1).E_addEdge x y w2]
    have hadj := g.adjacent_addEdge hwf x y w1 hx hy x y
    have hval := g.get_edge_value_addEdge hwf x y w1 hx hy x y
    simp only [and_self, if_true] at hadj hval
    have hlist : (g.addEdge x y w1).isAdjList = g.isAdjList := by cases g <;> rfl
    rw [hlist, hadj, hval]
    rcases h with h | h
    · simp [h]
    · cases hl : g.isAdjList
      · simp [h]
      · simp

theorem addEdge_overwrite_witness :
    (AbstractGraph.matrix (MatrixGraph.create ℤ ℤ 2)).WellFormed ∧
    0 < (AbstractGraph.matrix (MatrixGraph.create ℤ ℤ 2)).V ∧
    1 < (AbstractGraph.matrix (MatrixGraph.create ℤ ℤ 2)).V ∧ (0 : ℤ) ≤ 3 ∧ (0 : ℤ) ≤ 5 ∧
    ((((AbstractGraph.matrix (MatrixGraph.create ℤ ℤ 2)).addEdge 0 1 3).addEdge 0 1
        5).get_edge_value 0 1 = 5 ∧
     ((AbstractGraph.matrix (MatrixGraph.create ℤ ℤ 2)).isAdjList = true ∨ (3 : ℤ) ≠ 0 →
       (((AbstractGraph.matrix (MatrixGraph.create ℤ ℤ 2)).addEdge 0 1 3).addEdge 0 1 5).E =
         ((AbstractGraph.matrix (MatrixGraph.create ℤ ℤ 2)).addEdge 0 1 3).E)) :=
  ⟨by decide, by decide, by decide, by decide, by decide,
   addEdge_overwrite _ (by decide) 0 1 (by decide) (by decide) 3 5 (by decide) (by decide)⟩


end Claims

/-! ## Further lemmas and claims -/


section DeleteLemmas

variable {vertex_type W : Type} [LinearOrderedCommRing W]

theorem eraseNeighbor_find {y : Nat} {l r : List (Neighbor W)}
    (hnd : (l.map Neighbor.vertex).Nodup) (h : eraseNeighbor y l = some r) (y1 : Nat) :
    findNeighbor y1 r = if y1 = y then none else findNeighbor y1 l := by
  induction l generalizing r with
  | nil => simp [eraseNeighbor] at h
  | cons a rest ih =>
    simp only [List.map_cons, List.nodup_cons] at hnd
    simp only [eraseNeighbor] at h
    by_cases ha : a.vertex = y
    · rw [if_pos ha] at h
      cases h
      by_cases hy1 : y1 = y
      · rw [if_pos hy1, hy1, findNeighbor_eq_none_iff]
        intro e he hev
        apply hnd.1
        rw [ha, ← hev]
        exact List.mem_map_of_mem _ he
      · rw [if_neg hy1]
        have hne : a.vertex ≠ y1 := fun hc => hy1 (hc.symm.trans ha)
        simp only [findNeighbor, if_neg hne]
    · rw [if_neg ha] at h
      cases ho : eraseNeighbor y rest with
      | none => rw [ho] at h; simp at h
      | some r1 =>
        rw [ho] at h
        simp only [Option.map_some', Option.some.injEq] at h
        subst h
        have hih := ih hnd.2 ho
        simp only [findNeighbor]
        by_cases hay1 : a.vertex = y1
        · have hy1 : y1 ≠ y := fun hc => ha (hay1.trans hc)
          rw [if_pos hay1, if_neg hy1, if_pos hay1]
        · rw [if_neg hay1, if_neg hay1]
          exact hih

theorem eraseNeighbor_length {y : Nat} {l r : List (Neighbor W)}
    (h : eraseNeighbor y l = some r) : r.length + 1 = l.length := by
  induction l generalizing r with
  | nil => simp [eraseNeighbor] at h
  | cons a rest ih =>
    simp only [eraseNeighbor] at h
    by_cases ha : a.vertex = y
    · rw [if_pos ha] at h
      cases h
      simp
    · rw [if_neg ha] at h
      cases ho : eraseNeighbor y rest with
      | none => rw [ho] at h; simp at h
      | some r1 =>
        rw [ho] at h
        simp only [Option.map_some', Option.some.injEq] at h
        subst h
        simp only [List.length_cons]
        rw [ih ho]

theorem AdjListGraph.row_deleteEdge (g : AdjListGraph vertex_type W) (x y : Nat)
    (hx : x < g.AdjacencyList.length) (x1 : Nat) :
    (g.deleteEdge x y).row x1 =
      if x1 = x then
        (match eraseNeighbor y (g.row x) with
         | some r => r
         | none => g.row x)
      else g.row x1 := by
  unfold AdjListGraph.deleteEdge
  cases ho : eraseNeighbor y (g.row x) with
  | some r =>
    show (g.AdjacencyList.set x r).getD x1 [] = _
    rw [getD_set_row _ _ _ _ hx]
    rfl
  | none =>
    by_cases hx1 : x1 = x
    · rw [if_pos hx1, hx1]
    · rw [if_neg hx1]

theorem AdjListGraph.find_deleteEdge (g : AdjListGraph vertex_type W) (hwf : g.WellFormed)
    (x y : Nat) (hx : x < g.AdjacencyList.length) (x1 y1 : Nat) :
    findNeighbor y1 ((g.deleteEdge x y).row x1) =
      if x1 = x ∧ y1 = y then none else findNeighbor y1 (g.row x1) := by
  rw [g.row_deleteEdge x y hx x1]
  by_cases hx1 : x1 = x
  · subst hx1
    simp only [if_true, true_and]
    cases ho : eraseNeighbor y (g.row x1) with
    | some r => exact eraseNeighbor_find (g.wellFormed_row hwf x1).1 ho y1
    | none =>
      have hf := (eraseNeighbor_eq_none_iff y _).1 ho
      by_cases hy1 : y1 = y
      · rw [if_pos hy1, hy1]; exact hf
      · rw [if_neg hy1]
  · simp [hx1]

theorem AdjListGraph.numEdge_deleteEdge (g : AdjListGraph vertex_type W) (x y : Nat) :
    (g.deleteEdge x y).E = if g.adjacent x y = true then g.E - 1 else g.E := by
  unfold AdjListGraph.deleteEdge AdjListGraph.adjacent AdjListGraph.E
  cases ho : eraseNeighbor y (g.row x) with
  | some r =>
    have hne : findNeighbor y (g.row x) ≠ none := fun hc => by
      rw [(eraseNeighbor_eq_none_iff y _).2 hc] at ho; cases ho
    have : (findNeighbor y (g.row x)).isSome = true := Option.isSome_iff_ne_none.2 hne
    simp [this]
  | none =>
    have hf := (eraseNeighbor_eq_none_iff y _).1 ho
    simp [hf]

theorem AbstractGraph.get_edge_value_deleteEdge (g : AbstractGraph vertex_type W)
    (hwf : g.WellFormed) (x y : Nat) (hx : x < g.V) (hy : y < g.V) (x1 y1 : Nat) :
    (g.deleteEdge x y).get_edge_value x1 y1 =
      if x1 = x ∧ y1 = y then 0 else g.get_edge_value x1 y1 := by
  cases g with
  | adjList a =>
    show (a.deleteEdge x y).get_edge_value x1 y1 = _
    unfold AdjListGraph.get_edge_value
    rw [a.find_deleteEdge hwf x y (by rw [hwf.1]; exact hx) x1 y1]
    by_cases h : x1 = x ∧ y1 = y
    · simp [h]
    · simp [h, AbstractGraph.get_edge_value, AdjListGraph.get_edge_value]
  | matrix m => exact m.cell_setCell (m.deleteEdge x y) hwf x y 0 hx hy rfl x1 y1

theorem AbstractGraph.adjacent_deleteEdge (g : AbstractGraph vertex_type W)
    (hwf : g.WellFormed) (x y : Nat) (hx : x < g.V) (hy : y < g.V) (x1 y1 : Nat) :
    (g.deleteEdge x y).adjacent x1 y1 =
      if x1 = x ∧ y1 = y then false else g.adjacent x1 y1 := by
  cases g with
  | adjList a =>
    show (findNeighbor y1 ((a.deleteEdge x y).row x1)).isSome = _
    rw [a.find_deleteEdge hwf x y (by rw [hwf.1]; exact hx) x1 y1]
    by_cases h : x1 = x ∧ y1 = y
    · simp [h]
    · simp [h, AbstractGraph.adjacent, AdjListGraph.adjacent]
  | matrix m =>
    show decide ((m.deleteEdge x y).cell x1 y1 ≠ 0) = _
    rw [m.cell_setCell (m.deleteEdge x y) hwf x y 0 hx hy rfl x1 y1]
    by_cases h : x1 = x ∧ y1 = y
    · simp [h]
    · simp [h, AbstractGraph.adjacent, MatrixGraph.adjacent]

theorem AbstractGraph.E_deleteEdge (g : AbstractGraph vertex_type W) (x y : Nat) :
    (g.deleteEdge x y).E = if g.adjacent x y = true then g.E - 1 else g.E := by
  cases g with
  | adjList a => exact a.numEdge_deleteEdge x y
  | matrix m =>
    show (if m.cell x y ≠ 0 then m.numEdge - 1 else m.numEdge) = _
    by_cases h : m.cell x y = 0
    · simp [h, AbstractGraph.adjacent, MatrixGraph.adjacent, AbstractGraph.E, MatrixGraph.E]
    · simp [h, AbstractGraph.adjacent, MatrixGraph.adjacent, AbstractGraph.E, MatrixGraph.E]

theorem AbstractGraph.graph_wellFormed_deleteEdge (g : AbstractGraph vertex_type W)
    (hwf : g.WellFormed) (x y : Nat) : (g.deleteEdge x y).WellFormed := by
  cases g with
  | adjList a => exact a.wellFormed_deleteEdge hwf x y
  | matrix m => exact m.wellFormed_setCell _ hwf x y 0 rfl rfl

theorem AbstractGraph.get_edge_value_of_not_adjacent (g : AbstractGraph vertex_type W)
    (x y : Nat) (h : g.adjacent x y = false) : g.get_edge_value x y = 0 := by
  cases g with
  | adjList a =>
    have h1 : (findNeighbor y (a.row x)).isSome = false := h
    show a.get_edge_value x y = 0
    unfold AdjListGraph.get_edge_value
    cases hf : findNeighbor y (a.row x) with
    | none => rfl
    | some e => rw [hf] at h1; cases h1
  | matrix m =>
    have h1 : decide (m.cell x y ≠ 0) = false := h
    simpa using h1

end DeleteLemmas

section Claims11

variable {vertex_type W : Type} [LinearOrderedCommRing W]

/-- C11: in every graph state reachable from a constructor by `addEdge` and
`deleteEdge` (and `set_edge_value`) with in-range indices, for in-range `x`,
`y`: after `deleteEdge(x, y)`, `adjacent(x, y)` is false and
`get_edge_value(x, y)` is zero; `E()` is one less than before if
`adjacent(x, y)` held before, and otherwise `E()`, adjacency and all edge
values are unchanged. -/
theorem deleteEdge_removes_edge (g : AbstractGraph vertex_type W) (hr : g.Reachable)
    (x y : Nat) (hx : x < g.V) (hy : y < g.V) :
    (g.deleteEdge x y).adjacent x y = false ∧
    (g.deleteEdge x y).get_edge_value x y = 0 ∧
    (g.adjacent x y = true → (g.deleteEdge x y).E = g.E - 1) ∧
    (g.adjacent x y = false →
      (g.deleteEdge x y).E = g.E ∧
      ∀ a b, (g.deleteEdge x y).adjacent a b = g.adjacent a b ∧
        (g.deleteEdge x y).get_edge_value a b = g.get_edge_value a b) := by
  have hwf := g.wellFormed_of_reachable hr
  refine ⟨?_, ?_, ?_, ?_⟩
  · rw [g.adjacent_deleteEdge hwf x y hx hy]; simp
  · rw [g.get_edge_value_deleteEdge hwf x y hx hy]; simp
  · intro h
    rw [g.E_deleteEdge, if_pos h]
  · intro h
    refine ⟨?_, ?_⟩
    · rw [g.E_deleteEdge, h]; simp
    · intro a b
      rw [g.adjacent_deleteEdge hwf x y hx hy, g.get_edge_value_deleteEdge hwf x y hx hy]
      by_cases hab : a = x ∧ b = y
      · obtain ⟨ha, hb⟩ := hab
        subst ha; subst hb
        simp [h, g.get_edge_value_of_not_adjacent a b h]
      · simp [hab]

theorem deleteEdge_removes_edge_witness :
    isolatedGraph.Reachable ∧ 0 < isolatedGraph.V ∧ 1 < isolatedGraph.V ∧
    ((isolatedGraph.deleteEdge 0 1).adjacent 0 1 = false ∧
     (isolatedGraph.deleteEdge 0 1).get_edge_value 0 1 = 0 ∧
     (isolatedGraph.adjacent 0 1 = true → (isolatedGraph.deleteEdge 0 1).E = isolatedGraph.E - 1) ∧
     (isolatedGraph.adjacent 0 1 = false →
       (isolatedGraph.deleteEdge 0 1).E = isolatedGraph.E ∧
       ∀ a b, (isolatedGraph.deleteEdge 0 1).adjacent a b = isolatedGraph.adjacent a b ∧
         (isolatedGraph.deleteEdge 0 1).get_edge_value a b = isolatedGraph.get_edge_value a b)) :=
  ⟨AbstractGraph.Reachable.addEdge _ 0 1 5 (AbstractGraph.Reachable.createList 3)
      (by decide) (by decide),
   by decide, by decide,
   deleteEdge_removes_edge isolatedGraph
     (AbstractGraph.Reachable.addEdge _ 0 1 5 (AbstractGraph.Reachable.createList 3)
       (by decide) (by decide)) 0 1 (by decide) (by decide)⟩

end Claims11


section CountLemmas

variable {vertex_type W : Type} [LinearOrderedCommRing W]

theorem sum_length_set {α : Type} (l : List (List α)) (x : Nat) (r : List α)
    (hx : x < l.length) :
    ((l.set x r).map List.length).sum + (l.getD x []).length =
      (l.map List.length).sum + r.length := by
  induction l generalizing x with
  | nil => simp at hx
  | cons a rest ih =>
    cases x with
    | zero => simp; omega
    | succ x =>
      have hx1 : x < rest.length := by simpa using hx
      have := ih x hx1
      simp only [List.set_cons_succ, List.map_cons, List.sum_cons, List.getD_cons_succ]
      omega

theorem overwriteNeighbor_length {y : Nat} {w : W} {l r : List (Neighbor W)}
    (h : overwriteNeighbor y w l = some r) : r.length = l.length := by
  have := congrArg List.length (overwriteNeighbor_some h).1
  simpa using this

theorem map_getD_range {α : Type} (l : List (List α)) :
    (List.range l.length).map (fun x => l.getD x []) = l := by
  apply List.ext_getElem
  · simp
  · intro i h1 h2
    simp [List.getD_eq_getElem?_getD, List.getElem?_eq_getElem h2]

theorem countP_mem_range (n : Nat) (l : List Nat) (hnd : l.Nodup) (hlt : ∀ a ∈ l, a < n) :
    (List.range n).countP (fun y => decide (y ∈ l)) = l.length := by
  rw [List.countP_eq_length_filter]
  apply List.Perm.length_eq
  rw [List.perm_ext_iff_of_nodup ((List.nodup_range n).filter _) hnd]
  intro a
  simp only [List.mem_filter, List.mem_range, decide_eq_true_eq]
  exact ⟨fun h => h.2, fun h => ⟨hlt a h, h⟩⟩

theorem AdjListGraph.countP_adjacent (g : AdjListGraph vertex_type W) (hwf : g.WellFormed)
    (x : Nat) :
    (List.range g.numVertex).countP (fun y => g.adjacent x y) = (g.row x).length := by
  obtain ⟨hnd, hlt⟩ := g.wellFormed_row hwf x
  have h := countP_mem_range g.numVertex ((g.row x).map Neighbor.vertex) hnd (by
    intro a ha
    obtain ⟨e, he, hev⟩ := List.mem_map.1 ha
    rw [← hev]; exact hlt e he)
  rw [List.length_map] at h
  rw [← h]
  congr 1
  funext y
  unfold AdjListGraph.adjacent
  rw [Bool.eq_iff_iff, findNeighbor_isSome_iff, decide_eq_true_eq, List.mem_map]

theorem AdjListGraph.adjacentPairs_eq (g : AdjListGraph vertex_type W) (hwf : g.WellFormed) :
    (AbstractGraph.adjList g).adjacentPairs = g.entryCount := by
  unfold AbstractGraph.adjacentPairs AdjListGraph.entryCount
  show ((List.range g.numVertex).map
    (fun x => (List.range g.numVertex).countP (fun y => g.adjacent x y))).sum = _
  have h1 : (fun x => (List.range g.numVertex).countP (fun y => g.adjacent x y)) =
      (fun x => (g.AdjacencyList.getD x []).length) := by
    funext x
    exact g.countP_adjacent hwf x
  rw [h1, ← hwf.1]
  have h2 := congrArg (List.map List.length) (map_getD_range g.AdjacencyList)
  rw [List.map_map] at h2
  rw [← h2]
  rfl

theorem AbstractGraph.adjacentPairs_le (g : AbstractGraph vertex_type W) :
    g.adjacentPairs ≤ g.V * g.V := by
  unfold AbstractGraph.adjacentPairs
  have h := List.sum_le_card_nsmul
    ((List.range g.V).map (fun x => (List.range g.V).countP (fun y => g.adjacent x y))) g.V (by
      intro c hc
      obtain ⟨x, -, hx⟩ := List.mem_map.1 hc
      rw [← hx]
      exact le_trans (List.countP_le_length _) (by simp))
  simpa using h

theorem AdjListGraph.count_addEdge (g : AdjListGraph vertex_type W) (x y : Nat) (w : W)
    (hx : x < g.AdjacencyList.length) (h : g.numEdge = (g.entryCount : Int)) :
    (g.addEdge x y w).numEdge = ((g.addEdge x y w).entryCount : Int) := by
  unfold AdjListGraph.addEdge AdjListGraph.entryCount at *
  cases ho : overwriteNeighbor y w (g.row x) with
  | some r =>
    have h1 := sum_length_set g.AdjacencyList x r hx
    have h2 := overwriteNeighbor_length ho
    simp only
    rw [h]
    have h3 : (g.AdjacencyList.getD x []).length = r.length := h2.symm
    have : ((g.AdjacencyList.set x r).map List.length).sum =
        (g.AdjacencyList.map List.length).sum := by omega
    rw [this]
  | none =>
    have h1 := sum_length_set g.AdjacencyList x (g.row x ++ [⟨y, w⟩]) hx
    simp only
    rw [h]
    have h3 : (g.row x ++ [(⟨y, w⟩ : Neighbor W)]).length =
        (g.AdjacencyList.getD x []).length + 1 := by
      simp [AdjListGraph.row]
    have : ((g.AdjacencyList.set x (g.row x ++ [⟨y, w⟩])).map List.length).sum =
        (g.AdjacencyList.map List.length).sum + 1 := by omega
    rw [this]
    push_cast
    rfl

theorem AdjListGraph.count_deleteEdge (g : AdjListGraph vertex_type W) (x y : Nat)
    (hx : x < g.AdjacencyList.length) (h : g.numEdge = (g.entryCount : Int)) :
    (g.deleteEdge x y).numEdge = ((g.deleteEdge x y).entryCount : Int) := by
  unfold AdjListGraph.deleteEdge AdjListGraph.entryCount at *
  cases ho : eraseNeighbor y (g.row x) with
  | some r =>
    have h1 := sum_length_set g.AdjacencyList x r hx
    have h2 := eraseNeighbor_length ho
    simp only
    rw [h]
    have h3 : (g.AdjacencyList.getD x []).length = r.length + 1 := h2.symm
    have : (g.AdjacencyList.map List.length).sum =
        ((g.AdjacencyList.set x r).map List.length).sum + 1 := by omega
    rw [this]
    push_cast
    ring
  | none => exact h

theorem AdjListGraph.count_set_edge_value (g : AdjListGraph vertex_type W) (x y : Nat) (w : W)
    (hx : x < g.AdjacencyList.length) (h : g.numEdge = (g.entryCount : Int)) :
    (g.set_edge_value x y w).numEdge = ((g.set_edge_value x y w).entryCount : Int) := by
  unfold AdjListGraph.set_edge_value AdjListGraph.entryCount at *
  cases ho : overwriteNeighbor y w (g.row x) with
  | some r =>
    have h1 := sum_length_set g.AdjacencyList x r hx
    have h2 := overwriteNeighbor_length ho
    simp only
    rw [h]
    have h3 : (g.AdjacencyList.getD x []).length = r.length := h2.symm
    have : ((g.AdjacencyList.set x r).map List.length).sum =
        (g.AdjacencyList.map List.length).sum := by omega
    rw [this]
  | none => exact h

theorem AbstractGraph.count_of_reachable (g : AbstractGraph vertex_type W) (hr : g.Reachable) :
    ∀ a, g = AbstractGraph.adjList a → a.numEdge = (a.entryCount : Int) := by
  induction hr with
  | createList n =>
    intro a ha
    cases ha
    simp [AdjListGraph.create, AdjListGraph.entryCount]
  | createMatrix n => intro a ha; cases ha
  | addEdge g x y w hr hx _ ih =>
    intro a ha
    have hwf := g.wellFormed_of_reachable hr
    cases g with
    | adjList a0 =>
      cases ha
      exact a0.count_addEdge x y w (by rw [hwf.1]; exact hx) (ih a0 rfl)
    | matrix m => cases ha
  | addEdge2 g x y hr hx _ ih =>
    intro a ha
    have hwf := g.wellFormed_of_reachable hr
    cases g with
    | adjList a0 =>
      cases ha
      exact a0.count_addEdge x y 0 (by rw [hwf.1]; exact hx) (ih a0 rfl)
    | matrix m => cases ha
  | deleteEdge g x y hr hx _ ih =>
    intro a ha
    have hwf := g.wellFormed_of_reachable hr
    cases g with
    | adjList a0 =>
      cases ha
      exact a0.count_deleteEdge x y (by rw [hwf.1]; exact hx) (ih a0 rfl)
    | matrix m => cases ha
  | set_edge_value g x y w hr hx _ ih =>
    intro a ha
    have hwf := g.wellFormed_of_reachable hr
    cases g with
    | adjList a0 =>
      cases ha
      exact a0.count_set_edge_value x y w (by rw [hwf.1]; exact hx) (ih a0 rfl)
    | matrix m => cases ha

end CountLemmas

section Claims12

variable {vertex_type W : Type} [LinearOrderedCommRing W]

/-- C12: in every `AdjListGraph` state reachable from the constructor by
`addEdge`, `deleteEdge` and `set_edge_value` with in-range indices, no row
holds two entries with the same destination, `E()` is the total number of
entries, which is the number of pairs `(x, y)` with `adjacent(x, y)`, and
`0 <= E() <= n * n`. -/
theorem adjList_edge_count (a : AdjListGraph vertex_type W)
    (hr : (AbstractGraph.adjList a).Reachable) :
    (∀ x, ((a.neighbors x).map Neighbor.vertex).Nodup) ∧
    a.E = (a.entryCount : Int) ∧
    a.E = ((AbstractGraph.adjList a).adjacentPairs : Int) ∧
    0 ≤ a.E ∧ a.E ≤ ((a.V * a.V : Nat) : Int) := by
  have hwf : a.WellFormed := (AbstractGraph.adjList a).wellFormed_of_reachable hr
  have hcount : a.E = (a.entryCount : Int) :=
    (AbstractGraph.adjList a).count_of_reachable hr a rfl
  have hpairs := a.adjacentPairs_eq hwf
  have hle := (AbstractGraph.adjList a).adjacentPairs_le
  refine ⟨fun x => (a.wellFormed_row hwf x).1, hcount, ?_, ?_, ?_⟩
  · rw [hcount, hpairs]
  · rw [hcount]; exact Int.natCast_nonneg _
  · rw [hcount, ← hpairs]
    exact Int.ofNat_le.2 hle

end Claims12


section IdemLemmas

variable {vertex_type W : Type} [LinearOrderedCommRing W]

theorem ShortestPath.path_again (sp sp1 : ShortestPath vertex_type W) (fuel s t : Nat)
    (p : List Nat) (h : sp.path fuel s t = some (sp1, p)) :
    sp1.path fuel s t = some (sp1, p) := by
  unfold ShortestPath.path at h
  cases hl : relaxLoop sp.g fuel (ShortestPath.initState sp.g.V s) with
  | none => rw [hl] at h; cases h
  | some st =>
    rw [hl] at h
    simp only at h
    cases hw : walkBack st.previous fuel (some t) [] with
    | none => rw [hw] at h; cases h
    | some w =>
      rw [hw] at h
      simp only [Option.some.injEq, Prod.mk.injEq] at h
      obtain ⟨h1, h2⟩ := h
      subst h1
      unfold ShortestPath.path
      simp only [hl, hw]
      rw [h2]

theorem ShortestPath.path_snd_congr (sp sp2 : ShortestPath vertex_type W) (fuel s t : Nat)
    (hg : sp2.g = sp.g) :
    (sp2.path fuel s t).map Prod.snd = (sp.path fuel s t).map Prod.snd := by
  unfold ShortestPath.path
  rw [hg]

end IdemLemmas

section Claims16

variable {vertex_type W : Type} [LinearOrderedCommRing W]

/-- C16: on a well-formed graph of either kind with non-negative weights and
in-range `s`, `t`, `path(s, t)` called again on the engine left by a first
`path(s, t)` returns the same vector (and leaves the engine as it is), and
every engine on the same graph, whatever its `min_distance`, `previous` and
`_path` hold, returns that vector. -/
theorem path_idempotent (sp : ShortestPath vertex_type W)
    (hwf : sp.g.WellFormed) (hnn : sp.g.NonNegWeights) (s t : Nat)
    (hs : s < sp.g.V) (_ht : t < sp.g.V) :
    ∃ (fuel0 : Nat) (sp1 : ShortestPath vertex_type W) (p : List Nat),
      ∀ fuel, fuel0 ≤ fuel →
        sp.path fuel s t = some (sp1, p) ∧
        sp1.path fuel s t = some (sp1, p) ∧
        ∀ sp2 : ShortestPath vertex_type W, sp2.g = sp.g →
          (sp2.path fuel s t).map Prod.snd = some p := by
  obtain ⟨fuel0, st, p, -, -, -, hpath, -⟩ :=
    path_master sp (sp.g.good_of_wellFormed hwf) hnn s t hs
  refine ⟨fuel0, _, p, fun fuel hf => ⟨hpath fuel hf, ?_, ?_⟩⟩
  · exact ShortestPath.path_again sp _ fuel s t p (hpath fuel hf)
  · intro sp2 hg
    rw [sp.path_snd_congr sp2 fuel s t hg, hpath fuel hf]
    rfl

set_option maxRecDepth 100000 in
theorem path_idempotent_witness :
    test1Engine.g.WellFormed ∧ test1Engine.g.NonNegWeights ∧
    0 < test1Engine.g.V ∧ 4 < test1Engine.g.V ∧
    ∃ (fuel0 : Nat) (sp1 : ShortestPath ℤ ℤ) (p : List Nat),
      ∀ fuel, fuel0 ≤ fuel →
        test1Engine.path fuel 0 4 = some (sp1, p) ∧
        sp1.path fuel 0 4 = some (sp1, p) ∧
        ∀ sp2 : ShortestPath ℤ ℤ, sp2.g = test1Engine.g →
          (sp2.path fuel 0 4).map Prod.snd = some p :=
  ⟨by decide, by decide, by decide, by decide,
   path_idempotent test1Engine (by decide) (by decide) 0 4 (by decide) (by decide)⟩

end Claims16


section QueueLemmas

variable {vertex_type W : Type} [LinearOrderedCommRing W]

theorem relaxNeighbors_cons (dist : W) (u : Nat) (e : Neighbor W) (l : List (Neighbor W))
    (st : RelaxState W) :
    relaxNeighbors dist u (e :: l) st = relaxNeighbors dist u l (relaxOne dist u e st) := by
  simp only [relaxNeighbors, relaxOne]
  split <;> rfl

theorem relaxOne_queueInv (g : AbstractGraph vertex_type W) (dist : W) (u : Nat)
    (e : Neighbor W) (he : e.vertex < g.V) (st : RelaxState W) (h : QueueInv g st) :
    QueueInv g (relaxOne dist u e st) := by
  unfold relaxOne
  by_cases hyes : ltDist (dist + e.weight) (st.min_distance.getD e.vertex none) = true
  · rw [if_pos hyes]
    have hlm : e.vertex < st.min_distance.length := by rw [h.len_md]; exact he
    constructor
    · simp [h.len_md]
    · intro d v hv
      show v < g.V ∧ ∃ m,
        (st.min_distance.set e.vertex (some (dist + e.weight))).getD v none = some m ∧ m ≤ d
      rcases List.mem_cons.1 hv with heq | hv
      · simp only [Prod.mk.injEq] at heq
        obtain ⟨h1, h2⟩ := heq
        subst h1; subst h2
        exact ⟨he, _, getD_set_self _ _ _ _ hlm, le_refl _⟩
      · obtain ⟨hvV, m, hm, hle⟩ := h.entries d v hv
        refine ⟨hvV, ?_⟩
        by_cases hev : e.vertex = v
        · subst hev
          rw [hm] at hyes
          exact ⟨_, getD_set_self _ _ _ _ hlm,
            le_trans (le_of_lt (ltDist_true_some hyes)) hle⟩
        · exact ⟨m, by rw [getD_set_of_ne _ _ _ _ _ hev]; exact hm, hle⟩
  · rw [if_neg hyes]; exact h

theorem relaxNeighbors_queueInv (g : AbstractGraph vertex_type W) (dist : W) (u : Nat)
    (l : List (Neighbor W)) (hl : ∀ e ∈ l, e.vertex < g.V) :
    ∀ st : RelaxState W, QueueInv g st → QueueInv g (relaxNeighbors dist u l st) := by
  induction l with
  | nil => intro st h; exact h
  | cons e rest ih =>
    intro st h
    rw [relaxNeighbors_cons]
    exact ih (fun e1 h1 => hl e1 (List.mem_cons_of_mem _ h1)) _
      (relaxOne_queueInv g dist u e (hl e (List.mem_cons_self _ _)) st h)

/-- With the queue invariant the guard `dist < min_distance[u]` is false at
the popped entry. -/
theorem queueInv_guard (g : AbstractGraph vertex_type W) (st : RelaxState W)
    (h : QueueInv g st) (dist : W) (u : Nat) (htop : queueTop st.vertex_queue = some (dist, u)) :
    ltDist dist (st.min_distance.getD u none) = false ∧
    relaxStep g st = some (relaxNeighbors dist u (g.neighbors u)
      { st with vertex_queue := st.vertex_queue.erase (dist, u) }) := by
  obtain ⟨hmem, -⟩ := queueTop_mem_min _ _ htop
  obtain ⟨-, m, hm, hle⟩ := h.entries dist u hmem
  have hg : ltDist dist (st.min_distance.getD u none) = false := by
    rw [hm]
    simp only [ltDist, decide_eq_false_iff_not, not_lt]
    exact hle
  refine ⟨hg, ?_⟩
  unfold relaxStep
  rw [htop]
  simp only [hg]
  rfl

theorem relaxStep_queueInv (g : AbstractGraph vertex_type W) (hg : g.Good)
    (st st1 : RelaxState W) (h : QueueInv g st) (hstep : relaxStep g st = some st1) :
    QueueInv g st1 := by
  cases htop : queueTop st.vertex_queue with
  | none =>
    unfold relaxStep at hstep
    rw [htop] at hstep; cases hstep
  | some a =>
    obtain ⟨dist, u⟩ := a
    rw [(queueInv_guard g st h dist u htop).2] at hstep
    cases hstep
    apply relaxNeighbors_queueInv g dist u _ (hg.range u)
    exact ⟨h.len_md, fun d v hv => h.entries d v (List.mem_of_mem_erase hv)⟩

theorem queueInv_init (g : AbstractGraph vertex_type W) (s : Nat) (hs : s < g.V) :
    QueueInv g (ShortestPath.initState g.V s) := by
  unfold ShortestPath.initState
  constructor
  · simp
  · intro d v hv
    simp only [List.mem_singleton, Prod.mk.injEq] at hv
    obtain ⟨h1, h2⟩ := hv
    subst h1; subst h2
    exact ⟨hs, 0, getD_set_self _ _ _ _ (by simpa using hs), le_refl _⟩

theorem relaxPasses_queueInv (g : AbstractGraph vertex_type W) (hg : g.Good) :
    ∀ (k : Nat) (st st1 : RelaxState W), QueueInv g st → relaxPasses g k st = some st1 →
      QueueInv g st1 := by
  intro k
  induction k with
  | zero =>
    intro st st1 h hp
    simp only [relaxPasses, Option.some.injEq] at hp
    subst hp; exact h
  | succ k ih =>
    intro st st1 h hp
    simp only [relaxPasses] at hp
    cases hstep : relaxStep g st with
    | none => rw [hstep] at hp; cases hp
    | some st2 =>
      rw [hstep] at hp
      exact ih st2 st1 (relaxStep_queueInv g hg st st2 h hstep) hp

end QueueLemmas

section Claims20

variable {vertex_type W : Type} [LinearOrderedCommRing W]

/-- C20: on a well-formed graph of either kind with arbitrary weights, in
every state the relax loop of `path(s, t)` reaches (after any number `k` of
passes from the initialisation), every queue entry `(d, v)` has
`d >= min_distance[v]`; hence at the popped entry the guard
`dist < min_distance[u]` is false and the pass relaxes the neighbours of `u`. -/
theorem guard_never_true (g : AbstractGraph vertex_type W) (hwf : g.WellFormed)
    (s : Nat) (hs : s < g.V) (k : Nat) (st : RelaxState W)
    (hst : relaxPasses g k (ShortestPath.initState g.V s) = some st) :
    (∀ d v, (d, v) ∈ st.vertex_queue →
      ∃ m, st.min_distance.getD v none = some m ∧ m ≤ d) ∧
    (∀ dist u, queueTop st.vertex_queue = some (dist, u) →
      ltDist dist (st.min_distance.getD u none) = false ∧
      relaxStep g st = some (relaxNeighbors dist u (g.neighbors u)
        { st with vertex_queue := st.vertex_queue.erase (dist, u) })) := by
  have hinv := relaxPasses_queueInv g (g.good_of_wellFormed hwf) k _ st
    (queueInv_init g s hs) hst
  exact ⟨fun d v hv => (hinv.entries d v hv).2, fun dist u htop => queueInv_guard g st hinv dist u htop⟩

end Claims20


section OrderLemmas

variable {vertex_type W : Type} [LinearOrderedCommRing W]

theorem pairLt_iff (a b : W × Nat) :
    pairLt a b = true ↔ a.1 < b.1 ∨ (a.1 = b.1 ∧ a.2 < b.2) := by
  unfold pairLt
  simp only [Bool.or_eq_true, Bool.and_eq_true, decide_eq_true_eq]

theorem pairLt_of_lt_of_not_lt {a b c : W × Nat} (hca : pairLt c a = true)
    (hba : ¬ pairLt b a = true) : pairLt c b = true := by
  rw [pairLt_iff] at hca hba ⊢
  simp only [not_or, not_lt, not_and] at hba
  obtain ⟨h1, h2⟩ := hba
  rcases hca with h | ⟨h, h3⟩
  · exact Or.inl (lt_of_lt_of_le h h1)
  · rcases lt_or_eq_of_le h1 with h4 | h4
    · exact Or.inl (by rw [h]; exact h4)
    · right
      refine ⟨h.trans h4, ?_⟩
      have := h2 h4.symm
      omega

theorem pairLt_asymm {a b : W × Nat} (h : pairLt a b = true) : ¬ pairLt b a = true := by
  rw [pairLt_iff] at h ⊢
  rintro (h1 | ⟨h1, h2⟩)
  · rcases h with h | ⟨h, -⟩
    · exact lt_asymm h h1
    · rw [h] at h1; exact lt_irrefl _ h1
  · rcases h with h | ⟨-, h⟩
    · rw [h1] at h; exact lt_irrefl _ h
    · omega

theorem eq_of_not_pairLt {a b : W × Nat} (h1 : ¬ pairLt a b = true)
    (h2 : ¬ pairLt b a = true) : a = b := by
  rw [pairLt_iff] at h1 h2
  simp only [not_or, not_lt, not_and] at h1 h2
  have hfst : a.1 = b.1 := le_antisymm h2.1 h1.1
  have hsnd : a.2 = b.2 := by
    have := h1.2 hfst
    have := h2.2 hfst.symm
    omega
  exact Prod.ext hfst hsnd

theorem queueTop_spec (q : List (W × Nat)) (a : W × Nat) (h : queueTop q = some a) :
    a ∈ q ∧ ∀ b ∈ q, ¬ pairLt b a = true := by
  induction q generalizing a with
  | nil => simp [queueTop] at h
  | cons c rest ih =>
    simp only [queueTop] at h
    cases hr : queueTop rest with
    | none =>
      rw [hr] at h
      have hnil : rest = [] := (queueTop_eq_none rest).1 hr
      simp only [Option.some.injEq] at h
      subst h; subst hnil
      refine ⟨List.mem_singleton_self _, ?_⟩
      intro b hb
      rw [List.mem_singleton.1 hb]
      intro hc
      exact pairLt_asymm hc hc
    | some b =>
      rw [hr] at h
      obtain ⟨hb, hmin⟩ := ih b hr
      by_cases hlt : pairLt b c = true
      · simp only [if_pos hlt, Option.some.injEq] at h
        subst h
        refine ⟨List.mem_cons_of_mem _ hb, ?_⟩
        intro x hx
        rcases List.mem_cons.1 hx with hx | hx
        · subst hx; exact pairLt_asymm hlt
        · exact hmin x hx
      · simp only [if_neg hlt, Option.some.injEq] at h
        subst h
        refine ⟨List.mem_cons_self _ _, ?_⟩
        intro x hx
        rcases List.mem_cons.1 hx with hx | hx
        · subst hx
          intro hc
          exact pairLt_asymm hc hc
        · intro hc
          exact hmin x hx (pairLt_of_lt_of_not_lt hc hlt)

theorem queueTop_perm (q1 q2 : List (W × Nat)) (h : q1.Perm q2) :
    queueTop q1 = queueTop q2 := by
  cases h1 : queueTop q1 with
  | none =>
    have hn : q1 = [] := (queueTop_eq_none q1).1 h1
    rw [hn] at h
    have hq2 : q2 = [] := (List.Perm.nil_eq h).symm
    rw [hq2]
    rfl
  | some a =>
    cases h2 : queueTop q2 with
    | none =>
      have hn : q2 = [] := (queueTop_eq_none q2).1 h2
      rw [hn] at h
      rw [List.Perm.eq_nil h] at h1
      simp [queueTop] at h1
    | some b =>
      obtain ⟨ha, hmina⟩ := queueTop_spec q1 a h1
      obtain ⟨hb, hminb⟩ := queueTop_spec q2 b h2
      have hab : ¬ pairLt b a = true := hmina b (h.mem_iff.2 hb)
      have hba : ¬ pairLt a b = true := hminb a (h.mem_iff.1 ha)
      rw [eq_of_not_pairLt hba hab]

end OrderLemmas


section PermLemmas

variable {vertex_type W : Type} [LinearOrderedCommRing W]

theorem stateEquiv_refl (a : RelaxState W) : StateEquiv a a :=
  ⟨rfl, rfl, List.Perm.refl _⟩

theorem stateEquiv_trans {a b c : RelaxState W} (h1 : StateEquiv a b) (h2 : StateEquiv b c) :
    StateEquiv a c :=
  ⟨h1.md.trans h2.md, h1.prev.trans h2.prev, h1.queue.trans h2.queue⟩

theorem relaxOne_of_true (dist : W) (u : Nat) (e : Neighbor W) (st : RelaxState W)
    (h : ltDist (dist + e.weight) (st.min_distance.getD e.vertex none) = true) :
    relaxOne dist u e st =
      { min_distance := st.min_distance.set e.vertex (some (dist + e.weight)),
        previous := st.previous.set e.vertex (some u),
        vertex_queue := (dist + e.weight, e.vertex) :: st.vertex_queue } := by
  unfold relaxOne
  rw [if_pos h]

theorem relaxOne_of_false (dist : W) (u : Nat) (e : Neighbor W) (st : RelaxState W)
    (h : ¬ ltDist (dist + e.weight) (st.min_distance.getD e.vertex none) = true) :
    relaxOne dist u e st = st := by
  unfold relaxOne
  rw [if_neg h]

theorem relaxOne_equiv (dist : W) (u : Nat) (e : Neighbor W) (a b : RelaxState W)
    (h : StateEquiv a b) : StateEquiv (relaxOne dist u e a) (relaxOne dist u e b) := by
  by_cases hc : ltDist (dist + e.weight) (a.min_distance.getD e.vertex none) = true
  · have hc1 : ltDist (dist + e.weight) (b.min_distance.getD e.vertex none) = true := by
      rw [← h.md]; exact hc
    rw [relaxOne_of_true dist u e a hc, relaxOne_of_true dist u e b hc1]
    exact ⟨by rw [h.md], by rw [h.prev], List.Perm.cons _ h.queue⟩
  · have hc1 : ¬ ltDist (dist + e.weight) (b.min_distance.getD e.vertex none) = true := by
      rw [← h.md]; exact hc
    rw [relaxOne_of_false dist u e a hc, relaxOne_of_false dist u e b hc1]
    exact h

theorem relaxOne_comm (dist : W) (u : Nat) (e1 e2 : Neighbor W) (st : RelaxState W)
    (hne : e1.vertex ≠ e2.vertex) :
    StateEquiv (relaxOne dist u e2 (relaxOne dist u e1 st))
      (relaxOne dist u e1 (relaxOne dist u e2 st)) := by
  by_cases h1 : ltDist (dist + e1.weight) (st.min_distance.getD e1.vertex none) = true
  · by_cases h2 : ltDist (dist + e2.weight) (st.min_distance.getD e2.vertex none) = true
    · rw [relaxOne_of_true dist u e1 st h1, relaxOne_of_true dist u e2 st h2]
      rw [relaxOne_of_true dist u e2 _
        (by show ltDist _ ((st.min_distance.set e1.vertex _).getD e2.vertex none) = true
            rw [getD_set_of_ne _ _ _ _ _ hne]; exact h2)]
      rw [relaxOne_of_true dist u e1 _
        (by show ltDist _ ((st.min_distance.set e2.vertex _).getD e1.vertex none) = true
            rw [getD_set_of_ne _ _ _ _ _ (Ne.symm hne)]; exact h1)]
      refine ⟨?_, ?_, ?_⟩
      · exact List.set_comm _ _ _ hne
      · exact List.set_comm _ _ _ hne
      · exact List.Perm.swap _ _ _
    · rw [relaxOne_of_true dist u e1 st h1, relaxOne_of_false dist u e2 st h2]
      rw [relaxOne_of_false dist u e2 _
        (by show ¬ ltDist _ ((st.min_distance.set e1.vertex _).getD e2.vertex none) = true
            rw [getD_set_of_ne _ _ _ _ _ hne]; exact h2)]
      rw [relaxOne_of_true dist u e1 st h1]
      exact stateEquiv_refl _
  · by_cases h2 : ltDist (dist + e2.weight) (st.min_distance.getD e2.vertex none) = true
    · rw [relaxOne_of_false dist u e1 st h1, relaxOne_of_true dist u e2 st h2]
      rw [relaxOne_of_false dist u e1 _
        (by show ¬ ltDist _ ((st.min_distance.set e2.vertex _).getD e1.vertex none) = true
            rw [getD_set_of_ne _ _ _ _ _ (Ne.symm hne)]; exact h1)]
      exact stateEquiv_refl _
    · rw [relaxOne_of_false dist u e1 st h1, relaxOne_of_false dist u e2 st h2,
        relaxOne_of_false dist u e1 st h1]
      exact stateEquiv_refl _

theorem relaxNeighbors_equiv (dist : W) (u : Nat) (l : List (Neighbor W)) :
    ∀ a b : RelaxState W, StateEquiv a b →
      StateEquiv (relaxNeighbors dist u l a) (relaxNeighbors dist u l b) := by
  induction l with
  | nil => intro a b h; exact h
  | cons e rest ih =>
    intro a b h
    rw [relaxNeighbors_cons, relaxNeighbors_cons]
    exact ih _ _ (relaxOne_equiv dist u e a b h)

theorem relaxNeighbors_perm (dist : W) (u : Nat) (l1 l2 : List (Neighbor W))
    (hp : l1.Perm l2) :
    (l1.map Neighbor.vertex).Nodup → ∀ a b : RelaxState W, StateEquiv a b →
      StateEquiv (relaxNeighbors dist u l1 a) (relaxNeighbors dist u l2 b) := by
  induction hp with
  | nil => intro _ a b h; exact h
  | cons e _ ih =>
    intro hnd a b h
    simp only [List.map_cons, List.nodup_cons] at hnd
    rw [relaxNeighbors_cons, relaxNeighbors_cons]
    exact ih hnd.2 _ _ (relaxOne_equiv dist u e a b h)
  | swap e1 e2 l =>
    intro hnd a b h
    simp only [List.map_cons, List.nodup_cons, List.mem_cons, not_or] at hnd
    rw [relaxNeighbors_cons, relaxNeighbors_cons, relaxNeighbors_cons, relaxNeighbors_cons]
    apply relaxNeighbors_equiv
    exact stateEquiv_trans (relaxOne_comm dist u e2 e1 a hnd.1.1)
      (relaxOne_equiv dist u e2 _ _ (relaxOne_equiv dist u e1 a b h))
  | trans hp1 _ ih1 ih2 =>
    intro hnd a b h
    have hnd2 := (List.Perm.nodup_iff (List.Perm.map Neighbor.vertex hp1)).1 hnd
    exact stateEquiv_trans (ih1 hnd a a (stateEquiv_refl a)) (ih2 hnd2 a b h)

end PermLemmas


section SimLemmas

variable {vertex_type W : Type} [LinearOrderedCommRing W]

theorem erase_beq_congr {α : Type} (i1 i2 : BEq α) (h1 : @LawfulBEq α i1)
    (h2 : @LawfulBEq α i2) (l : List α) (a : α) :
    @List.erase α i1 l a = @List.erase α i2 l a := by
  induction l with
  | nil => rfl
  | cons b rest ih =>
    rw [@List.erase_cons α i1, @List.erase_cons α i2]
    by_cases hba : b = a
    · have e1 : (@BEq.beq α i1 b a) = true := by rw [hba]; exact @LawfulBEq.rfl α i1 h1 a
      have e2 : (@BEq.beq α i2 b a) = true := by rw [hba]; exact @LawfulBEq.rfl α i2 h2 a
      rw [if_pos e1, if_pos e2]
    · have e1 : ¬ (@BEq.beq α i1 b a) = true :=
        fun hc => hba (@LawfulBEq.eq_of_beq α i1 h1 _ _ hc)
      have e2 : ¬ (@BEq.beq α i2 b a) = true :=
        fun hc => hba (@LawfulBEq.eq_of_beq α i2 h2 _ _ hc)
      rw [if_neg e1, if_neg e2, ih]

theorem perm_erase_lawful {α : Type} [DecidableEq α] (i : BEq α) (hi : @LawfulBEq α i)
    (q1 q2 : List α) (a : α) (h : q1.Perm q2) :
    (@List.erase α i q1 a).Perm (@List.erase α i q2 a) := by
  have hl2 : @LawfulBEq α instBEqOfDecidableEq := inferInstance
  rw [erase_beq_congr i instBEqOfDecidableEq hi hl2 q1 a,
    erase_beq_congr i instBEqOfDecidableEq hi hl2 q2 a]
  exact List.Perm.erase a h

theorem perm_erase_pair (q1 q2 : List (W × Nat)) (a : W × Nat) (h : q1.Perm q2) :
    (q1.erase a).Perm (q2.erase a) :=
  perm_erase_lawful instBEqProd inferInstance q1 q2 a h

theorem relaxStep_equiv (g1 g2 : AbstractGraph vertex_type W)
    (hperm : ∀ u, (g1.neighbors u).Perm (g2.neighbors u))
    (hnd : ∀ u, ((g1.neighbors u).map Neighbor.vertex).Nodup)
    (a b : RelaxState W) (h : StateEquiv a b) :
    (relaxStep g1 a = none → relaxStep g2 b = none) ∧
    ∀ a1, relaxStep g1 a = some a1 → ∃ b1, relaxStep g2 b = some b1 ∧ StateEquiv a1 b1 := by
  have htop := queueTop_perm _ _ h.queue
  unfold relaxStep
  rw [← htop]
  cases hq : queueTop a.vertex_queue with
  | none => exact ⟨fun _ => rfl, fun a1 ha1 => by cases ha1⟩
  | some top =>
    obtain ⟨dist, u⟩ := top
    have herase : StateEquiv
        { a with vertex_queue := a.vertex_queue.erase (dist, u) }
        { b with vertex_queue := b.vertex_queue.erase (dist, u) } :=
      ⟨h.md, h.prev, by
        show (a.vertex_queue.erase (dist, u)).Perm (b.vertex_queue.erase (dist, u))
        exact perm_erase_pair _ _ _ h.queue⟩
    simp only
    have hgb : ltDist dist (b.min_distance.getD u none) =
        ltDist dist (a.min_distance.getD u none) := by rw [h.md]
    rw [hgb]
    by_cases hg : ltDist dist (a.min_distance.getD u none) = true
    · rw [if_pos hg, if_pos hg]
      refine ⟨fun hc => Option.noConfusion hc, ?_⟩
      intro a1 ha1
      cases ha1
      exact ⟨_, rfl, herase⟩
    · rw [if_neg hg, if_neg hg]
      refine ⟨fun hc => Option.noConfusion hc, ?_⟩
      intro a1 ha1
      cases ha1
      exact ⟨_, rfl, relaxNeighbors_perm dist u _ _ (hperm u) (hnd u) _ _ herase⟩

theorem relaxLoop_equiv (g1 g2 : AbstractGraph vertex_type W)
    (hperm : ∀ u, (g1.neighbors u).Perm (g2.neighbors u))
    (hnd : ∀ u, ((g1.neighbors u).map Neighbor.vertex).Nodup) :
    ∀ (fuel : Nat) (a b : RelaxState W), StateEquiv a b →
      ∀ ra, relaxLoop g1 fuel a = some ra →
        ∃ rb, relaxLoop g2 fuel b = some rb ∧ StateEquiv ra rb := by
  intro fuel
  induction fuel with
  | zero =>
    intro a b h ra hra
    simp only [relaxLoop] at hra ⊢
    by_cases hq : a.vertex_queue = []
    · rw [if_pos hq] at hra
      cases hra
      have hqb : b.vertex_queue = [] := by
        have := h.queue
        rw [hq] at this
        exact (List.Perm.nil_eq this).symm
      rw [if_pos hqb]
      exact ⟨b, rfl, h⟩
    · rw [if_neg hq] at hra; cases hra
  | succ fuel ih =>
    intro a b h ra hra
    obtain ⟨hnone, hsome⟩ := relaxStep_equiv g1 g2 hperm hnd a b h
    simp only [relaxLoop] at hra ⊢
    cases hstep : relaxStep g1 a with
    | none =>
      rw [hstep] at hra
      cases hra
      rw [hnone hstep]
      exact ⟨b, rfl, h⟩
    | some a1 =>
      rw [hstep] at hra
      obtain ⟨b1, hb1, he⟩ := hsome a1 hstep
      rw [hb1]
      exact ih a1 b1 he ra hra

theorem path_equiv (sp1 sp2 : ShortestPath vertex_type W) (hV : sp1.g.V = sp2.g.V)
    (hperm : ∀ u, (sp1.g.neighbors u).Perm (sp2.g.neighbors u))
    (hnd : ∀ u, ((sp1.g.neighbors u).map Neighbor.vertex).Nodup)
    (fuel s t : Nat) (p : List Nat) (h : (sp1.path fuel s t).map Prod.snd = some p) :
    (sp2.path fuel s t).map Prod.snd = some p := by
  unfold ShortestPath.path at h ⊢
  cases hl : relaxLoop sp1.g fuel (ShortestPath.initState sp1.g.V s) with
  | none => rw [hl] at h; cases h
  | some ra =>
    rw [hl] at h
    obtain ⟨rb, hrb, he⟩ := relaxLoop_equiv sp1.g sp2.g hperm hnd fuel
      (ShortestPath.initState sp1.g.V s) (ShortestPath.initState sp1.g.V s)
      (stateEquiv_refl _) ra hl
    rw [← hV, hrb]
    simp only at h ⊢
    rw [← he.prev]
    cases hw : walkBack ra.previous fuel (some t) [] with
    | none => rw [hw] at h; cases h
    | some w =>
      rw [hw] at h
      exact h

theorem SameEdges.neighbors_perm (g1 g2 : AbstractGraph vertex_type W) (n : Nat)
    (h : SameEdges g1 g2 n) (u : Nat) : (g1.neighbors u).Perm (g2.neighbors u) := by
  have hg1 := g1.good_of_wellFormed h.wf1
  have hg2 := g2.good_of_wellFormed h.wf2
  have hnd1 : (g1.neighbors u).Nodup := List.Nodup.of_map _ (g1.neighbors_nodup h.wf1 u)
  have hnd2 : (g2.neighbors u).Nodup := List.Nodup.of_map _ (g2.neighbors_nodup h.wf2 u)
  rw [List.perm_ext_iff_of_nodup hnd1 hnd2]
  intro e
  constructor
  · intro he
    have hadj := (hg1.adj u e.vertex).2 ⟨e, he, rfl⟩
    rw [h.adj] at hadj
    obtain ⟨e2, he2, hev⟩ := (hg2.adj u e.vertex).1 hadj
    have hw : e2.weight = e.weight := by
      rw [← hg2.value u e2 he2, hev, ← h.value, hg1.value u e he]
    have : e2 = e := by
      cases e; cases e2
      simp only at hev hw
      rw [hev, hw]
    rw [← this]; exact he2
  · intro he
    have hadj := (hg2.adj u e.vertex).2 ⟨e, he, rfl⟩
    rw [← h.adj] at hadj
    obtain ⟨e1, he1, hev⟩ := (hg1.adj u e.vertex).1 hadj
    have hw : e1.weight = e.weight := by
      rw [← hg1.value u e1 he1, hev, h.value, hg2.value u e he]
    have : e1 = e := by
      cases e; cases e1
      simp only at hev hw
      rw [hev, hw]
    rw [← this]; exact he1

theorem sameEdges_deleteEdge (g1 g2 : AbstractGraph vertex_type W) (n : Nat)
    (h : SameEdges g1 g2 n) (x y : Nat) (hx : x < n) (hy : y < n) :
    SameEdges (g1.deleteEdge x y) (g2.deleteEdge x y) n := by
  have hx1 : x < g1.V := by rw [h.v1]; exact hx
  have hy1 : y < g1.V := by rw [h.v1]; exact hy
  have hx2 : x < g2.V := by rw [h.v2]; exact hx
  have hy2 : y < g2.V := by rw [h.v2]; exact hy
  constructor
  · exact g1.graph_wellFormed_deleteEdge h.wf1 x y
  · exact g2.graph_wellFormed_deleteEdge h.wf2 x y
  · rw [g1.V_deleteEdge]; exact h.v1
  · rw [g2.V_deleteEdge]; exact h.v2
  · intro a b
    rw [g1.get_edge_value_deleteEdge h.wf1 x y hx1 hy1,
      g2.get_edge_value_deleteEdge h.wf2 x y hx2 hy2, h.value a b]
  · intro a b
    rw [g1.adjacent_deleteEdge h.wf1 x y hx1 hy1, g2.adjacent_deleteEdge h.wf2 x y hx2 hy2,
      h.adj a b]
  · intro a b
    rw [g1.adjacent_deleteEdge h.wf1 x y hx1 hy1, g1.get_edge_value_deleteEdge h.wf1 x y hx1 hy1]
    by_cases hab : a = x ∧ b = y
    · simp [hab]
    · simp only [if_neg hab]; exact h.pos a b

theorem sameEdges_applyCalls (n : Nat) (calls : List (EdgeCall W))
    (hcalls : ∀ c ∈ calls, c.Valid n) :
    ∀ (g1 g2 : AbstractGraph vertex_type W), SameEdges g1 g2 n →
      SameEdges (g1.applyCalls calls) (g2.applyCalls calls) n := by
  induction calls with
  | nil => intro g1 g2 h; exact h
  | cons c rest ih =>
    intro g1 g2 h
    have hc := hcalls c (List.mem_cons_self _ _)
    have hrest : ∀ c1 ∈ rest, c1.Valid n := fun c1 hc1 => hcalls c1 (List.mem_cons_of_mem _ hc1)
    cases c with
    | add x y w =>
      obtain ⟨hx, hy, hw⟩ := hc
      exact ih hrest _ _ (sameEdges_addEdge g1 g2 n h x y w hx hy hw)
    | delete x y =>
      obtain ⟨hx, hy⟩ := hc
      exact ih hrest _ _ (sameEdges_deleteEdge g1 g2 n h x y hx hy)

end SimLemmas

section Claims19

variable {vertex_type W : Type} [LinearOrderedCommRing W]

/-- C19: for every vertex count `n` and every sequence of `addEdge` (strictly
positive weight) and `deleteEdge` calls with in-range indices, applied to a
fresh `AdjListGraph(n)` and to a fresh `MatrixGraph(n)`, `path(s, t)` returns
the same vertex sequence on both graphs for all in-range `s`, `t`, whatever
the order in which `neighbors` lists the edges and also when optimal paths tie. -/
theorem backends_return_same_path (n : Nat) (calls : List (EdgeCall W))
    (hcalls : ∀ c ∈ calls, c.Valid n) (s t : Nat) (hs : s < n) (_ht : t < n) :
    ∃ (fuel0 : Nat) (p : List Nat), ∀ fuel, fuel0 ≤ fuel →
      ((ShortestPath.create ((AbstractGraph.adjList
          (AdjListGraph.create vertex_type W n)).applyCalls calls)).path fuel s t).map
        Prod.snd = some p ∧
      ((ShortestPath.create ((AbstractGraph.matrix
          (MatrixGraph.create vertex_type W n)).applyCalls calls)).path fuel s t).map
        Prod.snd = some p := by
  have hsame := sameEdges_applyCalls n calls hcalls _ _ (@sameEdges_create vertex_type W _ n)
  obtain ⟨hnn1, -⟩ := SameEdges.nonNeg _ _ n hsame
  obtain ⟨fuel0, st, p, -, -, -, hpath, -⟩ :=
    path_master (ShortestPath.create ((AbstractGraph.adjList
      (AdjListGraph.create vertex_type W n)).applyCalls calls))
      (AbstractGraph.good_of_wellFormed _ hsame.wf1) hnn1 s t
      (by
        have hV : (ShortestPath.create ((AbstractGraph.adjList
          (AdjListGraph.create vertex_type W n)).applyCalls calls)).g.V = n := hsame.v1
        rw [hV]; exact hs)
  refine ⟨fuel0, p, fun fuel hf => ?_⟩
  have h1 : ((ShortestPath.create ((AbstractGraph.adjList
      (AdjListGraph.create vertex_type W n)).applyCalls calls)).path fuel s t).map
        Prod.snd = some p := by
    rw [hpath fuel hf]; rfl
  refine ⟨h1, ?_⟩
  exact path_equiv _ _ (hsame.v1.trans hsame.v2.symm)
    (SameEdges.neighbors_perm _ _ n hsame)
    (fun u => AbstractGraph.neighbors_nodup _ hsame.wf1 u) fuel s t p h1

theorem backends_return_same_path_witness :
    (∀ c ∈ [EdgeCall.add 0 1 (2 : ℤ), EdgeCall.add 0 2 1, EdgeCall.add 2 1 1,
        EdgeCall.delete 0 2], c.Valid 3) ∧ 0 < 3 ∧ 1 < 3 ∧
    ∃ (fuel0 : Nat) (p : List Nat), ∀ fuel, fuel0 ≤ fuel →
      ((ShortestPath.create ((AbstractGraph.adjList
          (AdjListGraph.create ℤ ℤ 3)).applyCalls
            [EdgeCall.add 0 1 (2 : ℤ), EdgeCall.add 0 2 1, EdgeCall.add 2 1 1,
              EdgeCall.delete 0 2])).path fuel 0 1).map Prod.snd = some p ∧
      ((ShortestPath.create ((AbstractGraph.matrix
          (MatrixGraph.create ℤ ℤ 3)).applyCalls
            [EdgeCall.add 0 1 (2 : ℤ), EdgeCall.add 0 2 1, EdgeCall.add 2 1 1,
              EdgeCall.delete 0 2])).path fuel 0 1).map Prod.snd = some p :=
  ⟨by decide, by decide, by decide,
   backends_return_same_path 3 _ (by decide) 0 1 (by decide) (by decide)⟩

end Claims19

section ClaimsEvaluated

set_option maxRecDepth 100000 in
theorem guard_never_true_witness :
    staleGraph.WellFormed ∧ 0 < staleGraph.V ∧
    relaxPasses staleGraph 4 (ShortestPath.initState staleGraph.V 0) =
      some { min_distance := [some 0, some 2, some 1, some 3],
             previous := [none, some 2, some 0, some 1],
             vertex_queue := [(10, 1)] } ∧
    ((∀ d v, (d, v) ∈ [((10 : ℤ), 1)] →
        ∃ m, [some (0 : ℤ), some 2, some 1, some 3].getD v none = some m ∧ m ≤ d) ∧
     (∀ dist u, queueTop [((10 : ℤ), 1)] = some (dist, u) →
        ltDist dist ([some (0 : ℤ), some 2, some 1, some 3].getD u none) = false ∧
        relaxStep staleGraph
            { min_distance := [some 0, some 2, some 1, some 3],
              previous := [none, some 2, some 0, some 1],
              vertex_queue := [(10, 1)] } =
          some (relaxNeighbors dist u (staleGraph.neighbors u)
            { min_distance := [some 0, some 2, some 1, some 3],
              previous := [none, some 2, some 0, some 1],
              vertex_queue := [((10 : ℤ), 1)].erase (dist, u) }))) :=
  ⟨by decide, by decide, by rfl,
   guard_never_true staleGraph (by decide) 0 (by decide) 4 _ (by rfl)⟩

theorem adjList_edge_count_witness :
    (AbstractGraph.adjList ((AdjListGraph.create ℤ ℤ 3).addEdge 0 1 5)).Reachable ∧
    ((∀ x, ((((AdjListGraph.create ℤ ℤ 3).addEdge 0 1 5).neighbors x).map Neighbor.vertex).Nodup) ∧
     ((AdjListGraph.create ℤ ℤ 3).addEdge 0 1 5).E =
       (((AdjListGraph.create ℤ ℤ 3).addEdge 0 1 5).entryCount : Int) ∧
     ((AdjListGraph.create ℤ ℤ 3).addEdge 0 1 5).E =
       ((AbstractGraph.adjList ((AdjListGraph.create ℤ ℤ 3).addEdge 0 1 5)).adjacentPairs : Int) ∧
     0 ≤ ((AdjListGraph.create ℤ ℤ 3).addEdge 0 1 5).E ∧
     ((AdjListGraph.create ℤ ℤ 3).addEdge 0 1 5).E ≤
       ((((AdjListGraph.create ℤ ℤ 3).addEdge 0 1 5).V *
         ((AdjListGraph.create ℤ ℤ 3).addEdge 0 1 5).V : Nat) : Int)) :=
  ⟨AbstractGraph.Reachable.addEdge (AbstractGraph.adjList (AdjListGraph.create ℤ ℤ 3)) 0 1 5
      (AbstractGraph.Reachable.createList 3) (by decide) (by decide),
   adjList_edge_count _
     (AbstractGraph.Reachable.addEdge (AbstractGraph.adjList (AdjListGraph.create ℤ ℤ 3)) 0 1 5
       (AbstractGraph.Reachable.createList 3) (by decide) (by decide))⟩

/-- C13 (failing input): on a fresh `MatrixGraph(2)`, `addEdge(0, 1, 0)` takes the
cell `(0, 1)` from zero to zero and still raises `E()` from 0 to 1, while no
pair `(x, y)` has `adjacent(x, y)`. -/
theorem matrix_addEdge_zero_weight_miscounts :
    (MatrixGraph.create ℤ ℤ 2).cell 0 1 = 0 ∧
    ((MatrixGraph.create ℤ ℤ 2).addEdge 0 1 0).cell 0 1 = 0 ∧
    (MatrixGraph.create ℤ ℤ 2).E = 0 ∧
    ((MatrixGraph.create ℤ ℤ 2).addEdge 0 1 0).E = 1 ∧
    (AbstractGraph.matrix ((MatrixGraph.create ℤ ℤ 2).addEdge 0 1 0)).adjacentPairs = 0 := by
  decide

/-- C14 (failing input): on a fresh `AdjListGraph(3)`, `set_node_value(1, 42)`
leaves the object as it was and `get_node_value(1)` then reads outside
`vertices`; neither kind of graph returns 42. -/
theorem adjList_set_node_value_stores_nothing :
    (AdjListGraph.create ℤ ℤ 3).set_node_value 1 42 = AdjListGraph.create ℤ ℤ 3 ∧
    ((AdjListGraph.create ℤ ℤ 3).set_node_value 1 42).get_node_value 1 = none ∧
    ((AbstractGraph.adjList (AdjListGraph.create ℤ ℤ 3)).set_node_value 1 42).get_node_value 1
      ≠ some 42 ∧
    ((AbstractGraph.matrix (MatrixGraph.create ℤ ℤ 3)).set_node_value 1 42).get_node_value 1
      ≠ some 42 := by
  refine ⟨rfl, ?_, ?_, ?_⟩ <;> decide

/-- C15 (failing input): with `x = 0`, `y = 1`, `w = -5` the assertions of
`addEdge` and of `set_edge_value` hold on both kinds of graph, and afterwards
`get_edge_value(0, 1)` is `-5`. -/
theorem negative_weight_passes_assert :
    ((AbstractGraph.adjList (AdjListGraph.create ℤ ℤ 2)).addEdge_checked 0 1 (-5)).map
      (fun g => g.get_edge_value 0 1) = some (-5) ∧
    ((AbstractGraph.matrix (MatrixGraph.create ℤ ℤ 2)).addEdge_checked 0 1 (-5)).map
      (fun g => g.get_edge_value 0 1) = some (-5) ∧
    (((AbstractGraph.adjList (AdjListGraph.create ℤ ℤ 2)).addEdge 0 1 3).set_edge_value_checked
      0 1 (-5)).map (fun g => g.get_edge_value 0 1) = some (-5) ∧
    (((AbstractGraph.matrix (MatrixGraph.create ℤ ℤ 2)).addEdge 0 1 3).set_edge_value_checked
      0 1 (-5)).map (fun g => g.get_edge_value 0 1) = some (-5) := by
  decide

/-- C18 (failing input): for `graph_size = 1` with the edge draw succeeding at
`(0, 0)`, the loop executes the pair of `addEdge` calls once, `E()` is 1 and the
printed `E()/2` is 0. -/
theorem random_graph_self_loop_miscount :
    (MonteCarloSimulation.generateEdges ℤ 1 (fun _ _ => true) (fun _ _ => (5 : ℤ))).2 = 1 ∧
    (MonteCarloSimulation.generateEdges ℤ 1 (fun _ _ => true) (fun _ _ => (5 : ℤ))).1.E = 1 ∧
    MonteCarloSimulation.printedEdges
      (MonteCarloSimulation.generateEdges ℤ 1 (fun _ _ => true) (fun _ _ => (5 : ℤ))).1 = 0 := by
  decide

set_option maxRecDepth 100000 in
/-- C17 (failing input): in `path(0, 3)` on `staleGraph` the fifth pass pops the
stale entry `(10, 1)` while `min_distance[1]` is 2; the guard
`dist < min_distance[u]` is false there, so the entry is not skipped (the
neighbour loop of that pass finds nothing to improve).  On the
loop state `min_distance = [0, inf]`, queue `[(5, 0)]` with the edge `0 -> 1`
of weight 1 the same body, popping the stale `(5, 0)`, sets `min_distance[1]`
to 6, `previous[1]` to 0 and pushes `(6, 1)`. -/
theorem stale_entry_is_expanded :
    (relaxPasses staleGraph 4 (ShortestPath.initState staleGraph.V 0)).map
        (fun st => (st.min_distance, st.previous, st.vertex_queue)) =
      some ([some 0, some 2, some 1, some 3], [none, some 2, some 0, some 1], [(10, 1)]) ∧
    (relaxPasses staleGraph 4 (ShortestPath.initState staleGraph.V 0)).map
        (fun st => queueTop st.vertex_queue) = some (some (10, 1)) ∧
    (relaxPasses staleGraph 4 (ShortestPath.initState staleGraph.V 0)).map
        (fun st => ltDist 10 (st.min_distance.getD 1 none)) = some false ∧
    (relaxPasses staleGraph 5 (ShortestPath.initState staleGraph.V 0)).map
        (fun st => (st.min_distance, st.previous, st.vertex_queue)) =
      some ([some 0, some 2, some 1, some 3], [none, some 2, some 0, some 1], []) ∧
    (relaxStep ((AbstractGraph.adjList (AdjListGraph.create ℤ ℤ 2)).addEdge 0 1 1)
        { min_distance := [some 0, none], previous := [none, none],
          vertex_queue := [(5, 0)] }).map
        (fun st => (st.min_distance, st.previous, st.vertex_queue)) =
      some ([some 0, some 6], [none, some 0], [(6, 1)]) := by
  refine ⟨?_, ?_, ?_, ?_, ?_⟩
  · decide
  · decide
  · decide
  · decide
  · decide

end ClaimsEvaluated
